import Mathlib

/-!
# driftctl ignore filter (`pkg/filter/driftignore.go`)

A shallow embedding of the `.driftignore` rule engine: the line tokenizer
`readDriftIgnoreLine`, the unescaper `unescapeDriftIgnoreLine`, the listing escape
`escapeKey`, the recursive matcher `wildcardMatchChecker`, the line loop of
`readIgnoreFile` with the line scanner that feeds it, and the two queries `IsResourceIgnored`
and `IsFieldIgnored`.

Go strings are byte sequences: indexing, slicing and `len` count bytes, while
`for i := range s` visits the byte offset at which each UTF-8 encoded character starts.
-/

namespace Driftignore

/-! ## Go strings and the `strings` functions the filter calls -/

/-- A Go string: a sequence of bytes, each written as a natural number. -/
abbrev GoString := List Nat

/-- The bytes of a literal made of ASCII characters only. -/
def ascii (s : String) : GoString := s.toList.map Char.toNat

/-- The byte `.`. -/
abbrev dot : Nat := 46
/-- The byte `\`. -/
abbrev backslash : Nat := 92
/-- The byte `*`. -/
abbrev star : Nat := 42
/-- The byte `#`. -/
abbrev hash : Nat := 35

/-- Every byte is below 0x80, so every character of the string is one byte long. -/
def isASCII (s : GoString) : Prop := ∀ b ∈ s, b < 128

instance (s : GoString) : Decidable (isASCII s) := by
  unfold isASCII; infer_instance

/-- Go `strings.HasPrefix(s, p)`. -/
def hasPrefix (s p : GoString) : Bool := p.isPrefixOf s

/-- Go `strings.Contains(s, sub)`: `sub` occurs at some byte offset of `s`. -/
def strContains : GoString → GoString → Bool
  | [], sub => sub.isPrefixOf []
  | c :: s, sub => sub.isPrefixOf (c :: s) || strContains s sub

/-- Go `strings.ReplaceAll(s, old, new)` for a non-empty `old`: a left-to-right scan that
replaces each non-overlapping occurrence. The first argument counts the bytes of a matched
occurrence that are still to be skipped. -/
def replaceAllAux (old new : GoString) : Nat → GoString → GoString
  | _, [] => []
  | k + 1, _ :: s => replaceAllAux old new k s
  | 0, c :: s =>
    if old.isPrefixOf (c :: s) then new ++ replaceAllAux old new (old.length - 1) s
    else c :: replaceAllAux old new 0 s

/-- Go `strings.ReplaceAll(s, old, new)` for a non-empty `old`. -/
def replaceAll (s old new : GoString) : GoString := replaceAllAux old new 0 s

/-- Go `strings.Join(elems, sep)`. -/
def join (elems : List GoString) (sep : GoString) : GoString := sep.intercalate elems

/-- Go slice expression `s[lo:hi]`. -/
def slice (s : GoString) (lo hi : Nat) : GoString := (s.drop lo).take (hi - lo)

/-- Go index expression `s[i]` (the default is never read when `i < len(s)`). -/
def byteAt (s : GoString) (i : Nat) : Nat := s.getD i 0

/-! ## `for i := range s` -/

/-- A UTF-8 continuation byte, `0x80..0xBF`. -/
def isCont (b : Nat) : Bool := decide (128 ≤ b) && decide (b ≤ 191)

/-- The number of bytes consumed by Go when it decodes the character at the head of a
non-empty string: the length of a well-formed UTF-8 encoding, and 1 for anything else
(an ASCII byte, or an invalid or truncated encoding, which decodes to U+FFFD). -/
def runeWidth : GoString → Nat
  | [] => 0
  | b0 :: rest =>
    if b0 < 128 then 1
    else if 194 ≤ b0 ∧ b0 ≤ 223 then
      match rest with
      | b1 :: _ => if isCont b1 then 2 else 1
      | _ => 1
    else if 224 ≤ b0 ∧ b0 ≤ 239 then
      match rest with
      | b1 :: b2 :: _ =>
        if isCont b1 && isCont b2 && !(b0 == 224 && decide (b1 < 160))
            && !(b0 == 237 && decide (160 ≤ b1)) then 3 else 1
      | _ => 1
    else if 240 ≤ b0 ∧ b0 ≤ 244 then
      match rest with
      | b1 :: b2 :: b3 :: _ =>
        if isCont b1 && isCont b2 && isCont b3 && !(b0 == 240 && decide (b1 < 144))
            && !(b0 == 244 && decide (144 ≤ b1)) then 4 else 1
      | _ => 1
    else 1

/-- The offsets visited by `for i := range s`, from offset `i` on; `skip` is the number of
bytes of the current character still to be passed over. -/
def rangeOffsets : Nat → Nat → GoString → List Nat
  | _, _, [] => []
  | 0, i, b :: rest => i :: rangeOffsets (runeWidth (b :: rest) - 1) (i + 1) rest
  | k + 1, i, _ :: rest => rangeOffsets k (i + 1) rest

/-- The values taken by `i` in `for i := range s`. -/
def rangeIdx (s : GoString) : List Nat := rangeOffsets 0 0 s

/-! ## The filter state -/

/-- The three rule collections of `DriftIgnore`. The two `map[string]struct{}` sets are kept
as lists of keys, the `map[string][]string` as a list of key/value pairs. -/
structure DriftIgnore where
  /-- Keys `type.id` of resources to ignore. -/
  resExclusionList : List GoString
  /-- Keys `type.id` containing a wildcard. -/
  resExclusionWildcardList : List GoString
  /-- For a key `type.id`, the field paths to ignore. -/
  driftExclusionList : List (GoString × List GoString)
deriving DecidableEq, Repr

/-- The part of `resource.Resource` the filter reads: `TerraformType()` and `TerraformId()`. -/
structure Resource where
  /-- Result of `TerraformType()`. -/
  TerraformType : GoString
  /-- Result of `TerraformId()`. -/
  TerraformId : GoString
deriving DecidableEq, Repr

/-- The state built by `NewDriftIgnore` before the file is read. -/
def emptyDriftIgnore : DriftIgnore := ⟨[], [], []⟩

/-- Go `m[k] = struct{}{}` on a set. -/
def setAdd (m : List GoString) (k : GoString) : List GoString :=
  if k ∈ m then m else m ++ [k]

/-- Go `v, ok := m[k]`: `none` when the key is absent. -/
def mapGet (m : List (GoString × List GoString)) (k : GoString) : Option (List GoString) :=
  match m with
  | [] => none
  | (k1, v) :: rest => if k1 = k then some v else mapGet rest k

/-- Go `m[k] = v`. -/
def mapSet (m : List (GoString × List GoString)) (k : GoString) (v : List GoString) :
    List (GoString × List GoString) :=
  match m with
  | [] => [(k, v)]
  | (k1, v1) :: rest => if k1 = k then (k, v) :: rest else (k1, v1) :: mapSet rest k v

/-- The key `fmt.Sprintf("%s.%s", type, id)`. -/
def resKey (ty id : GoString) : GoString := ty ++ dot :: id

/-! ## `wildcardMatchChecker` -/

/-- The recursive matcher `wildcardMatchChecker(str, pattern)`. -/
def wildcardMatchChecker (str pattern : GoString) : Bool :=
  if str = [] ∧ pattern = [] then true
  else if hasPrefix pattern [star] then
    if str ≠ [] then
      wildcardMatchChecker (str.drop 1) pattern || wildcardMatchChecker str (pattern.drop 1)
    else wildcardMatchChecker str (pattern.drop 1)
  else if str ≠ [] ∧ pattern ≠ [] ∧ byteAt str 0 = byteAt pattern 0 then
    wildcardMatchChecker (str.drop 1) (pattern.drop 1)
  else false
termination_by str.length + pattern.length
decreasing_by
  all_goals simp_wf
  all_goals
    cases str <;> cases pattern <;> simp_all [hasPrefix] <;> omega

/-! ## `unescapeDriftIgnoreLine` and `readDriftIgnoreLine` -/

/-- One iteration of the loop of `unescapeDriftIgnoreLine`; the state is
`(res, lastEscapeEnd)`. -/
def unescapeStep (line : GoString) (st : GoString × Nat) (i : Nat) : GoString × Nat :=
  if byteAt line i = backslash then
    if i + 1 < line.length ∧ byteAt line (i + 1) = backslash then st
    else if i > 1 ∧ byteAt line (i - 1) = backslash then
      (st.1 ++ slice line st.2 i, i + 1)
    else (st.1 ++ slice line st.2 i, i + 1)
  else if i = line.length - 1 then (st.1 ++ line.drop st.2, st.2)
  else st

/-- The function `unescapeDriftIgnoreLine(line)`. -/
def unescapeDriftIgnoreLine (line : GoString) : GoString :=
  ((rangeIdx line).foldl (unescapeStep line) ([], 0)).1

/-- The loop `for strings.Contains(line, "**") { line = strings.ReplaceAll(line, "**", "*") }`,
run for at most `fuel` iterations. -/
def collapseLoop : Nat → GoString → GoString
  | 0, line => line
  | fuel + 1, line =>
    if strContains line [star, star] then collapseLoop fuel (replaceAll line [star, star] [star])
    else line

/-- The loop at the head of `readDriftIgnoreLine`. Every iteration that runs shortens the
line, so `len(line)` iterations are enough for it to exit (`collapseStars_exits`). -/
def collapseStars (line : GoString) : GoString := collapseLoop line.length line

/-- The separator test of `readDriftIgnoreLine` at offset `i`. -/
def isSeparator (line : GoString) (i : Nat) : Bool :=
  byteAt line i == dot &&
    ((decide (i ≥ 1) && byteAt line (i - 1) != backslash) ||
      (decide (i ≥ 2) && byteAt line (i - 1) == backslash && byteAt line (i - 2) == backslash))

/-- One iteration of the splitting loop of `readDriftIgnoreLine`; the state is
`(splitted, lastWordEnd)`. -/
def readStep (line : GoString) (st : List GoString × Nat) (i : Nat) : List GoString × Nat :=
  if isSeparator line i then
    (st.1 ++ [unescapeDriftIgnoreLine (slice line st.2 i)], i + 1)
  else if i = line.length - 1 then
    (st.1 ++ [unescapeDriftIgnoreLine (line.drop st.2)], st.2)
  else st

/-- The splitting loop of `readDriftIgnoreLine`, on the line with its asterisks collapsed. -/
def splitLine (line : GoString) : List GoString :=
  ((rangeIdx line).foldl (readStep line) ([], 0)).1

/-- The function `readDriftIgnoreLine(line)`. -/
def readDriftIgnoreLine (line : GoString) : List GoString :=
  splitLine (collapseStars line)

/-- The function `escapeKey(line)`. -/
def escapeKey (line : GoString) : GoString :=
  replaceAll (replaceAll line [backslash] [backslash, backslash]) [dot] [backslash, dot]

/-! ## Loading rules: the line loop of `readIgnoreFile` -/

/-- The body of the line loop of `readIgnoreFile`, for one line returned by the scanner. -/
def loadLine (r : DriftIgnore) (line : GoString) : DriftIgnore :=
  if line = [] ∨ hasPrefix line [hash] then r
  else
    let typeVal := readDriftIgnoreLine line
    let nbArgs := typeVal.length
    if nbArgs < 2 then r
    else
      let res := join (typeVal.take 2) [dot]
      if nbArgs = 2 then
        if strContains res [star] then
          { r with resExclusionWildcardList := setAdd r.resExclusionWildcardList res }
        else
          { r with resExclusionList := setAdd r.resExclusionList res }
      else
        let ignoreSublist := (mapGet r.driftExclusionList res).getD []
        let path := join (typeVal.drop 2) [dot]
        { r with driftExclusionList := mapSet r.driftExclusionList res (ignoreSublist ++ [path]) }

/-- The line loop of `readIgnoreFile` run on the lines that `scanner.Scan()` delivers, in
order. Which lines a file delivers, and where the scanner stops, is `scanLines`. -/
def loadLines (r : DriftIgnore) (lines : List GoString) : DriftIgnore :=
  lines.foldl loadLine r

/-- The filter `NewDriftIgnore` builds when the scanner delivers exactly the given lines, in
order. The filter built from the content of a file is `NewDriftIgnoreOfFile`. -/
def NewDriftIgnore (lines : List GoString) : DriftIgnore :=
  loadLines emptyDriftIgnore lines

/-! ## Reading the file: `bufio.Scanner` with `bufio.ScanLines` -/

/-- The byte `\n`. -/
abbrev lineFeed : Nat := 10
/-- The byte `\r`. -/
abbrev carriageReturn : Nat := 13

/-- The constant `bufio.MaxScanTokenSize`, the size the buffer of a scanner made by
`bufio.NewScanner` cannot exceed. -/
def maxScanTokenSize : Nat := 65536

/-- The function `dropCR` of `bufio`: one trailing `\r` is removed. -/
def dropCR (data : GoString) : GoString :=
  if data.getLast? = some carriageReturn then data.dropLast else data

/-- The pieces `bufio.ScanLines` cuts a content into, before `dropCR`: the content is cut at
every `\n`, and what follows the last `\n` is a piece when it is not empty. `cur` is the part
of the current piece already read. -/
def rawLinesAux (cur : GoString) : GoString → List GoString
  | [] => if cur = [] then [] else [cur]
  | c :: rest =>
    if c = lineFeed then cur :: rawLinesAux [] rest else rawLinesAux (cur ++ [c]) rest

/-- The pieces `bufio.ScanLines` cuts a content into, before `dropCR`. -/
def rawLines (content : GoString) : List GoString := rawLinesAux [] content

/-- The lines `scanner.Scan()` delivers for a content, in order. A piece and its `\n` must fit
in the buffer: at the first piece of `maxScanTokenSize` bytes or more `Scan` returns false with
`ErrTooLong`, and neither that piece nor anything after it is delivered. -/
def scanLines (content : GoString) : List GoString :=
  ((rawLines content).takeWhile fun l => decide (l.length < maxScanTokenSize)).map dropCR

/-- The method `readIgnoreFile()` on the content of `.driftignore`, `none` when the file cannot
be opened: the rules are loaded from the lines the scanner delivers. An error of the scanner is
returned after the loop, with the rules loaded so far kept in place. -/
def readIgnoreFile (r : DriftIgnore) (file : Option GoString) : DriftIgnore :=
  match file with
  | none => r
  | some content => loadLines r (scanLines content)

/-- The function `NewDriftIgnore()` on the content of `.driftignore`, `none` when the file
cannot be opened: the error of `readIgnoreFile` is logged and the filter returned. -/
def NewDriftIgnoreOfFile (file : Option GoString) : DriftIgnore :=
  readIgnoreFile emptyDriftIgnore file

/-- The content of a file that holds the given lines, each ended by `\n`. -/
def fileOfLines (lines : List GoString) : GoString :=
  lines.flatMap fun l => l ++ [lineFeed]

/-- A line that fits in the buffer of a scanner: it has no `\n` and is shorter than
`maxScanTokenSize` bytes, a trailing `\r` counted. -/
def isShortLine (l : GoString) : Bool :=
  decide (lineFeed ∉ l) && decide (l.length < maxScanTokenSize)

/-- A line that a scanner can deliver as it stands: it has no `\n`, does not end in `\r`, and
is shorter than `maxScanTokenSize` bytes. -/
def isScannable (l : GoString) : Bool :=
  decide (lineFeed ∉ l) && decide (l.getLast? ≠ some carriageReturn) &&
    decide (l.length < maxScanTokenSize)

/-! ## The two queries -/

/-- The method `IsResourceIgnored(res)`. -/
def IsResourceIgnored (r : DriftIgnore) (res : Resource) : Bool :=
  let strRes := resKey res.TerraformType res.TerraformId
  if strRes ∈ r.resExclusionList then true
  else r.resExclusionWildcardList.any fun resExclusion => wildcardMatchChecker strRes resExclusion

/-- The inner loop of `isExcluded` for one tokenised rule, entered when
`len(path) <= len(changePath)`; `equalFold` stands for Go `strings.EqualFold`. -/
def ruleMatches (equalFold : GoString → GoString → Bool) (path changePath : List GoString) :
    Bool :=
  (List.range path.length).all fun i =>
    !(!equalFold (path.getD i []) (changePath.getD i []) && path.getD i [] != [star])

/-- The method `isExcluded(rules, changePath)`; `equalFold` stands for Go
`strings.EqualFold`. -/
def isExcluded (equalFold : GoString → GoString → Bool) (rules : List GoString)
    (changePath : List GoString) : Bool :=
  rules.any fun rule =>
    let path := readDriftIgnoreLine rule
    if path.length > changePath.length then false
    else ruleMatches equalFold path changePath

/-- The method `IsFieldIgnored(res, path)`; `equalFold` stands for Go `strings.EqualFold`. -/
def IsFieldIgnored (equalFold : GoString → GoString → Bool) (r : DriftIgnore) (res : Resource)
    (path : List GoString) : Bool :=
  let exclusionRules := mapGet r.driftExclusionList (resKey res.TerraformType res.TerraformId)
  let exclusionWildcardRules := mapGet r.driftExclusionList (res.TerraformType ++ [dot, star])
  match exclusionRules, exclusionWildcardRules with
  | none, none => false
  | some rules, _ => isExcluded equalFold rules path
  | none, some rules => isExcluded equalFold rules path

/-- The ASCII case of Go `strings.EqualFold`: bytes are equal up to the case of the letters
`A`..`Z`. -/
def asciiLower (b : Nat) : Nat := if 65 ≤ b ∧ b ≤ 90 then b + 32 else b

/-- Go `strings.EqualFold` on strings of ASCII bytes. -/
def asciiEqualFold (s t : GoString) : Bool := s.map asciiLower == t.map asciiLower

/-! ## Specification of the matcher -/

/-- The string obtained from `pattern` by replacing its asterisks, from left to right, by the
strings of `fills` (an asterisk with no string left is replaced by the empty string); every
other byte of the pattern is kept. -/
def instantiate : GoString → List GoString → GoString
  | [], _ => []
  | c :: p, fills =>
    if c = star then fills.headD [] ++ instantiate p fills.tail else c :: instantiate p fills

/-! ## Recursive forms of the loops, used in the proofs -/

/-- The bytes `escapeKey` writes for one byte: a backslash is doubled and a dot gets a backslash
in front. -/
def escapeByte (c : Nat) : GoString :=
  if c = backslash then [backslash, backslash]
  else if c = dot then [backslash, dot]
  else [c]

/-- The string without the last backslash of each maximal run of backslashes. -/
def dropLastOfRuns : GoString → GoString
  | [] => []
  | c :: rest =>
    if c = backslash ∧ rest.head? ≠ some backslash then dropLastOfRuns rest
    else c :: dropLastOfRuns rest

/-- The string with every asterisk that follows an asterisk removed; `prevStar` tells whether
the byte before the string is an asterisk. -/
def squeezeStars : Bool → GoString → GoString
  | _, [] => []
  | prevStar, c :: rest =>
    if c = star then
      if prevStar then squeezeStars true rest else star :: squeezeStars true rest
    else c :: squeezeStars false rest

/-- The separator test of `readDriftIgnoreLine` for a byte `c`, given the bytes before it in
reverse order. -/
def sepAfter (rpre : GoString) (c : Nat) : Bool :=
  c == dot &&
    match rpre with
    | [] => false
    | [a] => a != backslash
    | a :: b :: _ => a != backslash || b == backslash

/-- The splitting loop of `readDriftIgnoreLine` as a recursion over the bytes still to be
read: `rpre` is the part of the line already read, in reverse order, and `cur` the part of it
after the last separator. -/
def splitRec (rpre cur : GoString) : GoString → List GoString
  | [] => []
  | c :: rest =>
    if sepAfter rpre c then dropLastOfRuns cur :: splitRec (c :: rpre) [] rest
    else if rest = [] then [dropLastOfRuns (cur ++ [c])]
    else splitRec (c :: rpre) (cur ++ [c]) rest

/-! ## The effect of one line, and the specification side of the later theorems -/

/-- What the body of the line loop of `readIgnoreFile` does with one line: nothing, or one
insertion into one of the three collections. -/
inductive Action where
  /-- The line is skipped: empty, a comment, or fewer than two segments. -/
  | skip : Action
  /-- The key goes to `resExclusionList`. -/
  | exact : GoString → Action
  /-- The key goes to `resExclusionWildcardList`. -/
  | wildcard : GoString → Action
  /-- The path is appended to the rules stored under the key in `driftExclusionList`. -/
  | field : GoString → GoString → Action
deriving DecidableEq, Repr

/-- The insertion the line loop makes for a line. -/
def lineAction (line : GoString) : Action :=
  if line = [] ∨ hasPrefix line [hash] then Action.skip
  else
    match readDriftIgnoreLine line with
    | [t, i] =>
      if star ∈ t ++ dot :: i then Action.wildcard (t ++ dot :: i)
      else Action.exact (t ++ dot :: i)
    | t :: i :: p :: ps => Action.field (t ++ dot :: i) (join (p :: ps) [dot])
    | _ => Action.skip

/-- The state after an insertion. -/
def applyAction (r : DriftIgnore) : Action → DriftIgnore
  | Action.skip => r
  | Action.exact k => { r with resExclusionList := setAdd r.resExclusionList k }
  | Action.wildcard k =>
    { r with resExclusionWildcardList := setAdd r.resExclusionWildcardList k }
  | Action.field k p =>
    { r with
      driftExclusionList :=
        mapSet r.driftExclusionList k ((mapGet r.driftExclusionList k).getD [] ++ [p]) }

/-- A line the loop of `readIgnoreFile` skips: an empty line, a line beginning with `#`, or a
line that `readDriftIgnoreLine` reads as fewer than two segments. -/
def isSkippedLine (line : GoString) : Bool :=
  decide (line = []) || hasPrefix line [hash] || decide ((readDriftIgnoreLine line).length < 2)

/-- The test `isExcluded` makes for one stored rule. -/
def ruleExcludes (equalFold : GoString → GoString → Bool) (changePath : List GoString)
    (rule : GoString) : Bool :=
  if (readDriftIgnoreLine rule).length > changePath.length then false
  else ruleMatches equalFold (readDriftIgnoreLine rule) changePath

/-- The number of maximal runs of consecutive backslashes in a string. -/
def countRuns : GoString → Nat
  | [] => 0
  | c :: rest =>
    if c = backslash ∧ rest.head? ≠ some backslash then countRuns rest + 1 else countRuns rest

/-! ## The listing: `AnalysisToList` -/

/-- The byte `\n`. -/
abbrev newline : Nat := 10

/-- Modelled from the spec: the part of `analyser.Difference` that `AnalysisToList` reads, the
resource `Res` the difference is about (its list of field changes is not read). -/
structure Difference where
  /-- The resource that has drifted. -/
  Res : Resource
deriving DecidableEq, Repr

/-- Modelled from the spec: the counts of `analyser.Summary` that `AnalysisToList` reads. They
are Go `int` values; the sums formed from them stay far below the range of `int` when they are
sizes of collections held in memory. -/
structure Summary where
  /-- Number of unmanaged resources. -/
  TotalUnmanaged : Int
  /-- Number of deleted resources. -/
  TotalDeleted : Int
  /-- Number of drifted resources. -/
  TotalDrifted : Int
deriving DecidableEq, Repr

/-- Modelled from the spec: what `AnalysisToList` reads of an `analyser.Analysis`, the results
of its methods `Unmanaged()`, `Deleted()`, `Differences()` and `Summary()`. -/
structure Analysis where
  /-- Result of `Unmanaged()`. -/
  Unmanaged : List Resource
  /-- Result of `Deleted()`. -/
  Deleted : List Resource
  /-- Result of `Differences()`. -/
  Differences : List Difference
  /-- Result of `Summary()`. -/
  Summary : Summary
deriving DecidableEq, Repr

/-- The options `AnalysisListOptions`. -/
structure AnalysisListOptions where
  /-- List the unmanaged resources. -/
  IncludeUnmanaged : Bool
  /-- List the deleted resources. -/
  IncludeDeleted : Bool
  /-- List the drifted resources. -/
  IncludeDrifted : Bool
deriving DecidableEq, Repr

/-- The line `fmt.Sprintf("%s.%s", escapeKey(type), escapeKey(id))` written for a resource. -/
def resourceLine (r : Resource) : GoString :=
  escapeKey r.TerraformType ++ dot :: escapeKey r.TerraformId

/-- The closure `addResources` of `AnalysisToList`, on the list built so far. -/
def addResources (list : List GoString) (res : List Resource) : List GoString :=
  res.foldl (fun l r => l ++ [resourceLine r]) list

/-- The closure `addDifferences` of `AnalysisToList`, on the list built so far. -/
def addDifferences (list : List GoString) (diff : List Difference) : List GoString :=
  diff.foldl (fun l d => addResources l [d.Res]) list

/-- The function `AnalysisToList(analysis, opts)`: the count `n` and the listing. The state
threaded through the three blocks is `(list, n)`. -/
def AnalysisToList (analysis : Analysis) (opts : AnalysisListOptions) : Int × GoString :=
  let s0 : List GoString × Int := ([], 0)
  let s1 :=
    if opts.IncludeUnmanaged && decide (analysis.Summary.TotalUnmanaged > 0) then
      (addResources (s0.1 ++ [ascii "# Resources not covered by IaC"]) analysis.Unmanaged,
        s0.2 + analysis.Summary.TotalUnmanaged)
    else s0
  let s2 :=
    if opts.IncludeDeleted && decide (analysis.Summary.TotalDeleted > 0) then
      (addResources (s1.1 ++ [ascii "# Missing resources"]) analysis.Deleted,
        s1.2 + analysis.Summary.TotalUnmanaged)
    else s1
  let s3 :=
    if opts.IncludeDrifted && decide (analysis.Summary.TotalDrifted > 0) then
      (addDifferences (s2.1 ++ [ascii "# Changed resources"]) analysis.Differences,
        s2.2 + analysis.Summary.TotalUnmanaged)
    else s2
  (s3.2, join s3.1 [newline])

/-- The lines one section contributes to the listing: none when its flag is off or its
collection is empty, otherwise its header followed by one line per resource, in order. -/
def listingSection (flag : Bool) (header : GoString) (resources : List Resource) :
    List GoString :=
  if flag = false ∨ resources = [] then [] else header :: resources.map resourceLine

/-! ## The SQS suppliers (`pkg/remote/aws`) -/

/-- Modelled from the spec: the collaborators of the two SQS suppliers, each a function that
returns a value or a failure. `E` is the type of errors, `Q` of queue URLs, `V` of the values
read (`cty.Value`) and `R` of resources. The two resource type names and the two constructors
of the `remoteerror` package are declared outside the files of the suppliers. -/
structure SupplierDeps (E Q V R : Type) where
  /-- The call `client.ListAllQueues()`. -/
  ListAllQueues : Except E (List Q)
  /-- The call `reader.ReadResource` with a resource type and an id. -/
  ReadResource : GoString → Q → Except E V
  /-- The call `runner.Wait()` after the given tasks were handed to `runner.Run`. -/
  Wait : List (Unit → Except E V) → Except E (List V)
  /-- The call `deserializer.Deserialize`. -/
  Deserialize : List V → Except E (List R)
  /-- The constant `aws.AwsSqsQueueResourceType`. -/
  AwsSqsQueueResourceType : GoString
  /-- The constant `aws.AwsSqsQueuePolicyResourceType`. -/
  AwsSqsQueuePolicyResourceType : GoString
  /-- The constructor `remoteerror.NewResourceEnumerationError(err, type)`. -/
  NewResourceEnumerationError : E → GoString → E
  /-- The constructor `remoteerror.NewResourceEnumerationErrorWithType(err, type, listed)`. -/
  NewResourceEnumerationErrorWithType : E → GoString → GoString → E

/-- A call a supplier makes on its runner or its deserializer. -/
inductive SupplierCall (Q V : Type) where
  /-- The call `runner.Run` with the task that reads the given queue. -/
  | run : Q → SupplierCall Q V
  /-- The call `runner.Wait()`. -/
  | wait : SupplierCall Q V
  /-- The call `deserializer.Deserialize` on the given values. -/
  | deserialize : List V → SupplierCall Q V

/-- The pair `([]resource.Resource, error)` returned by `Resources`, with the calls made on the
runner and the deserializer, in order. `none` stands for `nil`. -/
structure SupplierResult (E Q V R : Type) where
  /-- The collection returned, or `nil`. -/
  resources : Option (List R)
  /-- The error returned, or `nil`. -/
  err : Option E
  /-- The calls made, in order. -/
  calls : List (SupplierCall Q V)

/-- The method `SqsQueueSupplier.readSqsQueue(queueURL)`. -/
def SqsQueueSupplier.readSqsQueue {E Q V R : Type} (s : SupplierDeps E Q V R) (queueURL : Q) :
    Except E V :=
  match s.ReadResource s.AwsSqsQueueResourceType queueURL with
  | Except.error err => Except.error err
  | Except.ok val => Except.ok val

/-- The method `SqsQueueSupplier.Resources()`. -/
def SqsQueueSupplier.Resources {E Q V R : Type} (s : SupplierDeps E Q V R) :
    SupplierResult E Q V R :=
  match s.ListAllQueues with
  | Except.error err =>
    ⟨none, some (s.NewResourceEnumerationError err s.AwsSqsQueueResourceType), []⟩
  | Except.ok queues =>
    let tasks := queues.map fun q => fun _ => SqsQueueSupplier.readSqsQueue s q
    let runs := queues.map SupplierCall.run
    match s.Wait tasks with
    | Except.error err => ⟨none, some err, runs ++ [SupplierCall.wait]⟩
    | Except.ok resources =>
      match s.Deserialize resources with
      | Except.error err =>
        ⟨none, some err, runs ++ [SupplierCall.wait, SupplierCall.deserialize resources]⟩
      | Except.ok res =>
        ⟨some res, none, runs ++ [SupplierCall.wait, SupplierCall.deserialize resources]⟩

/-- The method `SqsQueuePolicySupplier.readSqsQueuePolicy(queueURL)`. -/
def SqsQueuePolicySupplier.readSqsQueuePolicy {E Q V R : Type} (s : SupplierDeps E Q V R)
    (queueURL : Q) : Except E V :=
  match s.ReadResource s.AwsSqsQueuePolicyResourceType queueURL with
  | Except.error err => Except.error err
  | Except.ok val => Except.ok val

/-- The method `SqsQueuePolicySupplier.Resources()`. -/
def SqsQueuePolicySupplier.Resources {E Q V R : Type} (s : SupplierDeps E Q V R) :
    SupplierResult E Q V R :=
  match s.ListAllQueues with
  | Except.error err =>
    ⟨none, some (s.NewResourceEnumerationErrorWithType err s.AwsSqsQueuePolicyResourceType
      s.AwsSqsQueueResourceType), []⟩
  | Except.ok queues =>
    let tasks := queues.map fun q => fun _ => SqsQueuePolicySupplier.readSqsQueuePolicy s q
    let runs := queues.map SupplierCall.run
    match s.Wait tasks with
    | Except.error err => ⟨none, some err, runs ++ [SupplierCall.wait]⟩
    | Except.ok resources =>
      match s.Deserialize resources with
      | Except.error err =>
        ⟨none, some err, runs ++ [SupplierCall.wait, SupplierCall.deserialize resources]⟩
      | Except.ok res =>
        ⟨some res, none, runs ++ [SupplierCall.wait, SupplierCall.deserialize resources]⟩

/-- The call is a `Deserialize`. -/
def SupplierCall.isDeserialize {Q V : Type} : SupplierCall Q V → Bool
  | SupplierCall.deserialize _ => true
  | _ => false

/-! ## Characters of several bytes, and the recursion depth of the matcher -/

/-- The first `k` bytes of the string are UTF-8 continuation bytes. -/
def contPrefix : Nat → GoString → Bool
  | 0, _ => true
  | _ + 1, [] => false
  | k + 1, c :: rest => isCont c && contPrefix k rest

/-- The number of bytes of a string that pass the separator test of `readDriftIgnoreLine`,
given the bytes before the string in reverse order. -/
def sepCountRec (rpre : GoString) : GoString → Nat
  | [] => 0
  | c :: rest => (if sepAfter rpre c then 1 else 0) + sepCountRec (c :: rpre) rest

/-- The recursion of `wildcardMatchChecker` with a bound on its depth: `none` when the bound is
reached before a result. The right operand of `||` is evaluated only when the left one is
false. -/
def wildcardMatchFuel : Nat → GoString → GoString → Option Bool
  | 0, _, _ => none
  | fuel + 1, str, pattern =>
    if str = [] ∧ pattern = [] then some true
    else if hasPrefix pattern [star] then
      if str ≠ [] then
        match wildcardMatchFuel fuel (str.drop 1) pattern with
        | none => none
        | some true => some true
        | some false => wildcardMatchFuel fuel str (pattern.drop 1)
      else wildcardMatchFuel fuel str (pattern.drop 1)
    else if str ≠ [] ∧ pattern ≠ [] ∧ byteAt str 0 = byteAt pattern 0 then
      wildcardMatchFuel fuel (str.drop 1) (pattern.drop 1)
    else some false

/-- The loop of `IsResourceIgnored` over the wildcard-match set, with the matcher bounded in
depth. -/
def wildcardLoopFuel (fuel : Nat) (strRes : GoString) : List GoString → Option Bool
  | [] => some false
  | resExclusion :: rest =>
    match wildcardMatchFuel fuel strRes resExclusion with
    | none => none
    | some true => some true
    | some false => wildcardLoopFuel fuel strRes rest

/-- The method `IsResourceIgnored(res)` with the matcher bounded in depth: `none` when some call
of the matcher reaches the bound. -/
def IsResourceIgnoredFuel (fuel : Nat) (r : DriftIgnore) (res : Resource) : Option Bool :=
  let strRes := resKey res.TerraformType res.TerraformId
  if strRes ∈ r.resExclusionList then some true
  else wildcardLoopFuel fuel strRes r.resExclusionWildcardList

/-! ## The matcher -/

theorem wmc_nil_nil : wildcardMatchChecker [] [] = true := by
  rw [wildcardMatchChecker]; simp

theorem wmc_cons_nil (c : Nat) (s : GoString) : wildcardMatchChecker (c :: s) [] = false := by
  rw [wildcardMatchChecker]; simp [hasPrefix]

theorem wmc_nil_star (p : GoString) :
    wildcardMatchChecker [] (star :: p) = wildcardMatchChecker [] p := by
  rw [wildcardMatchChecker]; simp [hasPrefix]

theorem wmc_cons_star (c : Nat) (s p : GoString) :
    wildcardMatchChecker (c :: s) (star :: p) =
      (wildcardMatchChecker s (star :: p) || wildcardMatchChecker (c :: s) p) := by
  rw [wildcardMatchChecker]; simp [hasPrefix]

theorem wmc_nil_lit (d : Nat) (p : GoString) (hd : d ≠ star) :
    wildcardMatchChecker [] (d :: p) = false := by
  rw [wildcardMatchChecker]; simp [hasPrefix, hd, Ne.symm hd]

theorem wmc_cons_lit (c d : Nat) (s p : GoString) (hd : d ≠ star) :
    wildcardMatchChecker (c :: s) (d :: p) = (decide (c = d) && wildcardMatchChecker s p) := by
  rw [wildcardMatchChecker]
  by_cases h : c = d <;> simp [hasPrefix, hd, Ne.symm hd, byteAt, h]


theorem wmc_star_iff (p : GoString) (s : GoString) :
    wildcardMatchChecker s (star :: p) = true ↔
      ∃ w t, s = w ++ t ∧ wildcardMatchChecker t p = true := by
  induction s with
  | nil =>
    rw [wmc_nil_star]
    constructor
    · intro h; exact ⟨[], [], rfl, h⟩
    · rintro ⟨w, t, hwt, h⟩
      have ht : t = [] := (List.append_eq_nil.mp hwt.symm).2
      rw [ht] at h; exact h
  | cons c s ih =>
    rw [wmc_cons_star, Bool.or_eq_true, ih]
    constructor
    · rintro (⟨w, t, hwt, h⟩ | h)
      · exact ⟨c :: w, t, by rw [hwt]; rfl, h⟩
      · exact ⟨[], c :: s, rfl, h⟩
    · rintro ⟨w, t, hwt, h⟩
      cases w with
      | nil => right; rw [List.nil_append] at hwt; rw [hwt]; exact h
      | cons a w =>
        left
        rw [List.cons_append] at hwt
        injection hwt with h1 h2
        exact ⟨w, t, h2, h⟩

theorem wmc_iff_instantiate (pattern : GoString) : ∀ str : GoString,
    wildcardMatchChecker str pattern = true ↔
      ∃ fills : List GoString, fills.length = pattern.count star ∧
        instantiate pattern fills = str := by
  induction pattern with
  | nil =>
    intro str
    cases str with
    | nil => simp [wmc_nil_nil, instantiate]
    | cons c s => simp [wmc_cons_nil, instantiate]
  | cons d p ih =>
    intro str
    by_cases hd : d = star
    · subst hd
      rw [wmc_star_iff]
      constructor
      · rintro ⟨w, t, hwt, h⟩
        obtain ⟨fills, hlen, hinst⟩ := (ih t).mp h
        refine ⟨w :: fills, ?_, ?_⟩
        · simp [hlen]
        · simp [instantiate, hinst, hwt]
      · rintro ⟨fills, hlen, hinst⟩
        refine ⟨fills.headD [], instantiate p fills.tail, ?_, ?_⟩
        · simpa [instantiate] using hinst.symm
        · refine (ih _).mpr ⟨fills.tail, ?_, rfl⟩
          simp at hlen
          simp [hlen]
    · have hcount : (d :: p).count star = p.count star := by
        simp [List.count_cons, hd]
      cases str with
      | nil =>
        rw [wmc_nil_lit d p hd]
        simp [instantiate, hd]
      | cons c s =>
        rw [wmc_cons_lit c d s p hd, hcount]
        simp only [Bool.and_eq_true, decide_eq_true_eq, instantiate, hd, if_false]
        constructor
        · rintro ⟨hcd, h⟩
          obtain ⟨fills, hlen, hinst⟩ := (ih s).mp h
          exact ⟨fills, hlen, by rw [hinst, hcd]⟩
        · rintro ⟨fills, hlen, hinst⟩
          injection hinst with h1 h2
          exact ⟨h1.symm, (ih s).mpr ⟨fills, hlen, h2⟩⟩

theorem wmc_any_star (x : GoString) : wildcardMatchChecker x [star] = true := by
  rw [wmc_star_iff]
  exact ⟨x, [], by simp, wmc_nil_nil⟩

/-- C1: `IsResourceIgnored` is true exactly when the key `type.id` is in the exact-match set or
`wildcardMatchChecker(key, p)` holds for some pattern `p` of the wildcard-match set. -/
theorem IsResourceIgnored_iff (r : DriftIgnore) (res : Resource) :
    IsResourceIgnored r res = true ↔
      (res.TerraformType ++ dot :: res.TerraformId) ∈ r.resExclusionList ∨
      ∃ p ∈ r.resExclusionWildcardList,
        wildcardMatchChecker (res.TerraformType ++ dot :: res.TerraformId) p = true := by
  unfold IsResourceIgnored resKey
  by_cases h : (res.TerraformType ++ dot :: res.TerraformId) ∈ r.resExclusionList
  · simp [h]
  · simp [h, List.any_eq_true]

/-- C2: `wildcardMatchChecker(str, pattern)` holds exactly when `str` is `pattern` with each
asterisk replaced by some string and every other byte kept; the four listed instances hold. -/
theorem wildcardMatchChecker_iff_instantiate :
    (∀ str pattern : GoString, wildcardMatchChecker str pattern = true ↔
      ∃ fills : List GoString, fills.length = pattern.count star ∧
        instantiate pattern fills = str) ∧
    wildcardMatchChecker [] [] = true ∧
    (∀ x : GoString, wildcardMatchChecker x (ascii "*") = true) ∧
    wildcardMatchChecker (ascii "aws_s3_bucket.foo") (ascii "aws_s3_bucket.*") = true ∧
    wildcardMatchChecker (ascii "aws_s3_bucket.foo") (ascii "aws_iam_*.*") = false := by
  refine ⟨fun str pattern => wmc_iff_instantiate pattern str, wmc_nil_nil, wmc_any_star, ?_, ?_⟩
  · simp [ascii, wmc_cons_lit, wmc_cons_star, wmc_nil_star, wmc_nil_nil]
  · simp [ascii, wmc_cons_lit]

/-! ## Indexing and slicing -/

theorem byteAt_append (pre post : GoString) (k : Nat) :
    byteAt (pre ++ post) (pre.length + k) = byteAt post k := by
  induction pre with
  | nil => simp
  | cons a pre ih =>
    simp only [byteAt] at ih
    simp only [byteAt, List.cons_append, List.length_cons]
    rw [show pre.length + 1 + k = (pre.length + k) + 1 by omega, List.getD_cons_succ]
    exact ih

theorem byteAt_append_length (pre : GoString) (c : Nat) (rest : GoString) :
    byteAt (pre ++ c :: rest) pre.length = c := by
  have := byteAt_append pre (c :: rest) 0
  simpa [byteAt] using this

theorem byteAt_append_succ (pre : GoString) (c : Nat) (rest : GoString) :
    byteAt (pre ++ c :: rest) (pre.length + 1) = rest.headD 0 := by
  rw [byteAt_append pre (c :: rest) 1]
  cases rest <;> simp [byteAt]

theorem slice_append_left (pre post : GoString) (last : Nat) (h : last ≤ pre.length) :
    slice (pre ++ post) last pre.length = pre.drop last := by
  unfold slice
  rw [List.drop_append_of_le_length h]
  have : pre.length - last = (pre.drop last).length := by simp
  rw [this, List.take_left']
  rfl

theorem rangeOffsets_ascii (s : GoString) : ∀ i : Nat, isASCII s →
    rangeOffsets 0 i s = List.range' i s.length := by
  induction s with
  | nil => intro i _; rfl
  | cons b rest ih =>
    intro i h
    have hb : b < 128 := h b (List.mem_cons_self _ _)
    have hrest : isASCII rest := fun x hx => h x (List.mem_cons_of_mem _ hx)
    simp only [rangeOffsets, runeWidth, hb, if_true, List.length_cons, List.range'_succ]
    rw [ih (i + 1) hrest]

theorem rangeIdx_ascii (s : GoString) (h : isASCII s) :
    rangeIdx s = List.range' 0 s.length := rangeOffsets_ascii s 0 h

/-! ## `unescapeDriftIgnoreLine` on ASCII strings -/

theorem unescape_fold (post : GoString) : ∀ (pre res : GoString) (last : Nat),
    last ≤ pre.length →
    ((List.range' pre.length post.length).foldl (unescapeStep (pre ++ post)) (res, last)).1 =
      if post = [] then res else res ++ pre.drop last ++ dropLastOfRuns post := by
  induction post with
  | nil => intro pre res last _; simp
  | cons c rest ih =>
    intro pre res last hlast
    have hline : pre ++ c :: rest = (pre ++ [c]) ++ rest := by simp
    have hlen : pre.length + 1 = (pre ++ [c]).length := by simp
    have hlast2 : last ≤ (pre ++ [c]).length := by simp; omega
    have hdrop : (pre ++ [c]).drop last = pre.drop last ++ [c] :=
      List.drop_append_of_le_length hlast
    simp only [List.length_cons, List.range'_succ, List.foldl_cons, reduceCtorEq, if_false]
    have hstep : unescapeStep (pre ++ c :: rest) (res, last) pre.length =
        if c = backslash then
          if rest.head? = some backslash then (res, last)
          else (res ++ pre.drop last, pre.length + 1)
        else if rest = [] then (res ++ pre.drop last ++ [c], last)
        else (res, last) := by
      unfold unescapeStep
      rw [byteAt_append_length, byteAt_append_succ, slice_append_left _ _ _ hlast]
      by_cases hc : c = backslash
      · cases rest with
        | nil => simp [hc]
        | cons d r =>
          by_cases hd : d = backslash <;> simp [hc, hd]
      · cases rest with
        | nil => simp [hc, List.drop_append_of_le_length hlast]
        | cons d r => simp [hc]
    rw [hstep, hline, hlen]
    by_cases hc : c = backslash
    · by_cases hd : rest.head? = some backslash
      · have hne : rest ≠ [] := by intro h; rw [h] at hd; simp at hd
        simp only [hc, hd, if_true]
        rw [ih (pre ++ [backslash]) res last (by simp; omega)]
        simp [hne, dropLastOfRuns, hd, List.drop_append_of_le_length hlast]
      · simp only [hc, hd, if_true, if_false]
        have := ih (pre ++ [backslash]) (res ++ pre.drop last) (pre.length + 1) (by simp)
        simp only [List.length_append, List.length_singleton] at this ⊢
        rw [this]
        by_cases hr : rest = []
        · simp [hr, dropLastOfRuns]
        · simp [hr, dropLastOfRuns, hd]
    · by_cases hr : rest = []
      · subst hr
        simp [hc, dropLastOfRuns]
      · simp only [hc, hr, if_false]
        rw [ih (pre ++ [c]) res last hlast2]
        simp [hr, dropLastOfRuns, hc, hdrop]

theorem unescape_ascii (s : GoString) (h : isASCII s) :
    unescapeDriftIgnoreLine s = dropLastOfRuns s := by
  unfold unescapeDriftIgnoreLine
  rw [rangeIdx_ascii s h]
  have := unescape_fold s [] [] 0 (Nat.le_refl _)
  simp only [List.length_nil, List.nil_append, List.drop_nil] at this
  rw [this]
  cases s <;> simp [dropLastOfRuns]

/-! ## The splitting loop on ASCII lines -/

theorem isASCII_append {s t : GoString} : isASCII (s ++ t) ↔ isASCII s ∧ isASCII t := by
  unfold isASCII
  constructor
  · intro h
    exact ⟨fun b hb => h b (List.mem_append_left _ hb), fun b hb => h b (List.mem_append_right _ hb)⟩
  · rintro ⟨h1, h2⟩ b hb
    rcases List.mem_append.mp hb with hb | hb
    · exact h1 b hb
    · exact h2 b hb

theorem isASCII_cons {c : Nat} {s : GoString} : isASCII (c :: s) ↔ c < 128 ∧ isASCII s := by
  unfold isASCII
  simp

theorem isASCII_drop {s : GoString} (h : isASCII s) (k : Nat) : isASCII (s.drop k) :=
  fun b hb => h b (List.mem_of_mem_drop hb)

theorem isSeparator_append (pre : GoString) (c : Nat) (rest : GoString) :
    isSeparator (pre ++ c :: rest) pre.length = sepAfter pre.reverse c := by
  unfold isSeparator
  rw [byteAt_append_length]
  rcases List.eq_nil_or_concat pre with h | ⟨L, a, h⟩
  · subst h; simp [sepAfter]
  · rw [List.concat_eq_append] at h
    subst h
    have ha : byteAt (L ++ [a] ++ c :: rest) ((L ++ [a]).length - 1) = a := by
      have := byteAt_append_length L a (c :: rest)
      simpa using this
    rw [ha]
    rcases List.eq_nil_or_concat L with h | ⟨M, b, h⟩
    · subst h
      simp [sepAfter]
    · rw [List.concat_eq_append] at h
      subst h
      have hb : byteAt (M ++ [b] ++ [a] ++ c :: rest) ((M ++ [b] ++ [a]).length - 2) = b := by
        have := byteAt_append_length M b (a :: c :: rest)
        simpa using this
      rw [hb]
      simp only [sepAfter, List.reverse_append, List.reverse_cons, List.reverse_nil,
        List.nil_append, List.singleton_append, List.cons_append, List.length_append,
        List.length_singleton]
      simp only [bne]
      cases (a == backslash) <;> cases (b == backslash) <;> cases (c == dot) <;> simp

theorem split_fold (post : GoString) : ∀ (pre : GoString) (acc : List GoString) (last : Nat),
    last ≤ pre.length → isASCII (pre ++ post) →
    ((List.range' pre.length post.length).foldl (readStep (pre ++ post)) (acc, last)).1 =
      acc ++ splitRec pre.reverse (pre.drop last) post := by
  induction post with
  | nil => intro pre acc last _ _; simp [splitRec]
  | cons c rest ih =>
    intro pre acc last hlast hasc
    have hline : pre ++ c :: rest = (pre ++ [c]) ++ rest := by simp
    have hlen : pre.length + 1 = (pre ++ [c]).length := by simp
    have hlast2 : last ≤ (pre ++ [c]).length := by simp; omega
    have hdrop : (pre ++ [c]).drop last = pre.drop last ++ [c] :=
      List.drop_append_of_le_length hlast
    have hpre : isASCII pre := (isASCII_append.mp hasc).1
    have hc128 : c < 128 := (isASCII_cons.mp (isASCII_append.mp hasc).2).1
    have hcur : isASCII (pre.drop last) := isASCII_drop hpre last
    have hcur2 : isASCII (pre.drop last ++ [c]) :=
      isASCII_append.mpr ⟨hcur, isASCII_cons.mpr ⟨hc128, fun _ h => by simp at h⟩⟩
    simp only [List.length_cons, List.range'_succ, List.foldl_cons]
    have hstep : readStep (pre ++ c :: rest) (acc, last) pre.length =
        if sepAfter pre.reverse c then (acc ++ [dropLastOfRuns (pre.drop last)], pre.length + 1)
        else if rest = [] then (acc ++ [dropLastOfRuns (pre.drop last ++ [c])], last)
        else (acc, last) := by
      unfold readStep
      rw [isSeparator_append, slice_append_left _ _ _ hlast, unescape_ascii _ hcur]
      by_cases hs : sepAfter pre.reverse c = true
      · simp [hs]
      · cases rest with
        | nil =>
          simp only [hs, if_false, Bool.false_eq_true]
          simp [List.drop_append_of_le_length hlast, unescape_ascii _ hcur2]
        | cons d r => simp [hs]
    rw [hstep]
    have hasc2 : isASCII (pre ++ [c] ++ rest) := by rw [← hline]; exact hasc
    by_cases hs : sepAfter pre.reverse c = true
    · simp only [hs, if_true]
      rw [hline, hlen, ih (pre ++ [c]) _ _ (Nat.le_refl _) hasc2]
      simp [splitRec, hs]
    · by_cases hr : rest = []
      · subst hr
        simp [hs, splitRec]
      · simp only [hs, hr, if_false, Bool.false_eq_true]
        rw [hline, hlen, ih (pre ++ [c]) _ _ hlast2 hasc2, hdrop]
        simp [splitRec, hs, hr]

theorem splitLine_ascii (s : GoString) (h : isASCII s) :
    splitLine s = splitRec [] [] s := by
  unfold splitLine
  rw [rangeIdx_ascii s h]
  have := split_fold s [] [] 0 (Nat.le_refl _) (by simpa using h)
  simpa using this

/-! ## The asterisk-collapsing loop -/

theorem replaceAll_ss_nil : replaceAll [] [star, star] [star] = [] := rfl

theorem replaceAll_ss_star_star (r : GoString) :
    replaceAll (star :: star :: r) [star, star] [star] =
      star :: replaceAll r [star, star] [star] := by
  simp [replaceAll, replaceAllAux]

theorem replaceAll_ss_cons (c : Nat) (r : GoString) (h : ¬(c = star ∧ r.head? = some star)) :
    replaceAll (c :: r) [star, star] [star] = c :: replaceAll r [star, star] [star] := by
  cases r with
  | nil => simp [replaceAll, replaceAllAux, List.isPrefixOf]
  | cons d r =>
    have h2 : ¬(star = c ∧ star = d) := by
      rintro ⟨h1, h2⟩; exact h ⟨h1.symm, by simp [h2]⟩
    simp only [replaceAll, replaceAllAux, List.isPrefixOf, Bool.and_true, Bool.and_eq_true,
      beq_iff_eq, h2, if_false, Bool.false_eq_true]

theorem strContains_ss_cons (c : Nat) (r : GoString) :
    strContains (c :: r) [star, star] =
      (decide (c = star ∧ r.head? = some star) || strContains r [star, star]) := by
  cases r with
  | nil => simp [strContains, List.isPrefixOf]
  | cons d r =>
    simp only [strContains, List.isPrefixOf, Bool.and_true, List.head?_cons, Option.some.injEq]
    congr 1
    rw [Bool.eq_iff_iff]
    simp only [Bool.and_eq_true, beq_iff_eq, decide_eq_true_eq]
    constructor <;> rintro ⟨h1, h2⟩ <;> exact ⟨h1.symm, h2.symm⟩

theorem squeeze_replaceAll_aux (n : Nat) : ∀ (s : GoString), s.length ≤ n → ∀ b : Bool,
    squeezeStars b (replaceAll s [star, star] [star]) = squeezeStars b s := by
  induction n with
  | zero =>
    intro s hs b
    have : s = [] := List.length_eq_zero.mp (Nat.le_zero.mp hs)
    subst this; rfl
  | succ n ih =>
    intro s hs b
    cases s with
    | nil => rfl
    | cons c r =>
      by_cases h : c = star ∧ r.head? = some star
      · obtain ⟨hc, hr⟩ := h
        cases r with
        | nil => simp at hr
        | cons d r' =>
          simp only [List.head?_cons, Option.some.injEq] at hr
          subst hc; subst hr
          rw [replaceAll_ss_star_star]
          have hlen : r'.length ≤ n := by simp at hs; omega
          simp only [squeezeStars, if_true]
          rw [ih r' hlen true]
      · rw [replaceAll_ss_cons c r h]
        have hlen : r.length ≤ n := by simp at hs; omega
        simp only [squeezeStars]
        rw [ih r hlen true, ih r hlen false]

theorem squeeze_replaceAll (s : GoString) (b : Bool) :
    squeezeStars b (replaceAll s [star, star] [star]) = squeezeStars b s :=
  squeeze_replaceAll_aux s.length s (Nat.le_refl _) b

theorem length_replaceAll_aux (n : Nat) : ∀ (s : GoString), s.length ≤ n →
    (replaceAll s [star, star] [star]).length ≤ s.length ∧
    (strContains s [star, star] = true →
      (replaceAll s [star, star] [star]).length < s.length) := by
  induction n with
  | zero =>
    intro s hs
    have : s = [] := List.length_eq_zero.mp (Nat.le_zero.mp hs)
    subst this
    simp [replaceAll_ss_nil, strContains, List.isPrefixOf]
  | succ n ih =>
    intro s hs
    cases s with
    | nil => simp [replaceAll_ss_nil, strContains, List.isPrefixOf]
    | cons c r =>
      by_cases h : c = star ∧ r.head? = some star
      · obtain ⟨hc, hr⟩ := h
        cases r with
        | nil => simp at hr
        | cons d r' =>
          simp only [List.head?_cons, Option.some.injEq] at hr
          subst hc; subst hr
          rw [replaceAll_ss_star_star]
          have hlen : r'.length ≤ n := by simp at hs; omega
          have := (ih r' hlen).1
          simp only [List.length_cons]
          constructor
          · omega
          · intro _; omega
      · rw [replaceAll_ss_cons c r h, strContains_ss_cons]
        have hlen : r.length ≤ n := by simp at hs; omega
        obtain ⟨h1, h2⟩ := ih r hlen
        simp only [List.length_cons, h, decide_False, Bool.false_or]
        constructor
        · omega
        · intro hc; have := h2 hc; omega

theorem squeeze_of_not_contains (s : GoString) :
    strContains s [star, star] = false →
      squeezeStars false s = s ∧ (s.head? ≠ some star → squeezeStars true s = s) := by
  induction s with
  | nil => intro _; simp [squeezeStars]
  | cons c r ih =>
    intro h
    rw [strContains_ss_cons, Bool.or_eq_false_iff] at h
    obtain ⟨h1, h2⟩ := h
    obtain ⟨ih1, ih2⟩ := ih h2
    have h1 : ¬(c = star ∧ r.head? = some star) := by simpa using h1
    by_cases hc : c = star
    · have hr : r.head? ≠ some star := fun hr => h1 ⟨hc, hr⟩
      subst hc
      simp [squeezeStars, ih2 hr]
    · simp [squeezeStars, hc, ih1]

theorem collapseLoop_squeeze (fuel : Nat) : ∀ (s : GoString) (b : Bool),
    squeezeStars b (collapseLoop fuel s) = squeezeStars b s := by
  induction fuel with
  | zero => intro s b; rfl
  | succ n ih =>
    intro s b
    simp only [collapseLoop]
    split
    · rw [ih, squeeze_replaceAll]
    · rfl

theorem collapseLoop_exits (fuel : Nat) : ∀ (s : GoString), s.length ≤ fuel →
    strContains (collapseLoop fuel s) [star, star] = false := by
  induction fuel with
  | zero =>
    intro s hs
    have : s = [] := List.length_eq_zero.mp (Nat.le_zero.mp hs)
    subst this
    simp [collapseLoop, strContains, List.isPrefixOf]
  | succ n ih =>
    intro s hs
    simp only [collapseLoop]
    split
    · rename_i hc
      apply ih
      have := (length_replaceAll_aux s.length s (Nat.le_refl _)).2 hc
      omega
    · rename_i hc
      simpa using hc

/-- The collapsing loop exits within `len(line)` iterations: its result has no `**` left. -/
theorem collapseStars_exits (s : GoString) :
    strContains (collapseStars s) [star, star] = false :=
  collapseLoop_exits s.length s (Nat.le_refl _)

theorem collapseStars_eq (s : GoString) : collapseStars s = squeezeStars false s := by
  have h1 := (squeeze_of_not_contains _ (collapseStars_exits s)).1
  rw [← h1]
  exact collapseLoop_squeeze s.length s false

theorem squeezeStars_cons (b : Bool) (c : Nat) (r : GoString) :
    squeezeStars b (c :: r) =
      if c = star then
        if b then squeezeStars true r else star :: squeezeStars true r
      else c :: squeezeStars false r := rfl

theorem squeeze_true_stars (k : Nat) (y : GoString) :
    squeezeStars true (List.replicate k star ++ y) = squeezeStars true y := by
  induction k with
  | zero => rfl
  | succ k ih =>
    rw [List.replicate_succ, List.cons_append, squeezeStars_cons]
    simpa using ih

theorem squeeze_stars_run (x y : GoString) (k : Nat) (hk : 1 ≤ k) : ∀ b : Bool,
    squeezeStars b (x ++ List.replicate k star ++ y) = squeezeStars b (x ++ [star] ++ y) := by
  induction x with
  | nil =>
    intro b
    obtain ⟨j, rfl⟩ : ∃ j, k = j + 1 := ⟨k - 1, by omega⟩
    rw [List.nil_append, List.replicate_succ, List.cons_append, squeezeStars_cons,
      squeeze_true_stars]
    rfl
  | cons c x ih =>
    intro b
    rw [List.cons_append, List.cons_append, squeezeStars_cons, ih true, ih false]
    rfl

/-- C9: a run of `k >= 1` asterisks in a line is read as one asterisk. -/
theorem readDriftIgnoreLine_star_run :
    (∀ (x y : GoString) (k : Nat), 1 ≤ k →
      readDriftIgnoreLine (x ++ List.replicate k star ++ y) =
        readDriftIgnoreLine (x ++ [star] ++ y)) ∧
    readDriftIgnoreLine (ascii "a.**.c") = [ascii "a", ascii "*", ascii "c"] := by
  refine ⟨?_, by decide⟩
  intro x y k hk
  unfold readDriftIgnoreLine
  rw [collapseStars_eq, collapseStars_eq, squeeze_stars_run x y k hk false]

/-- Witness for `readDriftIgnoreLine_star_run`: `a.***.c` reads as `a.*.c`. -/
theorem readDriftIgnoreLine_star_run_witness :
    readDriftIgnoreLine (ascii "a." ++ List.replicate 3 star ++ ascii ".c") =
      readDriftIgnoreLine (ascii "a." ++ [star] ++ ascii ".c") :=
  readDriftIgnoreLine_star_run.1 (ascii "a.") (ascii ".c") 3 (by decide)

/-! ## `escapeKey` and the tokenizer on escaped segments -/

theorem replaceAll_single (a : Nat) (new s : GoString) :
    replaceAll s [a] new = s.flatMap fun c => if c = a then new else [c] := by
  unfold replaceAll
  induction s with
  | nil => rfl
  | cons c s ih =>
    simp only [replaceAllAux, List.isPrefixOf, List.length_singleton, Nat.sub_self,
      List.flatMap_cons]
    rw [ih]
    by_cases h : c = a
    · subst h; simp
    · have h2 : ¬ a = c := fun h3 => h h3.symm
      simp [h, h2]

theorem escapeKey_eq (s : GoString) : escapeKey s = s.flatMap escapeByte := by
  unfold escapeKey
  rw [replaceAll_single, replaceAll_single]
  induction s with
  | nil => rfl
  | cons c s ih =>
    simp only [List.flatMap_cons, List.flatMap_append]
    rw [ih]
    congr 1
    unfold escapeByte
    by_cases h1 : c = backslash
    · subst h1; simp
    · by_cases h2 : c = dot
      · subst h2; simp
      · simp [h1, h2]

theorem escapeKey_nil : escapeKey [] = [] := rfl

theorem escapeKey_cons (c : Nat) (s : GoString) :
    escapeKey (c :: s) = escapeByte c ++ escapeKey s := by
  simp [escapeKey_eq]

theorem escapeKey_plain (s : GoString) (h1 : backslash ∉ s) (h2 : dot ∉ s) :
    escapeKey s = s := by
  induction s with
  | nil => rfl
  | cons c s ih =>
    have hc1 : c ≠ backslash := fun h => h1 (by simp [h])
    have hc2 : c ≠ dot := fun h => h2 (by simp [h])
    rw [escapeKey_cons, ih (fun h => h1 (List.mem_cons_of_mem _ h))
      (fun h => h2 (List.mem_cons_of_mem _ h))]
    simp [escapeByte, hc1, hc2]

theorem isASCII_escapeKey (s : GoString) (h : isASCII s) : isASCII (escapeKey s) := by
  induction s with
  | nil => exact h
  | cons c s ih =>
    rw [escapeKey_cons]
    obtain ⟨hc, hs⟩ := isASCII_cons.mp h
    refine isASCII_append.mpr ⟨?_, ih hs⟩
    intro b hb
    unfold escapeByte at hb
    split at hb
    · simp at hb; subst hb; decide
    · split at hb
      · simp at hb; rcases hb with hb | hb <;> subst hb <;> decide
      · simp at hb; subst hb; exact hc

theorem dropLastOfRuns_escapeKey (u : GoString) (hu : backslash ∉ u) :
    dropLastOfRuns (escapeKey u) = u := by
  induction u with
  | nil => rfl
  | cons c u ih =>
    have hc : c ≠ backslash := fun h => hu (by simp [h])
    have ih := ih (fun h => hu (List.mem_cons_of_mem _ h))
    rw [escapeKey_cons]
    by_cases hd : c = dot
    · subst hd
      simp [escapeByte, dropLastOfRuns, ih]
    · simp [escapeByte, hc, hd, dropLastOfRuns, ih]

theorem head_reverse_escapeKey (u : GoString) (hu : backslash ∉ u) : ∀ rpre : GoString,
    rpre.head? ≠ some backslash → ((escapeKey u).reverse ++ rpre).head? ≠ some backslash := by
  induction u with
  | nil => intro rpre h; simpa [escapeKey_nil] using h
  | cons c u ih =>
    intro rpre h
    have hc : c ≠ backslash := fun h => hu (by simp [h])
    rw [escapeKey_cons, List.reverse_append, List.append_assoc]
    apply ih (fun h => hu (List.mem_cons_of_mem _ h))
    by_cases hd : c = dot
    · subst hd; simp [escapeByte]
    · simp [escapeByte, hc, hd]

theorem splitRec_cons (rpre cur : GoString) (c : Nat) (rest : GoString) :
    splitRec rpre cur (c :: rest) =
      if sepAfter rpre c then dropLastOfRuns cur :: splitRec (c :: rpre) [] rest
      else if rest = [] then [dropLastOfRuns (cur ++ [c])]
      else splitRec (c :: rpre) (cur ++ [c]) rest := rfl

theorem sepAfter_not_dot (rpre : GoString) (c : Nat) (h : c ≠ dot) : sepAfter rpre c = false := by
  simp [sepAfter, h]

theorem sepAfter_escaped_dot (rpre : GoString) (h : rpre.head? ≠ some backslash) :
    sepAfter (backslash :: rpre) dot = false := by
  cases rpre with
  | nil => simp [sepAfter]
  | cons b r =>
    have hb : b ≠ backslash := by simpa using h
    simp [sepAfter, hb]

theorem sepAfter_dot (rpre : GoString) (h : rpre.head? ≠ some backslash) (hne : rpre ≠ []) :
    sepAfter rpre dot = true := by
  cases rpre with
  | nil => exact absurd rfl hne
  | cons a r =>
    have ha : a ≠ backslash := by simpa using h
    cases r <;> simp [sepAfter, ha]

theorem escapeKey_eq_nil {u : GoString} : escapeKey u = [] ↔ u = [] := by
  cases u with
  | nil => simp [escapeKey_nil]
  | cons c u =>
    rw [escapeKey_cons]
    unfold escapeByte
    split
    · simp
    · split <;> simp

theorem splitRec_escaped (u : GoString) (hu : backslash ∉ u) : ∀ (rpre cur rest : GoString),
    rpre.head? ≠ some backslash →
    splitRec rpre cur (escapeKey u ++ rest) =
      if rest = [] then
        if u = [] then [] else [dropLastOfRuns (cur ++ escapeKey u)]
      else splitRec ((escapeKey u).reverse ++ rpre) (cur ++ escapeKey u) rest := by
  induction u with
  | nil =>
    intro rpre cur rest _
    by_cases hr : rest = []
    · subst hr; simp [escapeKey_nil, splitRec]
    · simp [escapeKey_nil, hr]
  | cons c u ih =>
    intro rpre cur rest h
    have hc : c ≠ backslash := fun h => hu (by simp [h])
    have ih := ih (fun h => hu (List.mem_cons_of_mem _ h))
    rw [escapeKey_cons]
    by_cases hd : c = dot
    · subst hd
      have hE : escapeByte dot = [backslash, dot] := by simp [escapeByte]
      rw [hE]
      simp only [List.cons_append, List.nil_append]
      rw [splitRec_cons, sepAfter_not_dot rpre backslash (by decide)]
      simp only [Bool.false_eq_true, if_false, reduceCtorEq]
      rw [splitRec_cons, sepAfter_escaped_dot rpre h]
      simp only [Bool.false_eq_true, if_false]
      by_cases hnil : escapeKey u ++ rest = []
      · obtain ⟨h1, h2⟩ := List.append_eq_nil.mp hnil
        have h1 := escapeKey_eq_nil.mp h1
        subst h1; subst h2
        simp [escapeKey_nil]
      · simp only [hnil, if_false]
        rw [ih (dot :: backslash :: rpre) _ rest (by simp)]
        by_cases hr : rest = []
        · have hu2 : u ≠ [] := by
            intro h3; apply hnil; rw [h3, hr]; rfl
          simp [hr, hu2]
        · simp [hr]
    · have hE : escapeByte c = [c] := by simp [escapeByte, hc, hd]
      rw [hE]
      simp only [List.cons_append, List.nil_append]
      rw [splitRec_cons, sepAfter_not_dot rpre c hd]
      simp only [Bool.false_eq_true, if_false]
      by_cases hnil : escapeKey u ++ rest = []
      · obtain ⟨h1, h2⟩ := List.append_eq_nil.mp hnil
        have h1 := escapeKey_eq_nil.mp h1
        subst h1; subst h2
        simp [escapeKey_nil]
      · simp only [hnil, if_false]
        rw [ih (c :: rpre) _ rest (by simpa using hc)]
        by_cases hr : rest = []
        · have hu2 : u ≠ [] := by
            intro h3; apply hnil; rw [h3, hr]; rfl
          simp [hr, hu2]
        · simp [hr]

theorem join_singleton (a : GoString) (sep : GoString) : join [a] sep = a := by
  simp [join, List.intercalate]

theorem join_cons_cons (a b : GoString) (l : List GoString) (sep : GoString) :
    join (a :: b :: l) sep = a ++ sep ++ join (b :: l) sep := by
  simp [join, List.intercalate]

theorem splitRec_join_escaped (segs : List GoString) : segs ≠ [] →
    (∀ u ∈ segs, u ≠ [] ∧ backslash ∉ u) → ∀ rpre : GoString,
    rpre.head? ≠ some backslash →
    splitRec rpre [] (join (segs.map escapeKey) [dot]) = segs := by
  induction segs with
  | nil => intro h; exact absurd rfl h
  | cons u rest ih =>
    intro _ hs rpre hr
    obtain ⟨hune, hub⟩ := hs u (List.mem_cons_self _ _)
    cases rest with
    | nil =>
      simp only [List.map_cons, List.map_nil, join_singleton]
      have := splitRec_escaped u hub rpre [] [] hr
      simp only [List.append_nil, if_true, hune, if_false, List.nil_append] at this
      rw [this, dropLastOfRuns_escapeKey u hub]
    | cons v more =>
      simp only [List.map_cons, join_cons_cons]
      rw [List.append_assoc, splitRec_escaped u hub rpre [] _ hr]
      simp only [List.singleton_append, reduceCtorEq, if_false, List.nil_append]
      have hhead := head_reverse_escapeKey u hub rpre hr
      have hne : (escapeKey u).reverse ++ rpre ≠ [] := by
        intro h
        have := (List.append_eq_nil.mp h).1
        rw [List.reverse_eq_nil_iff] at this
        exact hune (escapeKey_eq_nil.mp this)
      rw [splitRec_cons, sepAfter_dot _ hhead hne]
      simp only [if_true]
      rw [dropLastOfRuns_escapeKey u hub]
      congr 1
      have := ih (by simp) (fun w hw => hs w (List.mem_cons_of_mem _ hw))
        (dot :: ((escapeKey u).reverse ++ rpre)) (by simp)
      simpa using this

/-! ## Collapsing asterisks in escaped, joined segments -/

theorem mem_squeezeStars (s : GoString) : ∀ (b : Bool) (x : Nat),
    x ∈ squeezeStars b s → x ∈ s := by
  induction s with
  | nil => intro b x h; simp [squeezeStars] at h
  | cons c s ih =>
    intro b x h
    rw [squeezeStars_cons] at h
    by_cases hc : c = star
    · simp only [hc, if_true] at h
      cases b with
      | true =>
        simp only [if_true] at h
        exact List.mem_cons_of_mem _ (ih true x h)
      | false =>
        simp only [Bool.false_eq_true, if_false, List.mem_cons] at h
        rcases h with h | h
        · rw [h, hc]; exact List.mem_cons_self _ _
        · exact List.mem_cons_of_mem _ (ih true x h)
    · simp only [hc, if_false, List.mem_cons] at h
      rcases h with h | h
      · rw [h]; exact List.mem_cons_self _ _
      · exact List.mem_cons_of_mem _ (ih false x h)

theorem squeezeStars_ne_nil (s : GoString) (h : s ≠ []) : squeezeStars false s ≠ [] := by
  cases s with
  | nil => exact absurd rfl h
  | cons c s =>
    rw [squeezeStars_cons]
    by_cases hc : c = star <;> simp [hc]

theorem isASCII_squeezeStars (s : GoString) (b : Bool) (h : isASCII s) :
    isASCII (squeezeStars b s) :=
  fun x hx => h x (mem_squeezeStars s b x hx)

theorem squeezeStars_no_star (s : GoString) (h : star ∉ s) : ∀ b : Bool,
    squeezeStars b s = s := by
  induction s with
  | nil => intro b; rfl
  | cons c s ih =>
    intro b
    have hc : c ≠ star := fun h2 => h (by simp [h2])
    rw [squeezeStars_cons, ih (fun h2 => h (List.mem_cons_of_mem _ h2)) false]
    simp [hc]

theorem squeeze_append_dot (x y : GoString) : ∀ b : Bool,
    squeezeStars b (x ++ dot :: y) = squeezeStars b x ++ dot :: squeezeStars false y := by
  induction x with
  | nil => intro b; rw [List.nil_append, squeezeStars_cons]; simp [squeezeStars]
  | cons c x ih =>
    intro b
    rw [List.cons_append, squeezeStars_cons, squeezeStars_cons, ih true, ih false]
    by_cases hc : c = star
    · cases b <;> simp [hc]
    · simp [hc]

theorem squeeze_escapeKey (u : GoString) : ∀ b : Bool,
    squeezeStars b (escapeKey u) = escapeKey (squeezeStars b u) := by
  induction u with
  | nil => intro b; rfl
  | cons c u ih =>
    intro b
    rw [escapeKey_cons, squeezeStars_cons]
    by_cases hc : c = star
    · subst hc
      have hE : escapeByte star = [star] := by decide
      rw [hE, List.singleton_append, squeezeStars_cons]
      cases b
      · simp [ih, escapeKey_cons, hE]
      · simp [ih]
    · simp only [hc, if_false]
      rw [escapeKey_cons, ← ih false]
      unfold escapeByte
      by_cases h1 : c = backslash
      · subst h1; simp [squeezeStars_cons]
      · by_cases h2 : c = dot
        · subst h2; simp [squeezeStars_cons]
        · simp [h1, h2, squeezeStars_cons, hc]

theorem squeeze_join_escaped (segs : List GoString) :
    squeezeStars false (join (segs.map escapeKey) [dot]) =
      join ((segs.map (squeezeStars false)).map escapeKey) [dot] := by
  induction segs with
  | nil => rfl
  | cons u rest ih =>
    cases rest with
    | nil => simp only [List.map_cons, List.map_nil, join_singleton, squeeze_escapeKey]
    | cons v more =>
      simp only [List.map_cons, join_cons_cons] at ih ⊢
      rw [List.append_assoc, List.singleton_append, squeeze_append_dot, ih, squeeze_escapeKey]
      simp

theorem isASCII_join (l : List GoString) (h : ∀ u ∈ l, isASCII u) : isASCII (join l [dot]) := by
  induction l with
  | nil => intro b hb; simp [join, List.intercalate] at hb
  | cons u rest ih =>
    cases rest with
    | nil => rw [join_singleton]; exact h u (List.mem_cons_self _ _)
    | cons v more =>
      rw [join_cons_cons, List.append_assoc]
      refine isASCII_append.mpr ⟨h u (List.mem_cons_self _ _), isASCII_append.mpr ⟨?_, ?_⟩⟩
      · intro b hb; simp at hb; subst hb; decide
      · exact ih (fun w hw => h w (List.mem_cons_of_mem _ hw))

/-- On a line made of escaped segments joined by dots, the tokenizer returns the segments,
each with its runs of asterisks collapsed. -/
theorem readDriftIgnoreLine_join_escapeKey (segs : List GoString) (hne : segs ≠ [])
    (hs : ∀ u ∈ segs, u ≠ [] ∧ isASCII u ∧ backslash ∉ u) :
    readDriftIgnoreLine (join (segs.map escapeKey) [dot]) = segs.map (squeezeStars false) := by
  unfold readDriftIgnoreLine
  rw [collapseStars_eq, squeeze_join_escaped, splitLine_ascii]
  · apply splitRec_join_escaped
    · simpa using hne
    · intro w hw
      obtain ⟨u, hu, rfl⟩ := List.mem_map.mp hw
      obtain ⟨h1, _, h3⟩ := hs u hu
      exact ⟨squeezeStars_ne_nil u h1, fun h => h3 (mem_squeezeStars u false _ h)⟩
    · simp
  · apply isASCII_join
    intro w hw
    obtain ⟨w2, hw2, rfl⟩ := List.mem_map.mp hw
    obtain ⟨u, hu, rfl⟩ := List.mem_map.mp hw2
    exact isASCII_escapeKey _ (isASCII_squeezeStars u false (hs u hu).2.1)

theorem map_squeeze_id (segs : List GoString)
    (h : ∀ u ∈ segs, strContains u [star, star] = false) :
    segs.map (squeezeStars false) = segs := by
  induction segs with
  | nil => rfl
  | cons u rest ih =>
    rw [List.map_cons, (squeeze_of_not_contains u (h u (List.mem_cons_self _ _))).1,
      ih (fun w hw => h w (List.mem_cons_of_mem _ hw))]

theorem strContains_ss_of_no_star (u : GoString) (h : star ∉ u) :
    strContains u [star, star] = false := by
  induction u with
  | nil => simp [strContains, List.isPrefixOf]
  | cons c u ih =>
    have hc : c ≠ star := fun h2 => h (by simp [h2])
    rw [strContains_ss_cons, ih (fun h2 => h (List.mem_cons_of_mem _ h2))]
    simp [hc]

/-- C6: the tokenizer inverts the escape of the listing. On segments that are non-empty ASCII
strings without backslash and asterisk, escaped with `escapeKey` and joined by dots,
`readDriftIgnoreLine` returns the segments. -/
theorem readDriftIgnoreLine_escapeKey_roundtrip :
    (∀ segs : List GoString, segs ≠ [] →
      (∀ u ∈ segs, u ≠ [] ∧ isASCII u ∧ backslash ∉ u ∧ star ∉ u) →
      readDriftIgnoreLine (join (segs.map escapeKey) [dot]) = segs) ∧
    readDriftIgnoreLine (ascii "a.b.c") = [ascii "a", ascii "b", ascii "c"] ∧
    readDriftIgnoreLine (ascii "a\\.b.c") = [ascii "a.b", ascii "c"] := by
  refine ⟨?_, by decide, by decide⟩
  intro segs hne hs
  rw [readDriftIgnoreLine_join_escapeKey segs hne
    (fun u hu => ⟨(hs u hu).1, (hs u hu).2.1, (hs u hu).2.2.1⟩)]
  exact map_squeeze_id segs (fun u hu => strContains_ss_of_no_star u (hs u hu).2.2.2)

/-- Witness for `readDriftIgnoreLine_escapeKey_roundtrip`: the segments `a.b` and `c`. -/
theorem readDriftIgnoreLine_escapeKey_roundtrip_witness :
    readDriftIgnoreLine (join ([ascii "a.b", ascii "c"].map escapeKey) [dot]) =
      [ascii "a.b", ascii "c"] :=
  readDriftIgnoreLine_escapeKey_roundtrip.1 [ascii "a.b", ascii "c"] (by decide) (by decide)

/-! ## The line loop of `readIgnoreFile` -/

theorem strContains_single (a : Nat) (s : GoString) : strContains s [a] = decide (a ∈ s) := by
  induction s with
  | nil => simp [strContains, List.isPrefixOf]
  | cons c s ih =>
    simp only [strContains, List.isPrefixOf, ih, List.mem_cons, Bool.and_true]
    by_cases h : a = c <;> simp [h]

theorem hasPrefix_hash_cons (c : Nat) (s : GoString) :
    hasPrefix (c :: s) [hash] = decide (c = hash) := by
  simp only [hasPrefix, List.isPrefixOf, Bool.and_true]
  by_cases h : c = hash
  · simp [h]
  · have h2 : ¬ hash = c := fun h3 => h h3.symm
    simp [h, h2]

theorem mem_setAdd_self (m : List GoString) (k : GoString) : k ∈ setAdd m k := by
  unfold setAdd
  split
  · assumption
  · simp

theorem mem_setAdd_of_mem (m : List GoString) (k x : GoString) (h : x ∈ m) : x ∈ setAdd m k := by
  unfold setAdd
  split
  · exact h
  · exact List.mem_append_left _ h

theorem join_pair (t i : GoString) : join [t, i] [dot] = t ++ dot :: i := by
  simp [join_cons_cons, join_singleton]

/-- The effect of a line that reads as exactly two segments. -/
theorem loadLine_resource (r : DriftIgnore) (line t i : GoString) (hne : line ≠ [])
    (hc : hasPrefix line [hash] = false) (htok : readDriftIgnoreLine line = [t, i]) :
    loadLine r line =
      if star ∈ t ++ dot :: i then
        { r with resExclusionWildcardList := setAdd r.resExclusionWildcardList (t ++ dot :: i) }
      else { r with resExclusionList := setAdd r.resExclusionList (t ++ dot :: i) } := by
  unfold loadLine
  simp only [hne, hc, htok, false_or, Bool.false_eq_true, if_false, List.length_cons,
    List.length_nil, List.take_succ_cons, List.take_zero, join_pair, strContains_single,
    decide_eq_true_eq]
  simp

/-- The effect of a line that reads as three or more segments. -/
theorem loadLine_field (r : DriftIgnore) (line t i p : GoString) (ps : List GoString)
    (hne : line ≠ []) (hc : hasPrefix line [hash] = false)
    (htok : readDriftIgnoreLine line = t :: i :: p :: ps) :
    loadLine r line =
      { r with
        driftExclusionList :=
          mapSet r.driftExclusionList (t ++ dot :: i)
            ((mapGet r.driftExclusionList (t ++ dot :: i)).getD [] ++ [join (p :: ps) [dot]]) } := by
  unfold loadLine
  simp only [hne, hc, htok, false_or, Bool.false_eq_true, if_false, List.length_cons,
    List.take_succ_cons, List.take_zero, join_pair, List.drop_succ_cons, List.drop_zero]
  have h1 : ¬ (ps.length + 1 + 1 + 1 < 2) := by omega
  have h2 : ¬ (ps.length + 1 + 1 + 1 = 2) := by omega
  simp only [h1, h2, if_false]

theorem wildcard_mono_loadLine (r : DriftIgnore) (line k : GoString)
    (h : k ∈ r.resExclusionWildcardList) : k ∈ (loadLine r line).resExclusionWildcardList := by
  unfold loadLine
  split
  · exact h
  · simp only
    split
    · exact h
    · split
      · split
        · exact mem_setAdd_of_mem _ _ _ h
        · exact h
      · exact h

theorem wildcard_mono_loadLines (lines : List GoString) : ∀ (r : DriftIgnore) (k : GoString),
    k ∈ r.resExclusionWildcardList → k ∈ (loadLines r lines).resExclusionWildcardList := by
  induction lines with
  | nil => intro r k h; exact h
  | cons l rest ih =>
    intro r k h
    exact ih (loadLine r l) k (wildcard_mono_loadLine r l k h)

theorem loadLines_append (r : DriftIgnore) (l1 l2 : List GoString) :
    loadLines r (l1 ++ l2) = loadLines (loadLines r l1) l2 := by
  simp [loadLines, List.foldl_append]

theorem isResourceIgnored_of_wildcard (r : DriftIgnore) (res : Resource) (p : GoString)
    (hp : p ∈ r.resExclusionWildcardList)
    (hm : wildcardMatchChecker (res.TerraformType ++ dot :: res.TerraformId) p = true) :
    IsResourceIgnored r res = true := by
  unfold IsResourceIgnored resKey
  simp only
  split
  · rfl
  · exact List.any_eq_true.mpr ⟨p, hp, hm⟩

theorem isResourceIgnored_of_exact (r : DriftIgnore) (res : Resource)
    (h : (res.TerraformType ++ dot :: res.TerraformId) ∈ r.resExclusionList) :
    IsResourceIgnored r res = true := by
  unfold IsResourceIgnored resKey
  simp [h]

theorem wmc_literal (t : GoString) (ht : star ∉ t) (s p : GoString) :
    wildcardMatchChecker (t ++ s) (t ++ p) = wildcardMatchChecker s p := by
  induction t with
  | nil => rfl
  | cons c t ih =>
    have hc : c ≠ star := fun h => ht (by simp [h])
    rw [List.cons_append, List.cons_append, wmc_cons_lit c c _ _ hc,
      ih (fun h => ht (List.mem_cons_of_mem _ h))]
    simp

theorem wmc_squeeze (s : GoString) :
    wildcardMatchChecker s (squeezeStars false s) = true ∧
    wildcardMatchChecker s (star :: squeezeStars true s) = true := by
  induction s with
  | nil => exact ⟨wmc_nil_nil, by rw [squeezeStars, wmc_nil_star]; exact wmc_nil_nil⟩
  | cons c s ih =>
    obtain ⟨ih1, ih2⟩ := ih
    by_cases hc : c = star
    · subst hc
      have h1 : squeezeStars false (star :: s) = star :: squeezeStars true s := by
        rw [squeezeStars_cons]; simp
      have h2 : squeezeStars true (star :: s) = squeezeStars true s := by
        rw [squeezeStars_cons]; simp
      rw [h1, h2, wmc_cons_star, ih2]
      simp
    · have h1 : squeezeStars false (c :: s) = c :: squeezeStars false s := by
        rw [squeezeStars_cons]; simp [hc]
      have h2 : squeezeStars true (c :: s) = c :: squeezeStars false s := by
        rw [squeezeStars_cons]; simp [hc]
      have h3 : wildcardMatchChecker (c :: s) (c :: squeezeStars false s) = true := by
        rw [wmc_cons_lit c c _ _ hc, ih1]; simp
      rw [h1, h2, wmc_cons_star, h3]
      simp

theorem star_mem_squeeze (s : GoString) (h : star ∈ s) : star ∈ squeezeStars false s := by
  induction s with
  | nil => simp at h
  | cons c s ih =>
    rw [squeezeStars_cons]
    by_cases hc : c = star
    · simp [hc]
    · have : star ∈ s := by
        rcases List.mem_cons.mp h with h | h
        · exact absurd h.symm hc
        · exact h
      simp [hc, ih this]

theorem head_escapeKey_ne_hash (t : GoString) (h : t.head? ≠ some hash) :
    hasPrefix (escapeKey t) [hash] = false := by
  cases t with
  | nil => rfl
  | cons c t =>
    have hc : c ≠ hash := by simpa using h
    rw [escapeKey_cons]
    unfold escapeByte
    split
    · rfl
    · split
      · rfl
      · rw [List.singleton_append, hasPrefix_hash_cons]; simp [hc]

theorem hasPrefix_append (a b : GoString) (hne : a ≠ []) :
    hasPrefix (a ++ b) [hash] = hasPrefix a [hash] := by
  cases a with
  | nil => exact absurd rfl hne
  | cons c a => rw [List.cons_append, hasPrefix_hash_cons, hasPrefix_hash_cons]

/-! ## Whole-resource rules -/

theorem readDriftIgnoreLine_type_star (T : GoString) (hne : T ≠ []) (hascii : isASCII T)
    (hdot : dot ∉ T) (hbs : backslash ∉ T) (hstar : star ∉ T) :
    readDriftIgnoreLine (T ++ ascii ".*") = [T, [star]] := by
  have hline : T ++ ascii ".*" = join ([T, [star]].map escapeKey) [dot] := by
    rw [List.map_cons, List.map_cons, List.map_nil, join_pair, escapeKey_plain T hbs hdot]
    rfl
  rw [hline, readDriftIgnoreLine_join_escapeKey [T, [star]] (by simp)]
  · rw [List.map_cons, List.map_cons, List.map_nil, squeezeStars_no_star T hstar]
    rfl
  · intro u hu
    simp only [List.mem_cons, List.mem_singleton, List.not_mem_nil, or_false] at hu
    rcases hu with rfl | rfl
    · exact ⟨hne, hascii, hbs⟩
    · decide

theorem mem_wildcard_loadLines (lines : List GoString) (line t i : GoString)
    (hmem : line ∈ lines) (hne : line ≠ []) (hc : hasPrefix line [hash] = false)
    (htok : readDriftIgnoreLine line = [t, i]) (hstar : star ∈ t ++ dot :: i)
    (r : DriftIgnore) :
    (t ++ dot :: i) ∈ (loadLines r lines).resExclusionWildcardList := by
  obtain ⟨l1, l2, rfl⟩ := List.append_of_mem hmem
  rw [loadLines_append]
  apply wildcard_mono_loadLines l2
  change (t ++ dot :: i) ∈ (loadLine (loadLines r l1) line).resExclusionWildcardList
  rw [loadLine_resource _ line t i hne hc htok, if_pos hstar]
  exact mem_setAdd_self _ _

/-- For a non-empty ASCII type name `T` without dot, backslash and asterisk that does not begin
with `#`, the filter built from any list of delivered lines containing `T.*` ignores every
resource of type `T`, whatever its id. -/
theorem ignores_type_of_delivered_line (T : GoString) (hne : T ≠ []) (hascii : isASCII T)
    (hdot : dot ∉ T) (hbs : backslash ∉ T) (hstar : star ∉ T) (hhash : T.head? ≠ some hash)
    (lines : List GoString) (hmem : T ++ ascii ".*" ∈ lines) (id : GoString) :
    IsResourceIgnored (NewDriftIgnore lines) ⟨T, id⟩ = true := by
  have htok := readDriftIgnoreLine_type_star T hne hascii hdot hbs hstar
  have hlne : T ++ ascii ".*" ≠ [] := by
    intro h; exact hne (List.append_eq_nil.mp h).1
  have hc : hasPrefix (T ++ ascii ".*") [hash] = false := by
    rw [hasPrefix_append T _ hne]
    have := head_escapeKey_ne_hash T hhash
    rwa [escapeKey_plain T hbs hdot] at this
  have hp := mem_wildcard_loadLines lines _ T [star] hmem hlne hc htok (by simp)
    emptyDriftIgnore
  apply isResourceIgnored_of_wildcard _ _ (T ++ dot :: [star]) hp
  change wildcardMatchChecker (T ++ dot :: id) (T ++ dot :: [star]) = true
  rw [wmc_literal T hstar, wmc_cons_lit dot dot _ _ (by decide), wmc_any_star]
  rfl

theorem readDriftIgnoreLine_listing_line (T I : GoString) (hT : T ≠ []) (hI : I ≠ [])
    (hTa : isASCII T) (hIa : isASCII I) (hTb : backslash ∉ T) (hIb : backslash ∉ I) :
    readDriftIgnoreLine (escapeKey T ++ dot :: escapeKey I) =
      [squeezeStars false T, squeezeStars false I] := by
  have hline : escapeKey T ++ dot :: escapeKey I = join ([T, I].map escapeKey) [dot] := by
    rw [List.map_cons, List.map_cons, List.map_nil, join_pair]
  rw [hline, readDriftIgnoreLine_join_escapeKey [T, I] (by simp)]
  · rfl
  · intro u hu
    simp only [List.mem_cons, List.mem_singleton, List.not_mem_nil, or_false] at hu
    rcases hu with rfl | rfl
    · exact ⟨hT, hTa, hTb⟩
    · exact ⟨hI, hIa, hIb⟩

/-- For a resource whose type and id are non-empty ASCII strings without
backslash, and whose type does not begin with `#`, the filter loaded from the single line
`escapeKey(type) + "." + escapeKey(id)` ignores the resource. -/
theorem ignores_resource_of_listing_line (T I : GoString) (hT : T ≠ []) (hI : I ≠ [])
    (hTa : isASCII T) (hIa : isASCII I) (hTb : backslash ∉ T) (hIb : backslash ∉ I)
    (hhash : T.head? ≠ some hash) :
    IsResourceIgnored (NewDriftIgnore [escapeKey T ++ dot :: escapeKey I]) ⟨T, I⟩ = true := by
  have htok := readDriftIgnoreLine_listing_line T I hT hI hTa hIa hTb hIb
  have hEne : escapeKey T ≠ [] := fun h => hT (escapeKey_eq_nil.mp h)
  have hlne : escapeKey T ++ dot :: escapeKey I ≠ [] := by
    intro h; exact hEne (List.append_eq_nil.mp h).1
  have hc : hasPrefix (escapeKey T ++ dot :: escapeKey I) [hash] = false := by
    rw [hasPrefix_append _ _ hEne]; exact head_escapeKey_ne_hash T hhash
  have hkey : squeezeStars false T ++ dot :: squeezeStars false I =
      squeezeStars false (T ++ dot :: I) := (squeeze_append_dot T I false).symm
  have hload : NewDriftIgnore [escapeKey T ++ dot :: escapeKey I] =
      loadLine emptyDriftIgnore (escapeKey T ++ dot :: escapeKey I) := rfl
  rw [hload, loadLine_resource _ _ _ _ hlne hc htok, hkey]
  by_cases hs : star ∈ squeezeStars false (T ++ dot :: I)
  · rw [if_pos hs]
    apply isResourceIgnored_of_wildcard _ _ (squeezeStars false (T ++ dot :: I))
    · change squeezeStars false (T ++ dot :: I) ∈
        setAdd emptyDriftIgnore.resExclusionWildcardList (squeezeStars false (T ++ dot :: I))
      exact mem_setAdd_self _ _
    · exact (wmc_squeeze (T ++ dot :: I)).1
  · rw [if_neg hs]
    apply isResourceIgnored_of_exact
    have hns : star ∉ T ++ dot :: I := fun h => hs (star_mem_squeeze _ h)
    rw [squeezeStars_no_star _ hns false]
    change T ++ dot :: I ∈ setAdd emptyDriftIgnore.resExclusionList (T ++ dot :: I)
    exact mem_setAdd_self _ _

/-! ## Field rules -/

theorem readDriftIgnoreLine_nil : readDriftIgnoreLine [] = [] := rfl

theorem newDriftIgnore_field (line t i p : GoString) (ps : List GoString)
    (hc : hasPrefix line [hash] = false)
    (htok : readDriftIgnoreLine line = t :: i :: p :: ps) :
    NewDriftIgnore [line] = ⟨[], [], [(t ++ dot :: i, [join (p :: ps) [dot]])]⟩ := by
  have hne : line ≠ [] := by
    intro h; rw [h, readDriftIgnoreLine_nil] at htok; exact absurd htok (by simp)
  have hload : NewDriftIgnore [line] = loadLine emptyDriftIgnore line := rfl
  rw [hload, loadLine_field _ line t i p ps hne hc htok]
  rfl

theorem isFieldIgnored_single (equalFold : GoString → GoString → Bool) (t i : GoString)
    (rules : List GoString) (path : List GoString) :
    IsFieldIgnored equalFold ⟨[], [], [(t ++ dot :: i, rules)]⟩ ⟨t, i⟩ path =
      isExcluded equalFold rules path := by
  simp [IsFieldIgnored, resKey, mapGet]

theorem isExcluded_single (equalFold : GoString → GoString → Bool) (rule : GoString)
    (path : List GoString) :
    isExcluded equalFold [rule] path =
      if (readDriftIgnoreLine rule).length > path.length then false
      else ruleMatches equalFold (readDriftIgnoreLine rule) path := by
  simp [isExcluded]

theorem not_mismatch_iff (a : Bool) (x y : GoString) :
    (!(!a && (x != y))) = true ↔ (x = y ∨ a = true) := by
  by_cases h : x = y <;> cases a <;> simp [h]

theorem ruleMatches_iff (equalFold : GoString → GoString → Bool) (ps path : List GoString) :
    ruleMatches equalFold ps path = true ↔
      ∀ j < ps.length, ps.getD j [] = [star] ∨
        equalFold (ps.getD j []) (path.getD j []) = true := by
  unfold ruleMatches
  rw [List.all_eq_true]
  constructor
  · intro h j hj
    exact (not_mismatch_iff _ _ _).mp (h j (List.mem_range.mpr hj))
  · intro h j hj
    exact (not_mismatch_iff _ _ _).mpr (h j (List.mem_range.mp hj))

theorem map_escapeKey_plain (l : List GoString) (h : ∀ u ∈ l, backslash ∉ u ∧ dot ∉ u) :
    l.map escapeKey = l := by
  induction l with
  | nil => rfl
  | cons u rest ih =>
    obtain ⟨h1, h2⟩ := h u (List.mem_cons_self _ _)
    rw [List.map_cons, escapeKey_plain u h1 h2, ih (fun w hw => h w (List.mem_cons_of_mem _ hw))]

/-- A field rule whose path segments are plain (non-empty ASCII, no dot, no backslash, no `**`)
matches a change path segment by segment. -/
theorem isFieldIgnored_plain_rule (equalFold : GoString → GoString → Bool)
    (line ty id : GoString) (ps : List GoString) (path : List GoString)
    (htok : readDriftIgnoreLine line = ty :: id :: ps) (hn : ps ≠ [])
    (hc : hasPrefix line [hash] = false)
    (hps : ∀ p ∈ ps, p ≠ [] ∧ isASCII p ∧ dot ∉ p ∧ backslash ∉ p ∧
      strContains p [star, star] = false) :
    IsFieldIgnored equalFold (NewDriftIgnore [line]) ⟨ty, id⟩ path = true ↔
      ps.length ≤ path.length ∧
      ∀ j < ps.length, ps.getD j [] = [star] ∨
        equalFold (ps.getD j []) (path.getD j []) = true := by
  obtain ⟨p, ps', rfl⟩ : ∃ p ps', ps = p :: ps' := by
    cases ps with
    | nil => exact absurd rfl hn
    | cons p ps' => exact ⟨p, ps', rfl⟩
  have hesc : (p :: ps').map escapeKey = p :: ps' := by
    exact map_escapeKey_plain _ (fun u hu => ⟨(hps u hu).2.2.2.1, (hps u hu).2.2.1⟩)
  have hretok : readDriftIgnoreLine (join (p :: ps') [dot]) = p :: ps' := by
    have := readDriftIgnoreLine_join_escapeKey (p :: ps') hn
      (fun u hu => ⟨(hps u hu).1, (hps u hu).2.1, (hps u hu).2.2.2.1⟩)
    rw [hesc] at this
    rw [this]
    exact map_squeeze_id _ (fun u hu => (hps u hu).2.2.2.2)
  rw [newDriftIgnore_field line ty id p ps' hc htok, isFieldIgnored_single, isExcluded_single,
    hretok]
  by_cases hlen : (p :: ps').length > path.length
  · simp only [hlen, if_true]
    constructor
    · intro h; exact absurd h (by simp)
    · rintro ⟨h, _⟩; omega
  · simp only [hlen, if_false, ruleMatches_iff]
    constructor
    · intro h; exact ⟨by omega, h⟩
    · rintro ⟨_, h⟩; exact h

theorem readDriftIgnoreLine_tags_rule (T I : GoString) (hT : T ≠ []) (hI : I ≠ [])
    (hTa : isASCII T) (hIa : isASCII I) (hTd : dot ∉ T) (hId : dot ∉ I)
    (hTb : backslash ∉ T) (hIb : backslash ∉ I) (hTs : star ∉ T) (hIs : star ∉ I) :
    readDriftIgnoreLine (T ++ ascii "." ++ I ++ ascii ".tags.*") =
      [T, I, ascii "tags", [star]] := by
  have hline : T ++ ascii "." ++ I ++ ascii ".tags.*" =
      join ([T, I, ascii "tags", [star]].map escapeKey) [dot] := by
    rw [map_escapeKey_plain]
    · simp only [join_cons_cons, join_singleton, List.append_assoc]
      rfl
    · intro u hu
      simp only [List.mem_cons, List.mem_singleton, List.not_mem_nil, or_false] at hu
      rcases hu with rfl | rfl | rfl | rfl
      · exact ⟨hTb, hTd⟩
      · exact ⟨hIb, hId⟩
      · decide
      · decide
  rw [hline, readDriftIgnoreLine_join_escapeKey _ (by simp)]
  · simp only [List.map_cons, List.map_nil, squeezeStars_no_star T hTs,
      squeezeStars_no_star I hIs]
    rfl
  · intro u hu
    simp only [List.mem_cons, List.mem_singleton, List.not_mem_nil, or_false] at hu
    rcases hu with rfl | rfl | rfl | rfl
    · exact ⟨hT, hTa, hTb⟩
    · exact ⟨hI, hIa, hIb⟩
    · decide
    · decide

theorem isFieldIgnored_tags_rule (T I : GoString) (hT : T ≠ []) (hI : I ≠ [])
    (hTa : isASCII T) (hIa : isASCII I) (hTd : dot ∉ T) (hId : dot ∉ I)
    (hTb : backslash ∉ T) (hIb : backslash ∉ I) (hTs : star ∉ T) (hIs : star ∉ I)
    (hhash : T.head? ≠ some hash) (equalFold : GoString → GoString → Bool)
    (path : List GoString) :
    IsFieldIgnored equalFold (NewDriftIgnore [T ++ ascii "." ++ I ++ ascii ".tags.*"]) ⟨T, I⟩
        path = true ↔
      2 ≤ path.length ∧ equalFold (ascii "tags") (path.headD []) = true := by
  have htok := readDriftIgnoreLine_tags_rule T I hT hI hTa hIa hTd hId hTb hIb hTs hIs
  have hc : hasPrefix (T ++ ascii "." ++ I ++ ascii ".tags.*") [hash] = false := by
    rw [List.append_assoc, List.append_assoc, hasPrefix_append T _ hT]
    have := head_escapeKey_ne_hash T hhash
    rwa [escapeKey_plain T hTb hTd] at this
  rw [isFieldIgnored_plain_rule equalFold _ T I [ascii "tags", [star]] path htok (by simp) hc
    (by decide)]
  have hlen : [ascii "tags", [star]].length = 2 := rfl
  rw [hlen]
  constructor
  · rintro ⟨h2, h⟩
    refine ⟨h2, ?_⟩
    rcases h 0 (by omega) with h0 | h0
    · exact absurd h0 (by decide)
    · cases path with
      | nil => simp at h2
      | cons a rest => exact h0
  · rintro ⟨h2, h⟩
    refine ⟨h2, ?_⟩
    intro j hj
    have hj2 : j = 0 ∨ j = 1 := by omega
    rcases hj2 with rfl | rfl
    · right
      cases path with
      | nil => simp at h2
      | cons a rest => exact h
    · left; rfl

/-- C4 (as amended): for non-empty ASCII strings `T` and `I` without dot, backslash and
asterisk, `T` not beginning with `#`, the filter loaded from the single line `T.I.tags.*`
ignores a change path exactly when it has at least two segments and `strings.EqualFold`
accepts `tags` and its first segment. -/
theorem tags_wildcard_rule (T I : GoString) (hT : T ≠ []) (hI : I ≠ [])
    (hTa : isASCII T) (hIa : isASCII I) (hTd : dot ∉ T) (hId : dot ∉ I)
    (hTb : backslash ∉ T) (hIb : backslash ∉ I) (hTs : star ∉ T) (hIs : star ∉ I)
    (hhash : T.head? ≠ some hash) :
    (∀ (equalFold : GoString → GoString → Bool) (path : List GoString),
      IsFieldIgnored equalFold (NewDriftIgnore [T ++ ascii "." ++ I ++ ascii ".tags.*"]) ⟨T, I⟩
          path = true ↔
        2 ≤ path.length ∧ equalFold (ascii "tags") (path.headD []) = true) ∧
    IsFieldIgnored asciiEqualFold (NewDriftIgnore [T ++ ascii "." ++ I ++ ascii ".tags.*"])
      ⟨T, I⟩ [ascii "tags", ascii "Name"] = true ∧
    IsFieldIgnored asciiEqualFold (NewDriftIgnore [T ++ ascii "." ++ I ++ ascii ".tags.*"])
      ⟨T, I⟩ [ascii "tags", ascii "Env"] = true ∧
    IsFieldIgnored asciiEqualFold (NewDriftIgnore [T ++ ascii "." ++ I ++ ascii ".tags.*"])
      ⟨T, I⟩ [ascii "tags"] = false ∧
    IsFieldIgnored asciiEqualFold (NewDriftIgnore [T ++ ascii "." ++ I ++ ascii ".tags.*"])
      ⟨T, I⟩ [ascii "metadata", ascii "tags", ascii "Name"] = false := by
  have key := isFieldIgnored_tags_rule T I hT hI hTa hIa hTd hId hTb hIb hTs hIs hhash
  refine ⟨key, ?_, ?_, ?_, ?_⟩
  · exact (key asciiEqualFold _).mpr (by decide)
  · exact (key asciiEqualFold _).mpr (by decide)
  · rw [← Bool.not_eq_true, key asciiEqualFold]; decide
  · rw [← Bool.not_eq_true, key asciiEqualFold]; decide

/-- Witness for `tags_wildcard_rule`: the rule `aws_instance.i-1.tags.*`. -/
theorem tags_wildcard_rule_witness :
    IsFieldIgnored asciiEqualFold
      (NewDriftIgnore [ascii "aws_instance" ++ ascii "." ++ ascii "i-1" ++ ascii ".tags.*"])
      ⟨ascii "aws_instance", ascii "i-1"⟩ [ascii "tags", ascii "Name"] = true :=
  (tags_wildcard_rule (ascii "aws_instance") (ascii "i-1") (by decide) (by decide) (by decide)
    (by decide) (by decide) (by decide) (by decide) (by decide) (by decide) (by decide)
    (by decide)).2.1

/-- C4 as stated fails for `T = "#"`: the line `#.i.tags.*` is a comment, so the change at
`["tags", "Name"]` is not ignored. -/
theorem tags_wildcard_rule_hash_counterexample :
    (ascii "#" ≠ [] ∧ ascii "i" ≠ [] ∧ isASCII (ascii "#") ∧ isASCII (ascii "i") ∧
        dot ∉ ascii "#" ∧ dot ∉ ascii "i" ∧ backslash ∉ ascii "#" ∧ backslash ∉ ascii "i" ∧
        star ∉ ascii "#" ∧ star ∉ ascii "i") ∧
      (2 ≤ [ascii "tags", ascii "Name"].length ∧
        asciiEqualFold (ascii "tags") ([ascii "tags", ascii "Name"].headD []) = true) ∧
      IsFieldIgnored asciiEqualFold
        (NewDriftIgnore [ascii "#" ++ ascii "." ++ ascii "i" ++ ascii ".tags.*"])
        ⟨ascii "#", ascii "i"⟩ [ascii "tags", ascii "Name"] = false := by
  decide

/-- C5: rules stored under the exact key `type.id` shadow the rules stored under `type.*`;
the latter are used only when the exact key has none, and the answer is false when neither
key has rules. With the lines `T.*.tags` and `T.I.name` loaded, the change at `["tags"]` is
not ignored on `T.I` and is ignored on `T.J` for every other id `J`. -/
theorem isFieldIgnored_shadowing :
    (∀ (equalFold : GoString → GoString → Bool) (r : DriftIgnore) (res : Resource)
        (path : List GoString),
      (∀ rules, mapGet r.driftExclusionList (res.TerraformType ++ ascii "." ++ res.TerraformId) =
          some rules →
        IsFieldIgnored equalFold r res path = isExcluded equalFold rules path) ∧
      (mapGet r.driftExclusionList (res.TerraformType ++ ascii "." ++ res.TerraformId) = none →
        ∀ rules, mapGet r.driftExclusionList (res.TerraformType ++ ascii ".*") = some rules →
          IsFieldIgnored equalFold r res path = isExcluded equalFold rules path) ∧
      (mapGet r.driftExclusionList (res.TerraformType ++ ascii "." ++ res.TerraformId) = none →
        mapGet r.driftExclusionList (res.TerraformType ++ ascii ".*") = none →
          IsFieldIgnored equalFold r res path = false)) ∧
    IsFieldIgnored asciiEqualFold (NewDriftIgnore [ascii "T.*.tags", ascii "T.I.name"])
      ⟨ascii "T", ascii "I"⟩ [ascii "tags"] = false ∧
    (∀ J : GoString, J ≠ ascii "I" →
      IsFieldIgnored asciiEqualFold (NewDriftIgnore [ascii "T.*.tags", ascii "T.I.name"])
        ⟨ascii "T", J⟩ [ascii "tags"] = true) := by
  refine ⟨?_, by decide, ?_⟩
  · intro equalFold r res path
    have hk1 : res.TerraformType ++ ascii "." ++ res.TerraformId =
        resKey res.TerraformType res.TerraformId := by
      simp [resKey, ascii]
    have hk2 : res.TerraformType ++ ascii ".*" = res.TerraformType ++ [dot, star] := rfl
    rw [hk1, hk2]
    refine ⟨?_, ?_, ?_⟩
    · intro rules h
      simp only [IsFieldIgnored, h]
    · intro h rules hw
      simp only [IsFieldIgnored, h, hw]
    · intro h hw
      simp only [IsFieldIgnored, h, hw]
  · intro J hJ
    have hstate : NewDriftIgnore [ascii "T.*.tags", ascii "T.I.name"] =
        ⟨[], [], [([84, 46, 42], [ascii "tags"]), ([84, 46, 73], [ascii "name"])]⟩ := by
      decide
    have hkey : resKey (ascii "T") J = 84 :: 46 :: J := rfl
    have hwild : ascii "T" ++ [dot, star] = [84, 46, 42] := rfl
    have hex : isExcluded asciiEqualFold [ascii "tags"] [ascii "tags"] = true := by decide
    have hJ2 : ¬ J = [73] := hJ
    by_cases hs : J = [42]
    · subst hs
      rw [hstate]
      decide
    · rw [hstate]
      simp only [IsFieldIgnored, hkey, hwild, mapGet, List.cons.injEq, true_and]
      have e1 : ¬ ([42] = J) := fun h => hs h.symm
      have e2 : ¬ ([73] = J) := fun h => hJ2 h.symm
      simp only [e1, e2, if_false, if_true, hex]

/-- Witness for `isFieldIgnored_shadowing`: a state with rules under both `t.i` and `t.*`. -/
theorem isFieldIgnored_shadowing_witness :
    IsFieldIgnored asciiEqualFold
      ⟨[], [], [(ascii "t.*", [ascii "tags"]), (ascii "t.i", [ascii "name"])]⟩
      ⟨ascii "t", ascii "i"⟩ [ascii "tags"] =
    isExcluded asciiEqualFold [ascii "name"] [ascii "tags"] :=
  (isFieldIgnored_shadowing.1 asciiEqualFold
    ⟨[], [], [(ascii "t.*", [ascii "tags"]), (ascii "t.i", [ascii "name"])]⟩
    ⟨ascii "t", ascii "i"⟩ [ascii "tags"]).1 [ascii "name"] (by decide)

/-- C8 fails at `k = 3`: in the line `a\\\.b` the dot follows an odd number of backslashes,
yet the tokenizer takes it as a separator and returns two segments. This is the line
`escapeKey` writes for the key `a\.b`. -/
theorem readDriftIgnoreLine_three_backslashes :
    readDriftIgnoreLine (ascii "a" ++ List.replicate 3 backslash ++ ascii "." ++ ascii "b") =
      [ascii "a\\\\", ascii "b"] ∧
    (readDriftIgnoreLine
      (ascii "a" ++ List.replicate 3 backslash ++ ascii "." ++ ascii "b")).length = 2 ∧
    escapeKey (ascii "a\\.b") =
      ascii "a" ++ List.replicate 3 backslash ++ ascii "." ++ ascii "b" := by
  decide

/-- C10 fails on a rule segment with a literal dot: the line `t.i.a\.b` reads as the segments
`t`, `i`, `a.b`, but the stored path `a.b` is read again as two segments, so the change path
`["a.b"]` is not ignored while `["a", "b"]` is. -/
theorem field_rule_literal_dot_retokenised :
    hasPrefix (ascii "t.i.a\\.b") [hash] = false ∧
    readDriftIgnoreLine (ascii "t.i.a\\.b") = [ascii "t", ascii "i", ascii "a.b"] ∧
    asciiEqualFold (ascii "a.b") (ascii "a.b") = true ∧
    IsFieldIgnored asciiEqualFold (NewDriftIgnore [ascii "t.i.a\\.b"]) ⟨ascii "t", ascii "i"⟩
      [ascii "a.b"] = false ∧
    IsFieldIgnored asciiEqualFold (NewDriftIgnore [ascii "t.i.a\\.b"]) ⟨ascii "t", ascii "i"⟩
      [ascii "a", ascii "b"] = true := by
  decide

/-! ## Backslashes before a dot -/

theorem splitRec_no_dot (u : GoString) (hu : dot ∉ u) : ∀ (rpre cur rest : GoString),
    splitRec rpre cur (u ++ rest) =
      if rest = [] then
        if u = [] then [] else [dropLastOfRuns (cur ++ u)]
      else splitRec (u.reverse ++ rpre) (cur ++ u) rest := by
  induction u with
  | nil =>
    intro rpre cur rest
    by_cases hr : rest = []
    · subst hr; simp [splitRec]
    · simp [hr]
  | cons c u ih =>
    intro rpre cur rest
    have hc : c ≠ dot := fun h => hu (by simp [h])
    have ih := ih (fun h => hu (List.mem_cons_of_mem _ h))
    rw [List.cons_append, splitRec_cons, sepAfter_not_dot rpre c hc]
    simp only [Bool.false_eq_true, if_false]
    by_cases hnil : u ++ rest = []
    · obtain ⟨h1, h2⟩ := List.append_eq_nil.mp hnil
      subst h1; subst h2
      simp
    · simp only [hnil, if_false]
      rw [ih (c :: rpre) _ rest]
      by_cases hr : rest = []
      · have hu2 : u ≠ [] := by
          intro h3; apply hnil; rw [h3, hr]; rfl
        simp [hr, hu2]
      · simp [hr]

theorem sepAfter_backslashes (k : Nat) (a : GoString) (ha : a ≠ []) (hab : backslash ∉ a) :
    sepAfter ((a ++ List.replicate k backslash).reverse) dot = !decide (k = 1) := by
  obtain ⟨x, r, hx⟩ : ∃ x r, a.reverse = x :: r := by
    cases h : a.reverse with
    | nil => exact absurd (List.reverse_eq_nil_iff.mp h) ha
    | cons x r => exact ⟨x, r, rfl⟩
  have hx92 : x ≠ backslash := by
    intro h
    apply hab
    have : x ∈ a.reverse := by rw [hx]; exact List.mem_cons_self _ _
    rw [← h]; exact List.mem_reverse.mp this
  rw [List.reverse_append, List.reverse_replicate, hx]
  match k with
  | 0 => cases r <;> simp [sepAfter, hx92]
  | 1 => simp [sepAfter, hx92, List.replicate]
  | k + 2 => simp [sepAfter, List.replicate]

/-- What `readDriftIgnoreLine` does with `k` backslashes before a dot: the dot is literal for
`k = 1` only, and a separator for every other `k`. -/
theorem readDriftIgnoreLine_backslashes_dot (a b : GoString) (k : Nat) (ha : a ≠ [])
    (hb : b ≠ []) (haa : isASCII a) (hba : isASCII b) (had : dot ∉ a) (hbd : dot ∉ b)
    (hab : backslash ∉ a) (has : star ∉ a) (hbs : star ∉ b) :
    (readDriftIgnoreLine (a ++ List.replicate k backslash ++ ascii "." ++ b)).length =
      if k = 1 then 1 else 2 := by
  have hrep : ∀ x ∈ List.replicate k backslash, x = backslash := fun x hx =>
    (List.mem_replicate.mp hx).2
  have hstar : star ∉ a ++ List.replicate k backslash ++ ascii "." ++ b := by
    intro h
    simp only [List.mem_append] at h
    rcases h with ((h | h) | h) | h
    · exact has h
    · exact absurd (hrep _ h) (by decide)
    · revert h; decide
    · exact hbs h
  have hascii : isASCII (a ++ List.replicate k backslash ++ ascii "." ++ b) := by
    refine isASCII_append.mpr ⟨isASCII_append.mpr ⟨isASCII_append.mpr ⟨haa, ?_⟩, by decide⟩, hba⟩
    intro x hx; rw [hrep x hx]; decide
  have hdot : dot ∉ a ++ List.replicate k backslash := by
    intro h
    rcases List.mem_append.mp h with h | h
    · exact had h
    · exact absurd (hrep _ h) (by decide)
  unfold readDriftIgnoreLine
  rw [collapseStars_eq, squeezeStars_no_star _ hstar, splitLine_ascii _ hascii]
  have hshape : a ++ List.replicate k backslash ++ ascii "." ++ b =
      (a ++ List.replicate k backslash) ++ dot :: b := by
    simp [ascii]
  rw [hshape, splitRec_no_dot _ hdot]
  simp only [reduceCtorEq, if_false, List.append_nil, List.nil_append]
  rw [splitRec_cons, sepAfter_backslashes k a ha hab]
  by_cases hk : k = 1
  · simp only [hk, decide_True, Bool.not_true, Bool.false_eq_true, if_false, hb, if_true]
    have := splitRec_no_dot b hbd (dot :: (a ++ List.replicate 1 backslash).reverse)
      (a ++ List.replicate 1 backslash ++ [dot]) []
    simp only [List.append_nil, if_true, hb, if_false] at this
    rw [this]
    rfl
  · simp only [hk, decide_False, Bool.not_false, if_true, if_false, List.length_cons]
    have := splitRec_no_dot b hbd (dot :: (a ++ List.replicate k backslash).reverse) [] []
    simp only [List.append_nil, if_true, hb, if_false] at this
    rw [this]
    rfl

/-- Instance of `readDriftIgnoreLine_backslashes_dot` at `k = 2`. -/
theorem readDriftIgnoreLine_backslashes_dot_witness :
    (readDriftIgnoreLine (ascii "a" ++ List.replicate 2 backslash ++ ascii "." ++ ascii "b")).length
      = if 2 = 1 then 1 else 2 :=
  readDriftIgnoreLine_backslashes_dot (ascii "a") (ascii "b") 2 (by decide) (by decide)
    (by decide) (by decide) (by decide) (by decide) (by decide) (by decide) (by decide)

/-! ## Lines as insertions -/

theorem loadLine_eq_applyAction (r : DriftIgnore) (line : GoString) :
    loadLine r line = applyAction r (lineAction line) := by
  unfold lineAction
  by_cases hskip : line = [] ∨ hasPrefix line [hash] = true
  · simp [loadLine, hskip, applyAction]
  · have hne : line ≠ [] := fun h => hskip (Or.inl h)
    have hc : hasPrefix line [hash] = false := by
      cases h : hasPrefix line [hash]
      · rfl
      · exact absurd (Or.inr h) hskip
    rw [if_neg hskip]
    match htok : readDriftIgnoreLine line with
    | [] => simp [loadLine, hskip, htok, applyAction]
    | [t] => simp [loadLine, hskip, htok, applyAction]
    | [t, i] =>
      rw [loadLine_resource r line t i hne hc htok]
      by_cases hs : star ∈ t ++ dot :: i
      · simp only [hs, if_true, applyAction]
      · simp only [hs, if_false, applyAction]
    | t :: i :: p :: ps =>
      rw [loadLine_field r line t i p ps hne hc htok]
      rfl

theorem loadLines_eq_foldl (lines : List GoString) : ∀ r : DriftIgnore,
    loadLines r lines = (lines.map lineAction).foldl applyAction r := by
  induction lines with
  | nil => intro r; rfl
  | cons l rest ih =>
    intro r
    change loadLines (loadLine r l) rest = _
    rw [ih, loadLine_eq_applyAction]
    rfl

theorem lineAction_of_skipped (line : GoString) (h : isSkippedLine line = true) :
    lineAction line = Action.skip := by
  unfold isSkippedLine at h
  unfold lineAction
  by_cases hskip : line = [] ∨ hasPrefix line [hash] = true
  · rw [if_pos hskip]
  · rw [if_neg hskip]
    have hlen : (readDriftIgnoreLine line).length < 2 := by
      simp only [Bool.or_eq_true, decide_eq_true_eq] at h
      rcases h with (h | h) | h
      · exact absurd (Or.inl h) hskip
      · exact absurd (Or.inr h) hskip
      · exact h
    match htok : readDriftIgnoreLine line with
    | [] => rfl
    | [t] => rfl
    | t :: i :: rest => rw [htok] at hlen; simp at hlen; omega

theorem mem_setAdd_iff (m : List GoString) (key k : GoString) :
    k ∈ setAdd m key ↔ k = key ∨ k ∈ m := by
  unfold setAdd
  split
  · constructor
    · intro h; exact Or.inr h
    · rintro (h | h)
      · rw [h]; assumption
      · exact h
  · simp [List.mem_append, or_comm]

/-- C12 (as amended): loading a line that does not begin with `#` and reads as exactly two
segments `t`, `i` inserts the key `t.i` into the wildcard-match set when the key contains an
asterisk and into the exact-match set otherwise; the other set and the field-path rules are
unchanged. -/
theorem loadLine_two_segments (r : DriftIgnore) (line t i : GoString)
    (hc : hasPrefix line (ascii "#") = false) (htok : readDriftIgnoreLine line = [t, i]) :
    (strContains (t ++ ascii "." ++ i) (ascii "*") = true →
      (∀ k, k ∈ (loadLine r line).resExclusionWildcardList ↔
        k = t ++ ascii "." ++ i ∨ k ∈ r.resExclusionWildcardList) ∧
      (loadLine r line).resExclusionList = r.resExclusionList ∧
      (loadLine r line).driftExclusionList = r.driftExclusionList) ∧
    (strContains (t ++ ascii "." ++ i) (ascii "*") = false →
      (∀ k, k ∈ (loadLine r line).resExclusionList ↔
        k = t ++ ascii "." ++ i ∨ k ∈ r.resExclusionList) ∧
      (loadLine r line).resExclusionWildcardList = r.resExclusionWildcardList ∧
      (loadLine r line).driftExclusionList = r.driftExclusionList) := by
  have hne : line ≠ [] := by
    intro h; rw [h, readDriftIgnoreLine_nil] at htok; exact absurd htok (by simp)
  have hkey : t ++ ascii "." ++ i = t ++ dot :: i := by simp [ascii]
  have hstar : ascii "*" = [star] := rfl
  rw [hkey, hstar, strContains_single, loadLine_resource r line t i hne hc htok]
  constructor
  · intro hs
    have hs : star ∈ t ++ dot :: i := by simpa using hs
    rw [if_pos hs]
    exact ⟨fun k => mem_setAdd_iff _ _ k, rfl, rfl⟩
  · intro hs
    have hs : star ∉ t ++ dot :: i := by simpa using hs
    rw [if_neg hs]
    exact ⟨fun k => mem_setAdd_iff _ _ k, rfl, rfl⟩

/-- Witness for `loadLine_two_segments`: the line `aws_s3_bucket.b*` after the exact rule
`a.b`. -/
theorem loadLine_two_segments_witness :
    (ascii "aws_s3_bucket.b*" ∈
        (loadLine ⟨[ascii "a.b"], [], []⟩ (ascii "aws_s3_bucket.b*")).resExclusionWildcardList ↔
      ascii "aws_s3_bucket.b*" = ascii "aws_s3_bucket" ++ ascii "." ++ ascii "b*" ∨
        ascii "aws_s3_bucket.b*" ∈ ([] : List GoString)) ∧
    (loadLine ⟨[ascii "a.b"], [], []⟩ (ascii "aws_s3_bucket.b*")).resExclusionList =
      [ascii "a.b"] ∧
    (loadLine ⟨[ascii "a.b"], [], []⟩ (ascii "aws_s3_bucket.b*")).driftExclusionList = [] :=
  ⟨((loadLine_two_segments ⟨[ascii "a.b"], [], []⟩ (ascii "aws_s3_bucket.b*")
      (ascii "aws_s3_bucket") (ascii "b*") (by decide) (by decide)).1 (by decide)).1
      (ascii "aws_s3_bucket.b*"),
    ((loadLine_two_segments ⟨[ascii "a.b"], [], []⟩ (ascii "aws_s3_bucket.b*")
      (ascii "aws_s3_bucket") (ascii "b*") (by decide) (by decide)).1 (by decide)).2⟩

/-- C12 as stated fails for a comment line: `#a.b` reads as the two segments `#a` and `b`, but
loading it inserts nothing. -/
theorem loadLine_two_segments_comment_counterexample :
    readDriftIgnoreLine (ascii "#a.b") = [ascii "#a", ascii "b"] ∧
    strContains (ascii "#a" ++ ascii "." ++ ascii "b") (ascii "*") = false ∧
    ascii "#a" ++ ascii "." ++ ascii "b" ∉
      (loadLine emptyDriftIgnore (ascii "#a.b")).resExclusionList := by
  decide

/-- In the line loop, delivered lines that are empty, begin with `#`, or read as fewer than two
segments have no effect on the three rule collections, and the lines after them are still
loaded: the state is the one loaded from the list without those lines. -/
theorem loadLines_filter_skipped :
    (∀ (r : DriftIgnore) (lines : List GoString),
      loadLines r lines = loadLines r (lines.filter fun l => !isSkippedLine l)) ∧
    (∀ lines : List GoString,
      NewDriftIgnore lines = NewDriftIgnore (lines.filter fun l => !isSkippedLine l)) ∧
    NewDriftIgnore [ascii "", ascii "# comment", ascii "nodot", ascii "a.b", ascii ".", ascii "c.*"] =
      NewDriftIgnore [ascii "a.b", ascii "c.*"] := by
  have key : ∀ (lines : List GoString) (r : DriftIgnore),
      loadLines r lines = loadLines r (lines.filter fun l => !isSkippedLine l) := by
    intro lines
    induction lines with
    | nil => intro r; rfl
    | cons l rest ih =>
      intro r
      by_cases hs : isSkippedLine l = true
      · have hl : loadLine r l = r := by
          rw [loadLine_eq_applyAction, lineAction_of_skipped l hs]; rfl
        have hf : (l :: rest).filter (fun l => !isSkippedLine l) =
            rest.filter (fun l => !isSkippedLine l) := by
          simp [List.filter_cons, hs]
        rw [hf, ← ih r]
        change loadLines (loadLine r l) rest = _
        rw [hl]
      · have hf : (l :: rest).filter (fun l => !isSkippedLine l) =
            l :: rest.filter (fun l => !isSkippedLine l) := by
          simp [List.filter_cons, hs]
        rw [hf]
        change loadLines (loadLine r l) rest = loadLines (loadLine r l) _
        exact ih _
  exact ⟨fun r lines => key lines r, fun lines => key lines emptyDriftIgnore, by decide⟩

/-! ## The order of the lines -/

theorem mapGet_mapSet (m : List (GoString × List GoString)) (k : GoString)
    (v : List GoString) (k2 : GoString) :
    mapGet (mapSet m k v) k2 = if k = k2 then some v else mapGet m k2 := by
  induction m with
  | nil => simp [mapSet, mapGet]
  | cons e rest ih =>
    obtain ⟨k1, v1⟩ := e
    by_cases h1 : k1 = k
    · subst h1
      by_cases h2 : k1 = k2 <;> simp [mapSet, mapGet, h2]
    · simp only [mapSet, h1, if_false, mapGet, ih]
      by_cases h2 : k = k2
      · subst h2; simp [h1]
      · simp [h2]

theorem exact_applyAction (r : DriftIgnore) (a : Action) (k : GoString) :
    k ∈ (applyAction r a).resExclusionList ↔ k ∈ r.resExclusionList ∨ a = Action.exact k := by
  cases a with
  | skip => simp [applyAction]
  | exact key =>
    simp only [applyAction, mem_setAdd_iff, Action.exact.injEq]
    constructor
    · rintro (h | h)
      · exact Or.inr h.symm
      · exact Or.inl h
    · rintro (h | h)
      · exact Or.inr h
      · exact Or.inl h.symm
  | wildcard key => simp [applyAction]
  | field key p => simp [applyAction]

theorem wildcard_applyAction (r : DriftIgnore) (a : Action) (k : GoString) :
    k ∈ (applyAction r a).resExclusionWildcardList ↔
      k ∈ r.resExclusionWildcardList ∨ a = Action.wildcard k := by
  cases a with
  | skip => simp [applyAction]
  | exact key => simp [applyAction]
  | wildcard key =>
    simp only [applyAction, mem_setAdd_iff, Action.wildcard.injEq]
    constructor
    · rintro (h | h)
      · exact Or.inr h.symm
      · exact Or.inl h
    · rintro (h | h)
      · exact Or.inr h
      · exact Or.inl h.symm
  | field key p => simp [applyAction]

theorem present_applyAction (r : DriftIgnore) (a : Action) (k : GoString) :
    (mapGet (applyAction r a).driftExclusionList k).isSome = true ↔
      (mapGet r.driftExclusionList k).isSome = true ∨ ∃ x, a = Action.field k x := by
  cases a with
  | skip => simp [applyAction]
  | exact key => simp [applyAction]
  | wildcard key => simp [applyAction]
  | field key p =>
    simp only [applyAction, mapGet_mapSet, Action.field.injEq]
    by_cases h : key = k
    · subst h; simp
    · simp [h]

theorem rules_applyAction (r : DriftIgnore) (a : Action) (k x : GoString) :
    x ∈ (mapGet (applyAction r a).driftExclusionList k).getD [] ↔
      x ∈ (mapGet r.driftExclusionList k).getD [] ∨ a = Action.field k x := by
  cases a with
  | skip => simp [applyAction]
  | exact key => simp [applyAction]
  | wildcard key => simp [applyAction]
  | field key p =>
    simp only [applyAction, mapGet_mapSet, Action.field.injEq]
    by_cases h : key = k
    · subst h
      simp only [if_true, Option.getD_some, List.mem_append, List.mem_singleton, true_and]
      constructor
      · rintro (h | h)
        · exact Or.inl h
        · exact Or.inr h.symm
      · rintro (h | h)
        · exact Or.inl h
        · exact Or.inr h.symm
    · simp [h]

theorem exact_foldl (as : List Action) : ∀ (r : DriftIgnore) (k : GoString),
    k ∈ (as.foldl applyAction r).resExclusionList ↔
      k ∈ r.resExclusionList ∨ Action.exact k ∈ as := by
  induction as with
  | nil => intro r k; simp
  | cons a rest ih =>
    intro r k
    rw [List.foldl_cons, ih, exact_applyAction, List.mem_cons, or_assoc]
    constructor
    · rintro (h | h | h)
      · exact Or.inl h
      · exact Or.inr (Or.inl h.symm)
      · exact Or.inr (Or.inr h)
    · rintro (h | h | h)
      · exact Or.inl h
      · exact Or.inr (Or.inl h.symm)
      · exact Or.inr (Or.inr h)

theorem wildcard_foldl (as : List Action) : ∀ (r : DriftIgnore) (k : GoString),
    k ∈ (as.foldl applyAction r).resExclusionWildcardList ↔
      k ∈ r.resExclusionWildcardList ∨ Action.wildcard k ∈ as := by
  induction as with
  | nil => intro r k; simp
  | cons a rest ih =>
    intro r k
    rw [List.foldl_cons, ih, wildcard_applyAction, List.mem_cons, or_assoc]
    constructor
    · rintro (h | h | h)
      · exact Or.inl h
      · exact Or.inr (Or.inl h.symm)
      · exact Or.inr (Or.inr h)
    · rintro (h | h | h)
      · exact Or.inl h
      · exact Or.inr (Or.inl h.symm)
      · exact Or.inr (Or.inr h)

theorem present_foldl (as : List Action) : ∀ (r : DriftIgnore) (k : GoString),
    (mapGet (as.foldl applyAction r).driftExclusionList k).isSome = true ↔
      (mapGet r.driftExclusionList k).isSome = true ∨ ∃ x, Action.field k x ∈ as := by
  induction as with
  | nil => intro r k; simp
  | cons a rest ih =>
    intro r k
    rw [List.foldl_cons, ih, present_applyAction, or_assoc]
    constructor
    · rintro (h | ⟨x, h⟩ | ⟨x, h⟩)
      · exact Or.inl h
      · exact Or.inr ⟨x, by rw [h]; exact List.mem_cons_self _ _⟩
      · exact Or.inr ⟨x, List.mem_cons_of_mem _ h⟩
    · rintro (h | ⟨x, h⟩)
      · exact Or.inl h
      · rcases List.mem_cons.mp h with h | h
        · exact Or.inr (Or.inl ⟨x, h.symm⟩)
        · exact Or.inr (Or.inr ⟨x, h⟩)

theorem rules_foldl (as : List Action) : ∀ (r : DriftIgnore) (k x : GoString),
    x ∈ (mapGet (as.foldl applyAction r).driftExclusionList k).getD [] ↔
      x ∈ (mapGet r.driftExclusionList k).getD [] ∨ Action.field k x ∈ as := by
  induction as with
  | nil => intro r k x; simp
  | cons a rest ih =>
    intro r k x
    rw [List.foldl_cons, ih, rules_applyAction, List.mem_cons, or_assoc]
    constructor
    · rintro (h | h | h)
      · exact Or.inl h
      · exact Or.inr (Or.inl h.symm)
      · exact Or.inr (Or.inr h)
    · rintro (h | h | h)
      · exact Or.inl h
      · exact Or.inr (Or.inl h.symm)
      · exact Or.inr (Or.inr h)

theorem isResourceIgnored_eq_true_iff (r : DriftIgnore) (res : Resource) :
    IsResourceIgnored r res = true ↔
      resKey res.TerraformType res.TerraformId ∈ r.resExclusionList ∨
      ∃ p ∈ r.resExclusionWildcardList,
        wildcardMatchChecker (resKey res.TerraformType res.TerraformId) p = true := by
  unfold IsResourceIgnored
  by_cases h : resKey res.TerraformType res.TerraformId ∈ r.resExclusionList
  · simp [h]
  · simp [h, List.any_eq_true]

theorem isExcluded_eq_any (equalFold : GoString → GoString → Bool) (rules : List GoString)
    (path : List GoString) :
    isExcluded equalFold rules path = rules.any (ruleExcludes equalFold path) := rfl

theorem isFieldIgnored_eq_true_iff (equalFold : GoString → GoString → Bool) (r : DriftIgnore)
    (res : Resource) (path : List GoString) :
    IsFieldIgnored equalFold r res path = true ↔
      (∃ x ∈ (mapGet r.driftExclusionList
          (resKey res.TerraformType res.TerraformId)).getD [],
        ruleExcludes equalFold path x = true) ∨
      ((mapGet r.driftExclusionList
          (resKey res.TerraformType res.TerraformId)).isSome = false ∧
        ∃ x ∈ (mapGet r.driftExclusionList (res.TerraformType ++ [dot, star])).getD [],
          ruleExcludes equalFold path x = true) := by
  unfold IsFieldIgnored
  cases h1 : mapGet r.driftExclusionList (resKey res.TerraformType res.TerraformId) <;>
    cases h2 : mapGet r.driftExclusionList (res.TerraformType ++ [dot, star]) <;>
    simp [isExcluded_eq_any, List.any_eq_true]

/-- The order in which lines are delivered does not matter. Two lists of delivered lines that
are permutations of each other load filters that give the same `IsResourceIgnored` and
`IsFieldIgnored` answers; and `IsResourceIgnored` does not depend on the order in which the
wildcard-match set is visited. -/
theorem delivered_order_irrelevant :
    (∀ (lines lines2 : List GoString), lines.Perm lines2 →
      ∀ (equalFold : GoString → GoString → Bool) (res : Resource) (path : List GoString),
        IsResourceIgnored (NewDriftIgnore lines) res =
          IsResourceIgnored (NewDriftIgnore lines2) res ∧
        IsFieldIgnored equalFold (NewDriftIgnore lines) res path =
          IsFieldIgnored equalFold (NewDriftIgnore lines2) res path) ∧
    (∀ (r r2 : DriftIgnore) (res : Resource),
      r2.resExclusionList = r.resExclusionList →
      r2.resExclusionWildcardList.Perm r.resExclusionWildcardList →
      IsResourceIgnored r2 res = IsResourceIgnored r res) := by
  constructor
  · intro lines lines2 hperm equalFold res path
    have hp : (lines.map lineAction).Perm (lines2.map lineAction) := hperm.map _
    have hmem : ∀ a : Action, a ∈ lines.map lineAction ↔ a ∈ lines2.map lineAction :=
      fun a => hp.mem_iff
    have h1 : NewDriftIgnore lines = (lines.map lineAction).foldl applyAction emptyDriftIgnore :=
      loadLines_eq_foldl lines emptyDriftIgnore
    have h2 : NewDriftIgnore lines2 =
        (lines2.map lineAction).foldl applyAction emptyDriftIgnore :=
      loadLines_eq_foldl lines2 emptyDriftIgnore
    rw [h1, h2]
    constructor
    · rw [Bool.eq_iff_iff, isResourceIgnored_eq_true_iff, isResourceIgnored_eq_true_iff]
      simp only [exact_foldl, wildcard_foldl, hmem]
    · rw [Bool.eq_iff_iff, isFieldIgnored_eq_true_iff, isFieldIgnored_eq_true_iff]
      have hpres : ∀ k, (mapGet ((lines.map lineAction).foldl applyAction
            emptyDriftIgnore).driftExclusionList k).isSome =
          (mapGet ((lines2.map lineAction).foldl applyAction
            emptyDriftIgnore).driftExclusionList k).isSome := by
        intro k
        rw [Bool.eq_iff_iff, present_foldl, present_foldl]
        simp only [hmem]
      rw [hpres]
      simp only [rules_foldl, hmem]
  · intro r r2 res hex hw
    rw [Bool.eq_iff_iff, isResourceIgnored_eq_true_iff, isResourceIgnored_eq_true_iff, hex]
    constructor
    · rintro (h | ⟨p, hp, hm⟩)
      · exact Or.inl h
      · exact Or.inr ⟨p, hw.mem_iff.mp hp, hm⟩
    · rintro (h | ⟨p, hp, hm⟩)
      · exact Or.inl h
      · exact Or.inr ⟨p, hw.mem_iff.mpr hp, hm⟩

/-! ## Field rules with a pattern in the id segment -/

theorem readDriftIgnoreLine_plain_segment (f : GoString) (hf : f ≠ []) (hfa : isASCII f)
    (hfd : dot ∉ f) (hfb : backslash ∉ f) (hfs : star ∉ f) :
    readDriftIgnoreLine f = [f] := by
  have hline : f = join ([f].map escapeKey) [dot] := by
    rw [List.map_cons, List.map_nil, join_singleton, escapeKey_plain f hfb hfd]
  have := readDriftIgnoreLine_join_escapeKey [f] (by simp)
    (fun u hu => by rw [List.mem_singleton.mp hu]; exact ⟨hf, hfa, hfb⟩)
  rw [← hline, List.map_cons, List.map_nil, squeezeStars_no_star f hfs] at this
  exact this

theorem readDriftIgnoreLine_id_pattern_rule (T P f : GoString) (hT : T ≠ []) (hP : P ≠ [])
    (hf : f ≠ []) (hTa : isASCII T) (hPa : isASCII P) (hfa : isASCII f)
    (hTd : dot ∉ T) (hPd : dot ∉ P) (hfd : dot ∉ f)
    (hTb : backslash ∉ T) (hPb : backslash ∉ P) (hfb : backslash ∉ f)
    (hTs : star ∉ T) (hfs : star ∉ f) :
    readDriftIgnoreLine (T ++ ascii "." ++ P ++ ascii "." ++ f) = [T, collapseStars P, f] := by
  have hline : T ++ ascii "." ++ P ++ ascii "." ++ f =
      join ([T, P, f].map escapeKey) [dot] := by
    rw [map_escapeKey_plain]
    · simp only [join_cons_cons, join_singleton, List.append_assoc]
      rfl
    · intro u hu
      simp only [List.mem_cons, List.mem_singleton, List.not_mem_nil, or_false] at hu
      rcases hu with rfl | rfl | rfl
      · exact ⟨hTb, hTd⟩
      · exact ⟨hPb, hPd⟩
      · exact ⟨hfb, hfd⟩
  rw [hline, readDriftIgnoreLine_join_escapeKey _ (by simp)]
  · simp only [List.map_cons, List.map_nil, squeezeStars_no_star T hTs,
      squeezeStars_no_star f hfs, collapseStars_eq]
  · intro u hu
    simp only [List.mem_cons, List.mem_singleton, List.not_mem_nil, or_false] at hu
    rcases hu with rfl | rfl | rfl
    · exact ⟨hT, hTa, hTb⟩
    · exact ⟨hP, hPa, hPb⟩
    · exact ⟨hf, hfa, hfb⟩

theorem collapseStars_all_stars (P : GoString) (hP : P ≠ []) (hall : ∀ c ∈ P, c = star) :
    collapseStars P = [star] := by
  have hrep : P = List.replicate P.length star := List.eq_replicate_iff.mpr ⟨rfl, hall⟩
  obtain ⟨j, hj⟩ : ∃ j, P.length = j + 1 :=
    ⟨P.length - 1, by have := List.length_pos.mpr hP; omega⟩
  rw [collapseStars_eq, hrep, hj, List.replicate_succ, squeezeStars_cons]
  have := squeeze_true_stars j []
  simp only [List.append_nil] at this
  simp [this, squeezeStars]

theorem wmc_nil_all_stars (k : Nat) :
    wildcardMatchChecker [] (List.replicate k star) = true := by
  induction k with
  | zero => exact wmc_nil_nil
  | succ k ih => rw [List.replicate_succ, wmc_nil_star]; exact ih

theorem wmc_all_stars (P : GoString) (hP : P ≠ []) (hall : ∀ c ∈ P, c = star)
    (x : GoString) : wildcardMatchChecker x P = true := by
  have hrep : P = List.replicate P.length star := List.eq_replicate_iff.mpr ⟨rfl, hall⟩
  obtain ⟨j, hj⟩ : ∃ j, P.length = j + 1 :=
    ⟨P.length - 1, by have := List.length_pos.mpr hP; omega⟩
  rw [hrep, hj, List.replicate_succ, wmc_star_iff]
  exact ⟨x, [], by simp, wmc_nil_all_stars j⟩

/-- C11 (as amended): for non-empty ASCII `T` and `f` without dot, backslash and asterisk, `T`
not beginning with `#`, and an id pattern `P` that contains an asterisk and no dot or
backslash, the filter loaded from the single line `T.P.f` ignores the change at `[f]` on the
resource `(T, id)` exactly when `id` is `P` with its runs of asterisks collapsed, or `P`
collapses to `*`. So when `P` consists only of asterisks the field is ignored for every id,
each of which matches `P`. -/
theorem field_rule_id_pattern (equalFold : GoString → GoString → Bool) (T P f : GoString)
    (hT : T ≠ []) (hf : f ≠ []) (hTa : isASCII T) (hPa : isASCII P) (hfa : isASCII f)
    (hTd : dot ∉ T) (hPd : dot ∉ P) (hfd : dot ∉ f)
    (hTb : backslash ∉ T) (hPb : backslash ∉ P) (hfb : backslash ∉ f)
    (hTs : star ∉ T) (hPs : star ∈ P) (hfs : star ∉ f)
    (hhash : T.head? ≠ some hash) (hrefl : equalFold f f = true) :
    (∀ id : GoString,
      IsFieldIgnored equalFold (NewDriftIgnore [T ++ ascii "." ++ P ++ ascii "." ++ f])
          ⟨T, id⟩ [f] = true ↔
        (id = collapseStars P ∨ collapseStars P = ascii "*")) ∧
    ((∀ c ∈ P, c = star) → ∀ id : GoString,
      wildcardMatchChecker id P = true ∧
      IsFieldIgnored equalFold (NewDriftIgnore [T ++ ascii "." ++ P ++ ascii "." ++ f])
        ⟨T, id⟩ [f] = true) := by
  have hP : P ≠ [] := fun h => by rw [h] at hPs; simp at hPs
  have htok := readDriftIgnoreLine_id_pattern_rule T P f hT hP hf hTa hPa hfa hTd hPd hfd
    hTb hPb hfb hTs hfs
  have hc : hasPrefix (T ++ ascii "." ++ P ++ ascii "." ++ f) [hash] = false := by
    rw [List.append_assoc, List.append_assoc, List.append_assoc, hasPrefix_append T _ hT]
    have := head_escapeKey_ne_hash T hhash
    rwa [escapeKey_plain T hTb hTd] at this
  have hstate := newDriftIgnore_field _ T (collapseStars P) f [] hc htok
  rw [join_singleton] at hstate
  have hex : isExcluded equalFold [f] [f] = true := by
    rw [isExcluded_single, readDriftIgnoreLine_plain_segment f hf hfa hfd hfb hfs]
    simp [ruleMatches, hrefl]
  have key : ∀ id : GoString,
      IsFieldIgnored equalFold (NewDriftIgnore [T ++ ascii "." ++ P ++ ascii "." ++ f])
          ⟨T, id⟩ [f] = true ↔
        (id = collapseStars P ∨ collapseStars P = ascii "*") := by
    intro id
    have hstar : ascii "*" = [star] := rfl
    rw [hstate, hstar]
    generalize collapseStars P = c
    unfold IsFieldIgnored
    by_cases h1 : c = id
    · subst h1
      have hg : mapGet [(T ++ dot :: c, [f])] (resKey T c) = some [f] := by
        simp [mapGet, resKey]
      simp only [hg]
      simp [hex]
    · have hg : mapGet [(T ++ dot :: c, [f])] (resKey T id) = none := by
        simp only [mapGet]
        rw [if_neg]
        intro h
        apply h1
        have := List.append_cancel_left h
        simpa using this
      have h1b : ¬ id = c := fun h => h1 h.symm
      by_cases h2 : c = [star]
      · subst h2
        have hg2 : mapGet [(T ++ dot :: [star], [f])] (T ++ [dot, star]) = some [f] := by
          simp [mapGet]
        simp only [hg, hg2]
        simp [hex]
      · have hg2 : mapGet [(T ++ dot :: c, [f])] (T ++ [dot, star]) = none := by
          simp only [mapGet]
          rw [if_neg]
          intro h
          apply h2
          have := List.append_cancel_left h
          simpa using this
        simp only [hg, hg2]
        simp [h1b, h2]
  refine ⟨key, ?_⟩
  intro hall id
  exact ⟨wmc_all_stars P hP hall id,
    (key id).mpr (Or.inr (collapseStars_all_stars P hP hall))⟩

/-- Witness for `field_rule_id_pattern`: the rule `aws_iam_user.*.tags` and the user
`alice`. -/
theorem field_rule_id_pattern_witness :
    wildcardMatchChecker (ascii "alice") (ascii "*") = true ∧
    IsFieldIgnored asciiEqualFold
      (NewDriftIgnore [ascii "aws_iam_user" ++ ascii "." ++ ascii "*" ++ ascii "." ++ ascii "tags"])
      ⟨ascii "aws_iam_user", ascii "alice"⟩ [ascii "tags"] = true :=
  (field_rule_id_pattern asciiEqualFold (ascii "aws_iam_user") (ascii "*") (ascii "tags")
    (by decide) (by decide) (by decide) (by decide) (by decide) (by decide) (by decide)
    (by decide) (by decide) (by decide) (by decide) (by decide) (by decide) (by decide)
    (by decide) (by decide)).2 (by decide) (ascii "alice")

/-- C11 as stated fails for the pattern `a*`: the id `ab` matches it, but the rule `t.a*.f` is
stored under the key `t.a*`, which is neither `t.ab` nor `t.*`, so the field is not ignored. -/
theorem field_rule_id_pattern_counterexample :
    wildcardMatchChecker (ascii "ab") (ascii "a*") = true ∧
    asciiEqualFold (ascii "f") (ascii "f") = true ∧
    IsFieldIgnored asciiEqualFold
      (NewDriftIgnore [ascii "t" ++ ascii "." ++ ascii "a*" ++ ascii "." ++ ascii "f"])
      ⟨ascii "t", ascii "ab"⟩ [ascii "f"] = false := by
  refine ⟨?_, by decide, by decide⟩
  simp [ascii, wmc_cons_lit, wmc_cons_star, wmc_nil_star, wmc_nil_nil]

/-! ## What `unescapeDriftIgnoreLine` removes -/

theorem dropLastOfRuns_cons (c : Nat) (rest : GoString) :
    dropLastOfRuns (c :: rest) =
      if c = backslash ∧ rest.head? ≠ some backslash then dropLastOfRuns rest
      else c :: dropLastOfRuns rest := rfl

theorem dropLastOfRuns_append (x : GoString) : ∀ z : GoString,
    x.getLast? ≠ some backslash →
    dropLastOfRuns (x ++ z) = dropLastOfRuns x ++ dropLastOfRuns z := by
  induction x with
  | nil => intro z _; rfl
  | cons c x ih =>
    intro z h
    cases x with
    | nil =>
      have hc : c ≠ backslash := by simpa using h
      simp [dropLastOfRuns_cons, hc, dropLastOfRuns]
    | cons d x =>
      have h2 : (d :: x).getLast? ≠ some backslash := by
        rw [List.getLast?_cons_cons] at h; exact h
      have := ih z h2
      rw [List.cons_append, dropLastOfRuns_cons, this, dropLastOfRuns_cons c (d :: x)]
      simp only [List.cons_append, List.head?_cons]
      split <;> rfl

theorem dropLastOfRuns_run (k : Nat) (z : GoString) (hz : z.head? ≠ some backslash) :
    dropLastOfRuns (List.replicate (k + 1) backslash ++ z) =
      List.replicate k backslash ++ dropLastOfRuns z := by
  induction k with
  | zero =>
    simp only [List.replicate_succ, List.replicate_zero, List.cons_append, List.nil_append,
      dropLastOfRuns_cons, hz, ne_eq, not_false_eq_true, and_self, if_true]
  | succ k ih =>
    rw [List.replicate_succ, List.cons_append, dropLastOfRuns_cons, ih]
    simp [List.replicate_succ]

theorem length_dropLastOfRuns (s : GoString) :
    (dropLastOfRuns s).length + countRuns s = s.length := by
  induction s with
  | nil => rfl
  | cons c rest ih =>
    simp only [dropLastOfRuns_cons, countRuns]
    split
    · simp only [List.length_cons]; omega
    · simp only [List.length_cons]; omega

/-- C19: on an ASCII string `unescapeDriftIgnoreLine` removes exactly the last backslash of
each maximal run of backslashes and keeps every other byte in place. A run of `k >= 1`
backslashes becomes `k - 1` backslashes, and the result is shorter than the string by the
number of runs. -/
theorem unescapeDriftIgnoreLine_drops_run_ends :
    (∀ s : GoString, isASCII s → unescapeDriftIgnoreLine s = dropLastOfRuns s) ∧
    (∀ (x y : GoString) (k : Nat), isASCII x → isASCII y → 1 ≤ k →
      x.getLast? ≠ some backslash → y.head? ≠ some backslash →
      unescapeDriftIgnoreLine (x ++ List.replicate k backslash ++ y) =
        unescapeDriftIgnoreLine x ++ List.replicate (k - 1) backslash ++
          unescapeDriftIgnoreLine y) ∧
    (∀ s : GoString, isASCII s →
      (unescapeDriftIgnoreLine s).length + countRuns s = s.length) ∧
    unescapeDriftIgnoreLine (ascii "\\") = ascii "" ∧
    unescapeDriftIgnoreLine (ascii "ab\\") = ascii "ab" ∧
    unescapeDriftIgnoreLine (ascii "a\\\\\\\\b") = ascii "a\\\\\\b" := by
  refine ⟨unescape_ascii, ?_, ?_, by decide, by decide, by decide⟩
  · intro x y k hx hy hk hxl hyh
    obtain ⟨j, rfl⟩ : ∃ j, k = j + 1 := ⟨k - 1, by omega⟩
    have hrep : isASCII (List.replicate (j + 1) backslash) := by
      intro b hb; rw [(List.mem_replicate.mp hb).2]; decide
    have hall : isASCII (x ++ List.replicate (j + 1) backslash ++ y) :=
      isASCII_append.mpr ⟨isASCII_append.mpr ⟨hx, hrep⟩, hy⟩
    rw [unescape_ascii _ hall, unescape_ascii _ hx, unescape_ascii _ hy, List.append_assoc,
      dropLastOfRuns_append x _ hxl, dropLastOfRuns_run j y hyh]
    simp
  · intro s hs
    rw [unescape_ascii s hs]
    exact length_dropLastOfRuns s

/-- Witness for `unescapeDriftIgnoreLine_drops_run_ends`: a run of three backslashes between
`a` and `.b` becomes a run of two. -/
theorem unescapeDriftIgnoreLine_drops_run_ends_witness :
    unescapeDriftIgnoreLine (ascii "a" ++ List.replicate 3 backslash ++ ascii ".b") =
      unescapeDriftIgnoreLine (ascii "a") ++ List.replicate (3 - 1) backslash ++
        unescapeDriftIgnoreLine (ascii ".b") :=
  unescapeDriftIgnoreLine_drops_run_ends.2.1 (ascii "a") (ascii ".b") 3 (by decide) (by decide)
    (by decide) (by decide) (by decide)

/-- On the string backslash, dot, which has no run of two backslashes, `escapeKey`
writes it as three backslashes and a dot, and `unescapeDriftIgnoreLine` removes only the last
of the three, returning two backslashes and a dot. -/
theorem unescape_escapeKey_backslash_dot :
    strContains (ascii "\\.") [backslash, backslash] = false ∧
    escapeKey (ascii "\\.") = ascii "\\\\\\." ∧
    unescapeDriftIgnoreLine (escapeKey (ascii "\\.")) = ascii "\\\\." ∧
    unescapeDriftIgnoreLine (escapeKey (ascii "\\.")) ≠ ascii "\\." := by
  decide

/-! ## The listing -/

theorem addResources_eq (res : List Resource) : ∀ list : List GoString,
    addResources list res = list ++ res.map resourceLine := by
  induction res with
  | nil => intro list; simp [addResources]
  | cons r rest ih =>
    intro list
    have : addResources list (r :: rest) = addResources (list ++ [resourceLine r]) rest := rfl
    rw [this, ih]
    simp

theorem addDifferences_eq (diff : List Difference) : ∀ list : List GoString,
    addDifferences list diff = list ++ (diff.map fun d => d.Res).map resourceLine := by
  induction diff with
  | nil => intro list; simp [addDifferences]
  | cons d rest ih =>
    intro list
    have : addDifferences list (d :: rest) = addDifferences (addResources list [d.Res]) rest :=
      rfl
    rw [this, ih, addResources_eq]
    simp

theorem length_pos_iff_ne_nil {α : Type} (l : List α) : ((l.length : Int) > 0) ↔ l ≠ [] := by
  cases l with
  | nil => simp
  | cons a l =>
    simp only [List.length_cons, Nat.cast_add, Nat.cast_one, ne_eq, reduceCtorEq,
      not_false_eq_true, iff_true]
    omega

/-- C15: when the summary totals are the sizes of the collections, the text returned by
`AnalysisToList` is the newline-join of the unmanaged, deleted and changed sections in that
order; a section has no line when its flag is off or its collection is empty, and otherwise
its header followed by one line `escapeKey(type).escapeKey(id)` per resource, in order. -/
theorem AnalysisToList_text (analysis : Analysis) (opts : AnalysisListOptions)
    (hU : analysis.Summary.TotalUnmanaged = analysis.Unmanaged.length)
    (hD : analysis.Summary.TotalDeleted = analysis.Deleted.length)
    (hC : analysis.Summary.TotalDrifted = analysis.Differences.length) :
    (AnalysisToList analysis opts).2 =
      join
        (listingSection opts.IncludeUnmanaged (ascii "# Resources not covered by IaC")
            analysis.Unmanaged ++
          listingSection opts.IncludeDeleted (ascii "# Missing resources") analysis.Deleted ++
          listingSection opts.IncludeDrifted (ascii "# Changed resources")
            (analysis.Differences.map fun d => d.Res))
        (ascii "\n") := by
  have hnl : ascii "\n" = [newline] := rfl
  have hmap : (analysis.Differences.map fun d => d.Res) = [] ↔ analysis.Differences = [] :=
    List.map_eq_nil_iff
  unfold AnalysisToList listingSection
  simp only [hU, hD, hC, hnl, addResources_eq, addDifferences_eq, List.nil_append,
    Bool.and_eq_true, decide_eq_true_eq, length_pos_iff_ne_nil, hmap]
  congr 1
  by_cases h1 : opts.IncludeUnmanaged = true ∧ analysis.Unmanaged ≠ [] <;>
    by_cases h2 : opts.IncludeDeleted = true ∧ analysis.Deleted ≠ [] <;>
    by_cases h3 : opts.IncludeDrifted = true ∧ analysis.Differences ≠ [] <;>
    simp only [h1, h2, h3, if_true, if_false] <;>
    simp only [not_and_or, Bool.not_eq_true, ne_eq, not_not] at h1 h2 h3 <;>
    simp [h1, h2, h3]

/-- Witness for `AnalysisToList_text`: one unmanaged resource, two drifted ones, and the
deleted section switched off. -/
theorem AnalysisToList_text_witness :
    (AnalysisToList
      ⟨[⟨ascii "aws_s3_bucket", ascii "b.1"⟩], [⟨ascii "t", ascii "gone"⟩],
        [⟨⟨ascii "t", ascii "x"⟩⟩, ⟨⟨ascii "t", ascii "y"⟩⟩], ⟨1, 1, 2⟩⟩
      ⟨true, false, true⟩).2 =
    ascii "# Resources not covered by IaC\naws_s3_bucket.b\\.1\n# Changed resources\nt.x\nt.y" :=
  (AnalysisToList_text
    ⟨[⟨ascii "aws_s3_bucket", ascii "b.1"⟩], [⟨ascii "t", ascii "gone"⟩],
      [⟨⟨ascii "t", ascii "x"⟩⟩, ⟨⟨ascii "t", ascii "y"⟩⟩], ⟨1, 1, 2⟩⟩
    ⟨true, false, true⟩ (by decide) (by decide) (by decide)).trans (by decide)

/-- The count returned by `AnalysisToList`: the unmanaged total, once for every section that
is switched on and has a positive total. -/
theorem AnalysisToList_count (analysis : Analysis) (opts : AnalysisListOptions) :
    (AnalysisToList analysis opts).1 =
      (if opts.IncludeUnmanaged = true ∧ analysis.Summary.TotalUnmanaged > 0 then
          analysis.Summary.TotalUnmanaged else 0) +
        (if opts.IncludeDeleted = true ∧ analysis.Summary.TotalDeleted > 0 then
          analysis.Summary.TotalUnmanaged else 0) +
        (if opts.IncludeDrifted = true ∧ analysis.Summary.TotalDrifted > 0 then
          analysis.Summary.TotalUnmanaged else 0) := by
  unfold AnalysisToList
  simp only [Bool.and_eq_true, decide_eq_true_eq]
  by_cases h1 : opts.IncludeUnmanaged = true ∧ analysis.Summary.TotalUnmanaged > 0 <;>
    by_cases h2 : opts.IncludeDeleted = true ∧ analysis.Summary.TotalDeleted > 0 <;>
    by_cases h3 : opts.IncludeDrifted = true ∧ analysis.Summary.TotalDrifted > 0 <;>
    simp [h1, h2, h3]

/-- C14 fails when only a deleted resource is listed: the totals are the sizes of the
collections, the listing has one resource line, and the count returned is 0, because the
deleted section adds the unmanaged total. With two unmanaged and one deleted resource the
count is 4 for three resource lines. -/
theorem AnalysisToList_count_adds_unmanaged_total :
    AnalysisToList ⟨[], [⟨ascii "t", ascii "i"⟩], [], ⟨0, 1, 0⟩⟩ ⟨true, true, true⟩ =
      (0, ascii "# Missing resources\nt.i") ∧
    AnalysisToList
        ⟨[⟨ascii "t", ascii "a"⟩, ⟨ascii "t", ascii "b"⟩], [⟨ascii "t", ascii "i"⟩], [],
          ⟨2, 1, 0⟩⟩
        ⟨true, true, true⟩ =
      (4, ascii "# Resources not covered by IaC\nt.a\nt.b\n# Missing resources\nt.i") := by
  decide

/-! ## The SQS suppliers -/

/-- C17: `SqsQueueSupplier.Resources` and `SqsQueuePolicySupplier.Resources` return no partial
result. A collection is returned only when `ListAllQueues`, `Wait` and `Deserialize` all
succeed; when `ListAllQueues` fails the result is a nil collection with the enumeration error
built from the cause, and no call is made on the runner; when `Wait` fails the result is a nil
collection with that failure, and the deserializer is not called. -/
theorem supplier_resources_no_partial_result {E Q V R : Type} (s : SupplierDeps E Q V R) :
    ((∀ res, (SqsQueueSupplier.Resources s).resources = some res →
        (SqsQueueSupplier.Resources s).err = none ∧
        ∃ queues values, s.ListAllQueues = Except.ok queues ∧
          s.Wait (queues.map fun q => fun _ => SqsQueueSupplier.readSqsQueue s q) =
            Except.ok values ∧
          s.Deserialize values = Except.ok res) ∧
      (∀ cause, s.ListAllQueues = Except.error cause →
        (SqsQueueSupplier.Resources s).resources = none ∧
        (SqsQueueSupplier.Resources s).err =
          some (s.NewResourceEnumerationError cause s.AwsSqsQueueResourceType) ∧
        (SqsQueueSupplier.Resources s).calls = []) ∧
      (∀ queues failure, s.ListAllQueues = Except.ok queues →
        s.Wait (queues.map fun q => fun _ => SqsQueueSupplier.readSqsQueue s q) =
          Except.error failure →
        (SqsQueueSupplier.Resources s).resources = none ∧
        (SqsQueueSupplier.Resources s).err = some failure ∧
        (SqsQueueSupplier.Resources s).calls.any SupplierCall.isDeserialize = false)) ∧
    ((∀ res, (SqsQueuePolicySupplier.Resources s).resources = some res →
        (SqsQueuePolicySupplier.Resources s).err = none ∧
        ∃ queues values, s.ListAllQueues = Except.ok queues ∧
          s.Wait (queues.map fun q => fun _ => SqsQueuePolicySupplier.readSqsQueuePolicy s q) =
            Except.ok values ∧
          s.Deserialize values = Except.ok res) ∧
      (∀ cause, s.ListAllQueues = Except.error cause →
        (SqsQueuePolicySupplier.Resources s).resources = none ∧
        (SqsQueuePolicySupplier.Resources s).err =
          some (s.NewResourceEnumerationErrorWithType cause s.AwsSqsQueuePolicyResourceType
            s.AwsSqsQueueResourceType) ∧
        (SqsQueuePolicySupplier.Resources s).calls = []) ∧
      (∀ queues failure, s.ListAllQueues = Except.ok queues →
        s.Wait (queues.map fun q => fun _ => SqsQueuePolicySupplier.readSqsQueuePolicy s q) =
          Except.error failure →
        (SqsQueuePolicySupplier.Resources s).resources = none ∧
        (SqsQueuePolicySupplier.Resources s).err = some failure ∧
        (SqsQueuePolicySupplier.Resources s).calls.any SupplierCall.isDeserialize = false)) := by
  refine ⟨⟨?_, ?_, ?_⟩, ⟨?_, ?_, ?_⟩⟩
  · intro res h
    unfold SqsQueueSupplier.Resources at h ⊢
    cases hl : s.ListAllQueues with
    | error e => rw [hl] at h; simp at h
    | ok queues =>
      rw [hl] at h
      simp only [hl] at h ⊢
      cases hw : s.Wait (queues.map fun q => fun _ => SqsQueueSupplier.readSqsQueue s q) with
      | error e => simp [hw] at h
      | ok values =>
        simp only [hw] at h ⊢
        cases hd : s.Deserialize values with
        | error e => simp [hd] at h
        | ok r =>
          simp only [hd, Option.some.injEq] at h ⊢
          exact ⟨trivial, queues, values, rfl, hw, by rw [← h]; exact hd⟩
  · intro cause h
    unfold SqsQueueSupplier.Resources
    simp [h]
  · intro queues failure h hw
    unfold SqsQueueSupplier.Resources
    simp [h, hw, SupplierCall.isDeserialize, List.any_eq_false]
  · intro res h
    unfold SqsQueuePolicySupplier.Resources at h ⊢
    cases hl : s.ListAllQueues with
    | error e => rw [hl] at h; simp at h
    | ok queues =>
      rw [hl] at h
      simp only [hl] at h ⊢
      cases hw : s.Wait
        (queues.map fun q => fun _ => SqsQueuePolicySupplier.readSqsQueuePolicy s q) with
      | error e => simp [hw] at h
      | ok values =>
        simp only [hw] at h ⊢
        cases hd : s.Deserialize values with
        | error e => simp [hd] at h
        | ok r =>
          simp only [hd, Option.some.injEq] at h ⊢
          exact ⟨trivial, queues, values, rfl, hw, by rw [← h]; exact hd⟩
  · intro cause h
    unfold SqsQueuePolicySupplier.Resources
    simp [h]
  · intro queues failure h hw
    unfold SqsQueuePolicySupplier.Resources
    simp [h, hw, SupplierCall.isDeserialize, List.any_eq_false]

/-- Witness for `supplier_resources_no_partial_result`: a lister that fails with the error
`denied`. -/
theorem supplier_resources_no_partial_result_witness :
    (SqsQueueSupplier.Resources
      (⟨Except.error (ascii "denied"), fun _ _ => Except.ok 0, fun _ => Except.ok [],
        fun _ => Except.ok [], ascii "aws_sqs_queue", ascii "aws_sqs_queue_policy",
        fun e t => t ++ ascii ": " ++ e, fun e t _ => t ++ ascii ": " ++ e⟩ :
        SupplierDeps GoString GoString Nat Resource)).resources = none ∧
    (SqsQueueSupplier.Resources
      (⟨Except.error (ascii "denied"), fun _ _ => Except.ok 0, fun _ => Except.ok [],
        fun _ => Except.ok [], ascii "aws_sqs_queue", ascii "aws_sqs_queue_policy",
        fun e t => t ++ ascii ": " ++ e, fun e t _ => t ++ ascii ": " ++ e⟩ :
        SupplierDeps GoString GoString Nat Resource)).err =
      some (ascii "aws_sqs_queue" ++ ascii ": " ++ ascii "denied") ∧
    (SqsQueueSupplier.Resources
      (⟨Except.error (ascii "denied"), fun _ _ => Except.ok 0, fun _ => Except.ok [],
        fun _ => Except.ok [], ascii "aws_sqs_queue", ascii "aws_sqs_queue_policy",
        fun e t => t ++ ascii ": " ++ e, fun e t _ => t ++ ascii ": " ++ e⟩ :
        SupplierDeps GoString GoString Nat Resource)).calls = [] :=
  (supplier_resources_no_partial_result
    (⟨Except.error (ascii "denied"), fun _ _ => Except.ok 0, fun _ => Except.ok [],
      fun _ => Except.ok [], ascii "aws_sqs_queue", ascii "aws_sqs_queue_policy",
      fun e t => t ++ ascii ": " ++ e, fun e t _ => t ++ ascii ": " ++ e⟩ :
      SupplierDeps GoString GoString Nat Resource)).1.2.1 (ascii "denied") rfl

/-! ## Where unescaping does undo escaping -/

theorem strContains_pair_cons (a b c : Nat) (r : GoString) :
    strContains (c :: r) [a, b] =
      (decide (c = a ∧ r.head? = some b) || strContains r [a, b]) := by
  cases r with
  | nil => simp [strContains, List.isPrefixOf]
  | cons d r =>
    simp only [strContains, List.isPrefixOf, Bool.and_true, List.head?_cons, Option.some.injEq]
    congr 1
    rw [Bool.eq_iff_iff]
    simp only [Bool.and_eq_true, beq_iff_eq, decide_eq_true_eq]
    constructor <;> rintro ⟨h1, h2⟩ <;> exact ⟨h1.symm, h2.symm⟩

theorem head_escapeKey (r : GoString) (h1 : r.head? ≠ some backslash)
    (h2 : r.head? ≠ some dot) : (escapeKey r).head? ≠ some backslash := by
  cases r with
  | nil => simp [escapeKey_nil]
  | cons d r =>
    have hd1 : d ≠ backslash := by simpa using h1
    have hd2 : d ≠ dot := by simpa using h2
    rw [escapeKey_cons]
    simp [escapeByte, hd1, hd2]

/-- On an ASCII string in which no backslash is followed by a backslash or a dot,
`unescapeDriftIgnoreLine` undoes `escapeKey`. -/
theorem unescape_escapeKey_of_safe (s : GoString) (hs : isASCII s)
    (h1 : strContains s [backslash, backslash] = false)
    (h2 : strContains s [backslash, dot] = false) :
    unescapeDriftIgnoreLine (escapeKey s) = s := by
  rw [unescape_ascii _ (isASCII_escapeKey s hs)]
  clear hs
  induction s with
  | nil => rfl
  | cons c r ih =>
    rw [strContains_pair_cons, Bool.or_eq_false_iff] at h1 h2
    have ih := ih h1.2 h2.2
    have g1 : ¬(c = backslash ∧ r.head? = some backslash) := by simpa using h1.1
    have g2 : ¬(c = backslash ∧ r.head? = some dot) := by simpa using h2.1
    rw [escapeKey_cons]
    by_cases hc : c = backslash
    · subst hc
      have hr1 : r.head? ≠ some backslash := fun h => g1 ⟨rfl, h⟩
      have hr2 : r.head? ≠ some dot := fun h => g2 ⟨rfl, h⟩
      have hE := head_escapeKey r hr1 hr2
      have hb : escapeByte backslash = [backslash, backslash] := by decide
      rw [hb]
      simp only [List.cons_append, List.nil_append]
      rw [dropLastOfRuns_cons, dropLastOfRuns_cons]
      simp [hE, ih]
    · by_cases hd : c = dot
      · subst hd
        have hb : escapeByte dot = [backslash, dot] := by decide
        rw [hb]
        simp only [List.cons_append, List.nil_append]
        rw [dropLastOfRuns_cons, dropLastOfRuns_cons]
        simp [ih]
      · have hb : escapeByte c = [c] := by simp [escapeByte, hc, hd]
        rw [hb, List.singleton_append, dropLastOfRuns_cons]
        simp [hc, ih]

/-- Instance of `unescape_escapeKey_of_safe`: a backslash before a letter, and a dot. -/
theorem unescape_escapeKey_of_safe_witness :
    unescapeDriftIgnoreLine (escapeKey (ascii "a\\b.c")) = ascii "a\\b.c" :=
  unescape_escapeKey_of_safe (ascii "a\\b.c") (by decide) (by decide) (by decide)

/-! ## Termination of the matcher -/

theorem wildcardMatchFuel_eq (fuel : Nat) : ∀ (str pattern : GoString),
    str.length + pattern.length < fuel →
    wildcardMatchFuel fuel str pattern = some (wildcardMatchChecker str pattern) := by
  induction fuel with
  | zero => intro str pattern h; omega
  | succ n ih =>
    intro str pattern h
    cases pattern with
    | nil =>
      cases str with
      | nil => simp [wildcardMatchFuel, wmc_nil_nil]
      | cons c s => simp [wildcardMatchFuel, wmc_cons_nil, hasPrefix]
    | cons d p =>
      by_cases hd : d = star
      · subst hd
        cases str with
        | nil =>
          have := ih [] p (by simp at h ⊢; omega)
          simp [wildcardMatchFuel, hasPrefix, wmc_nil_star, this]
        | cons c s =>
          have h1 := ih s (star :: p) (by simp at h ⊢; omega)
          have h2 := ih (c :: s) p (by simp at h ⊢; omega)
          simp only [wildcardMatchFuel, hasPrefix, wmc_cons_star, List.drop_succ_cons,
            List.drop_zero, h1, h2]
          cases wildcardMatchChecker s (star :: p) <;> simp
      · have hd2 : ¬ star = d := fun h => hd h.symm
        cases str with
        | nil => simp [wildcardMatchFuel, hasPrefix, wmc_nil_lit d p hd, hd2]
        | cons c s =>
          have h1 := ih s p (by simp at h ⊢; omega)
          by_cases hcd : c = d
          · subst hcd
            have hd3 : ¬ star = c := hd2
            simp [wildcardMatchFuel, hasPrefix, wmc_cons_lit c c s p hd, hd3, byteAt, h1]
          · simp [wildcardMatchFuel, hasPrefix, wmc_cons_lit c d s p hd, hd2, byteAt, hcd]

theorem length_le_sum_of_mem (l : List GoString) (p : GoString) (h : p ∈ l) :
    p.length ≤ (l.map List.length).sum := by
  induction l with
  | nil => simp at h
  | cons a rest ih =>
    rcases List.mem_cons.mp h with h | h
    · subst h; simp
    · have := ih h
      simp only [List.map_cons, List.sum_cons]
      omega

theorem wildcardLoopFuel_eq (fuel : Nat) (strRes : GoString) (l : List GoString)
    (h : ∀ p ∈ l, strRes.length + p.length < fuel) :
    wildcardLoopFuel fuel strRes l = some (l.any fun p => wildcardMatchChecker strRes p) := by
  induction l with
  | nil => rfl
  | cons p rest ih =>
    have h1 := wildcardMatchFuel_eq fuel strRes p (h p (List.mem_cons_self _ _))
    have h2 := ih (fun q hq => h q (List.mem_cons_of_mem _ hq))
    simp only [wildcardLoopFuel, h1, h2, List.any_cons]
    cases wildcardMatchChecker strRes p <;> simp

/-- C22: `wildcardMatchChecker` terminates. Every recursive call is on arguments whose combined
length is strictly smaller than the caller's; the function satisfies the recursion of the
source on all inputs; a recursion depth of `len(str) + len(pattern) + 1` is enough for a
result; and `IsResourceIgnored`, which calls it once per pattern of the wildcard-match set,
returns for every filter and resource. -/
theorem wildcardMatchChecker_terminates :
    (∀ str pattern : GoString, hasPrefix pattern [star] = true →
      (str ≠ [] → (str.drop 1).length + pattern.length < str.length + pattern.length) ∧
      str.length + (pattern.drop 1).length < str.length + pattern.length) ∧
    (∀ str pattern : GoString, str ≠ [] → pattern ≠ [] →
      (str.drop 1).length + (pattern.drop 1).length < str.length + pattern.length) ∧
    (∀ str pattern : GoString, wildcardMatchChecker str pattern =
      if str = [] ∧ pattern = [] then true
      else if hasPrefix pattern [star] then
        if str ≠ [] then
          wildcardMatchChecker (str.drop 1) pattern || wildcardMatchChecker str (pattern.drop 1)
        else wildcardMatchChecker str (pattern.drop 1)
      else if str ≠ [] ∧ pattern ≠ [] ∧ byteAt str 0 = byteAt pattern 0 then
        wildcardMatchChecker (str.drop 1) (pattern.drop 1)
      else false) ∧
    (∀ (str pattern : GoString) (fuel : Nat), str.length + pattern.length < fuel →
      wildcardMatchFuel fuel str pattern = some (wildcardMatchChecker str pattern)) ∧
    (∀ (r : DriftIgnore) (res : Resource),
      IsResourceIgnoredFuel
          ((resKey res.TerraformType res.TerraformId).length +
            (r.resExclusionWildcardList.map List.length).sum + 1) r res =
        some (IsResourceIgnored r res)) := by
  refine ⟨?_, ?_, ?_, ?_, ?_⟩
  · intro str pattern hp
    cases pattern with
    | nil => simp [hasPrefix] at hp
    | cons d p =>
      constructor
      · intro hs
        cases str with
        | nil => exact absurd rfl hs
        | cons c s => simp
      · simp
  · intro str pattern hs hp
    cases str with
    | nil => exact absurd rfl hs
    | cons c s =>
      cases pattern with
      | nil => exact absurd rfl hp
      | cons d p => simp; omega
  · intro str pattern
    rw [wildcardMatchChecker]
  · intro str pattern fuel h
    exact wildcardMatchFuel_eq fuel str pattern h
  · intro r res
    unfold IsResourceIgnoredFuel IsResourceIgnored
    simp only
    split
    · rfl
    · apply wildcardLoopFuel_eq
      intro p hp
      have := length_le_sum_of_mem _ p hp
      omega

/-- Witness for `wildcardMatchChecker_terminates`: the calls made on `ab` and `*b`, and the
depth bound on them. -/
theorem wildcardMatchChecker_terminates_witness :
    ((ascii "ab" ≠ [] →
        ((ascii "ab").drop 1).length + (ascii "*b").length <
          (ascii "ab").length + (ascii "*b").length) ∧
      (ascii "ab").length + ((ascii "*b").drop 1).length <
        (ascii "ab").length + (ascii "*b").length) ∧
    wildcardMatchFuel 5 (ascii "ab") (ascii "*b") =
      some (wildcardMatchChecker (ascii "ab") (ascii "*b")) :=
  ⟨wildcardMatchChecker_terminates.1 (ascii "ab") (ascii "*b") (by decide),
    wildcardMatchChecker_terminates.2.2.2.1 (ascii "ab") (ascii "*b") 5 (by decide)⟩

/-! ## Lines that end in a character of several bytes -/

theorem length_fold_readStep (line : GoString) (idxs : List Nat) :
    ∀ st : List GoString × Nat, (∀ j ∈ idxs, j ≠ line.length - 1) →
    (idxs.foldl (readStep line) st).1.length =
      st.1.length + idxs.countP (isSeparator line) := by
  induction idxs with
  | nil => intro st _; simp
  | cons i rest ih =>
    intro st h
    have hi : i ≠ line.length - 1 := h i (List.mem_cons_self _ _)
    rw [List.foldl_cons, ih _ (fun j hj => h j (List.mem_cons_of_mem _ hj)), List.countP_cons]
    unfold readStep
    by_cases hs : isSeparator line i = true
    · simp only [hs, if_true, List.length_append, List.length_singleton]
      omega
    · simp only [hs, hi, if_false, Bool.false_eq_true]
      omega

theorem rangeOffsets_skip_all (s : GoString) : ∀ (k i : Nat), s.length ≤ k →
    rangeOffsets k i s = [] := by
  induction s with
  | nil => intro k i _; simp [rangeOffsets]
  | cons b rest ih =>
    intro k i h
    cases k with
    | zero => simp at h
    | succ k =>
      simp only [rangeOffsets]
      exact ih k (i + 1) (by simp at h; omega)

theorem runeWidth_cons (b0 : Nat) (rest : GoString) :
    runeWidth (b0 :: rest) =
      if b0 < 128 then 1
      else if 194 ≤ b0 ∧ b0 ≤ 223 then
        match rest with
        | b1 :: _ => if isCont b1 then 2 else 1
        | _ => 1
      else if 224 ≤ b0 ∧ b0 ≤ 239 then
        match rest with
        | b1 :: b2 :: _ =>
          if isCont b1 && isCont b2 && !(b0 == 224 && decide (b1 < 160))
              && !(b0 == 237 && decide (160 ≤ b1)) then 3 else 1
        | _ => 1
      else if 240 ≤ b0 ∧ b0 ≤ 244 then
        match rest with
        | b1 :: b2 :: b3 :: _ =>
          if isCont b1 && isCont b2 && isCont b3 && !(b0 == 240 && decide (b1 < 144))
              && !(b0 == 244 && decide (144 ≤ b1)) then 4 else 1
        | _ => 1
      else 1 := rfl

theorem runeWidth_contPrefix (b : Nat) (rest : GoString) :
    contPrefix (runeWidth (b :: rest) - 1) rest = true := by
  rw [runeWidth_cons]
  by_cases h0 : b < 128
  · simp [h0, contPrefix]
  · by_cases h1 : 194 ≤ b ∧ b ≤ 223
    · rw [if_neg h0, if_pos h1]
      cases rest with
      | nil => simp [contPrefix]
      | cons b1 r => by_cases hc : isCont b1 = true <;> simp [hc, contPrefix]
    · by_cases h2 : 224 ≤ b ∧ b ≤ 239
      · rw [if_neg h0, if_neg h1, if_pos h2]
        match rest with
        | [] => simp [contPrefix]
        | [_] => simp [contPrefix]
        | b1 :: b2 :: r =>
          simp only
          split
          · rename_i h
            simp only [Bool.and_eq_true] at h
            simp [contPrefix, h.1.1.1, h.1.1.2]
          · simp [contPrefix]
      · by_cases h3 : 240 ≤ b ∧ b ≤ 244
        · rw [if_neg h0, if_neg h1, if_neg h2, if_pos h3]
          match rest with
          | [] => simp [contPrefix]
          | [_] => simp [contPrefix]
          | [_, _] => simp [contPrefix]
          | b1 :: b2 :: b3 :: r =>
            simp only
            split
            · rename_i h
              simp only [Bool.and_eq_true] at h
              simp [contPrefix, h.1.1.1.1, h.1.1.1.2, h.1.1.2]
            · simp [contPrefix]
        · rw [if_neg h0, if_neg h1, if_neg h2, if_neg h3]
          simp [contPrefix]

theorem lead_not_cont (e : Nat) (t : GoString) (h : 2 ≤ runeWidth (e :: t)) :
    isCont e = false := by
  rw [runeWidth_cons] at h
  unfold isCont
  by_cases h0 : e < 128
  · simp [h0] at h
  · by_cases h1 : 194 ≤ e ∧ e ≤ 223
    · simp; omega
    · by_cases h2 : 224 ≤ e ∧ e ≤ 239
      · simp; omega
      · by_cases h3 : 240 ≤ e ∧ e ≤ 244
        · simp; omega
        · rw [if_neg h0, if_neg h1, if_neg h2, if_neg h3] at h
          omega

theorem isSeparator_of_cont (pre : GoString) (b : Nat) (rest : GoString)
    (hb : isCont b = true) : isSeparator (pre ++ b :: rest) pre.length = false := by
  unfold isSeparator
  rw [byteAt_append_length]
  have hb2 : 128 ≤ b := by
    unfold isCont at hb
    simp only [Bool.and_eq_true, decide_eq_true_eq] at hb
    exact hb.1
  have : (b == dot) = false := by
    simp only [beq_eq_false_iff_ne, ne_eq]
    intro h
    rw [h] at hb2
    exact absurd hb2 (by decide)
  rw [this]
  rfl

theorem countP_rangeOffsets (s : GoString) : ∀ (pre : GoString) (k : Nat),
    contPrefix k s = true →
    (rangeOffsets k pre.length s).countP (isSeparator (pre ++ s)) =
      (List.range' pre.length s.length).countP (isSeparator (pre ++ s)) := by
  induction s with
  | nil => intro pre k _; simp [rangeOffsets]
  | cons b rest ih =>
    intro pre k hk
    have hline : pre ++ b :: rest = (pre ++ [b]) ++ rest := by simp
    have hlen : pre.length + 1 = (pre ++ [b]).length := by simp
    cases k with
    | zero =>
      simp only [rangeOffsets, List.length_cons, List.range'_succ, List.countP_cons]
      congr 1
      rw [hline, hlen]
      exact ih (pre ++ [b]) _ (runeWidth_contPrefix b rest)
    | succ k =>
      simp only [contPrefix, Bool.and_eq_true] at hk
      simp only [rangeOffsets, List.length_cons, List.range'_succ, List.countP_cons,
        isSeparator_of_cont pre b rest hk.1, Bool.false_eq_true, if_false, Nat.add_zero]
      rw [hline, hlen]
      exact ih (pre ++ [b]) k hk.2

theorem rangeOffsets_le (e : Nat) (t : GoString) (he : isCont e = false)
    (hw : runeWidth (e :: t) = (e :: t).length) (pre : GoString) : ∀ (k i : Nat),
    contPrefix k (pre ++ e :: t) = true →
    ∀ j ∈ rangeOffsets k i (pre ++ e :: t), j ≤ i + pre.length := by
  induction pre with
  | nil =>
    intro k i hk j hj
    cases k with
    | zero =>
      have hskip : rangeOffsets (runeWidth (e :: t) - 1) (i + 1) t = [] :=
        rangeOffsets_skip_all t _ _ (by rw [hw]; simp)
      simp only [List.nil_append, rangeOffsets, hskip, List.mem_singleton] at hj
      simp [hj]
    | succ k => simp [contPrefix, he] at hk
  | cons b pre ih =>
    intro k i hk j hj
    cases k with
    | zero =>
      simp only [List.cons_append, rangeOffsets, List.mem_cons] at hj
      rcases hj with hj | hj
      · omega
      · have := ih _ (i + 1) (runeWidth_contPrefix b (pre ++ e :: t)) j hj
        simp only [List.length_cons]
        omega
    | succ k =>
      simp only [List.cons_append, contPrefix, Bool.and_eq_true] at hk
      simp only [List.cons_append, rangeOffsets] at hj
      have := ih k (i + 1) hk.2 j hj
      simp only [List.length_cons]
      omega

theorem countP_range_eq_sepCountRec (post : GoString) : ∀ pre : GoString,
    (List.range' pre.length post.length).countP (isSeparator (pre ++ post)) =
      sepCountRec pre.reverse post := by
  induction post with
  | nil => intro pre; simp [sepCountRec]
  | cons c rest ih =>
    intro pre
    have hline : pre ++ c :: rest = (pre ++ [c]) ++ rest := by simp
    have hlen : pre.length + 1 = (pre ++ [c]).length := by simp
    simp only [List.length_cons, List.range'_succ, List.countP_cons, sepCountRec,
      isSeparator_append]
    rw [hline, hlen, ih (pre ++ [c])]
    simp [Nat.add_comm]

theorem sepAfter_cons (c : Nat) (rpre : GoString) (d : Nat) :
    sepAfter (c :: rpre) d = (d == dot && (c != backslash || rpre.head? == some backslash)) := by
  cases rpre with
  | nil => simp [sepAfter]
  | cons b r => simp [sepAfter]

theorem sepCountRec_squeeze (s : GoString) : ∀ (b : Bool) (rpre rpre2 : GoString),
    (∀ d, sepAfter rpre d = sepAfter rpre2 d) →
    (rpre.head? = some backslash ↔ rpre2.head? = some backslash) →
    (b = true → rpre.head? = some star ∧ rpre2.head? = some star) →
    sepCountRec rpre2 (squeezeStars b s) = sepCountRec rpre s := by
  induction s with
  | nil => intro b rpre rpre2 _ _ _; rfl
  | cons c rest ih =>
    intro b rpre rpre2 h1 h2 h3
    rw [squeezeStars_cons]
    have hpush : ∀ x : Nat, (∀ d, sepAfter (x :: rpre) d = sepAfter (x :: rpre2) d) := by
      intro x d
      rw [sepAfter_cons, sepAfter_cons]
      have : (rpre.head? == some backslash) = (rpre2.head? == some backslash) := by
        rw [Bool.eq_iff_iff]; simpa using h2
      rw [this]
    by_cases hc : c = star
    · subst hc
      have hns : ∀ r : GoString, sepAfter r star = false := fun r =>
        sepAfter_not_dot r star (by decide)
      cases b with
      | true =>
        obtain ⟨g1, g2⟩ := h3 rfl
        simp only [if_true, sepCountRec, hns, Bool.false_eq_true, if_false, Nat.zero_add]
        apply ih true (star :: rpre) rpre2
        · intro d
          obtain ⟨y, hy⟩ : ∃ y, rpre2 = star :: y := by
            cases rpre2 with
            | nil => simp at g2
            | cons a y => simp at g2; exact ⟨y, by rw [g2]⟩
          have hsb : (star != backslash) = true := by decide
          rw [hy, sepAfter_cons, sepAfter_cons, hsb]
          simp
        · simp [g2]
        · intro _; exact ⟨rfl, g2⟩
      | false =>
        simp only [Bool.false_eq_true, if_false, if_true, sepCountRec, hns, Nat.zero_add]
        apply ih true (star :: rpre) (star :: rpre2) (hpush star)
        · simp
        · intro _; exact ⟨rfl, rfl⟩
    · simp only [hc, if_false, sepCountRec, h1 c]
      congr 1
      apply ih false (c :: rpre) (c :: rpre2) (hpush c)
      · simp
      · intro h; exact absurd h (by simp)

theorem squeeze_append_no_star (y : GoString) (hy : star ∉ y) (x : GoString) : ∀ b : Bool,
    squeezeStars b (x ++ y) = squeezeStars b x ++ y := by
  induction x with
  | nil => intro b; rw [List.nil_append, squeezeStars_no_star y hy]; rfl
  | cons c x ih =>
    intro b
    rw [List.cons_append, squeezeStars_cons, squeezeStars_cons, ih true, ih false]
    by_cases hc : c = star
    · cases b <;> simp [hc]
    · simp [hc]

theorem contPrefix_all (t : GoString) : ∀ k : Nat, t.length ≤ k → contPrefix k t = true →
    ∀ x ∈ t, isCont x = true := by
  induction t with
  | nil => intro k _ _ x hx; simp at hx
  | cons c rest ih =>
    intro k hk hc x hx
    cases k with
    | zero => simp at hk
    | succ k =>
      simp only [contPrefix, Bool.and_eq_true] at hc
      rcases List.mem_cons.mp hx with h | h
      · rw [h]; exact hc.1
      · exact ih k (by simp at hk; omega) hc.2 x h

theorem multibyte_no_star (e : Nat) (t : GoString) (hw : runeWidth (e :: t) = (e :: t).length)
    (h2 : 2 ≤ (e :: t).length) : star ∉ e :: t := by
  intro h
  rcases List.mem_cons.mp h with h | h
  · have hlt : e < 128 := by rw [← h]; decide
    have hone : runeWidth (e :: t) = 1 := by rw [runeWidth_cons, if_pos hlt]
    rw [hone] at hw
    omega
  · have hc := runeWidth_contPrefix e t
    rw [hw] at hc
    have := contPrefix_all t _ (by simp) hc star h
    exact absurd this (by decide)

theorem length_splitLine_multibyte (pre : GoString) (e : Nat) (t : GoString)
    (hw : runeWidth (e :: t) = (e :: t).length) (h2 : 2 ≤ (e :: t).length) :
    (splitLine (pre ++ e :: t)).length = sepCountRec [] (pre ++ e :: t) := by
  have he := lead_not_cont e t (by rw [hw]; exact h2)
  have hvis : ∀ j ∈ rangeIdx (pre ++ e :: t), j ≠ (pre ++ e :: t).length - 1 := by
    intro j hj
    have := rangeOffsets_le e t he hw pre 0 0 rfl j hj
    simp only [List.length_append, List.length_cons] at h2 ⊢
    omega
  unfold splitLine
  rw [length_fold_readStep _ _ _ hvis]
  have h1 := countP_rangeOffsets (pre ++ e :: t) [] 0 rfl
  have h3 := countP_range_eq_sepCountRec (pre ++ e :: t) []
  simp only [List.length_nil, List.nil_append, List.reverse_nil] at h1 h3
  unfold rangeIdx
  rw [h1, h3]
  simp

theorem length_readDriftIgnoreLine_multibyte (pre enc : GoString) (h2 : 2 ≤ enc.length)
    (hw : runeWidth enc = enc.length) :
    (readDriftIgnoreLine (pre ++ enc)).length =
      (List.range (pre ++ enc).length).countP (isSeparator (pre ++ enc)) := by
  obtain ⟨e, t, rfl⟩ : ∃ e t, enc = e :: t := by
    cases enc with
    | nil => simp at h2
    | cons e t => exact ⟨e, t, rfl⟩
  have hns := multibyte_no_star e t hw h2
  have h3 := countP_range_eq_sepCountRec (pre ++ e :: t) []
  simp only [List.length_nil, List.nil_append, List.reverse_nil] at h3
  unfold readDriftIgnoreLine
  rw [collapseStars_eq, squeeze_append_no_star _ hns, length_splitLine_multibyte _ e t hw h2,
    ← squeeze_append_no_star _ hns,
    sepCountRec_squeeze _ false [] [] (fun _ => rfl) Iff.rfl (fun h => absurd h (by simp)),
    List.range_eq_range', h3]

/-- C21: when the last character of a line is encoded in two or more bytes, the index of the
last byte is never visited by `for i := range line`, so `readDriftIgnoreLine` emits nothing
after the last separator and returns as many segments as the line has separators. The line
`a.é` reads as the single segment `a`, and a line with one separator that ends in such a
character is skipped by the loader. -/
theorem readDriftIgnoreLine_multibyte_tail :
    (∀ pre enc : GoString, 2 ≤ enc.length → runeWidth enc = enc.length →
      (readDriftIgnoreLine (pre ++ enc)).length =
        (List.range (pre ++ enc).length).countP (isSeparator (pre ++ enc))) ∧
    readDriftIgnoreLine (ascii "a." ++ [195, 169]) = [ascii "a"] ∧
    (∀ (pre enc : GoString) (r : DriftIgnore), 2 ≤ enc.length → runeWidth enc = enc.length →
      (List.range (pre ++ enc).length).countP (isSeparator (pre ++ enc)) = 1 →
      (readDriftIgnoreLine (pre ++ enc)).length < 2 ∧ loadLine r (pre ++ enc) = r) ∧
    loadLine emptyDriftIgnore (ascii "aws_iam_user.andr" ++ [195, 169]) = emptyDriftIgnore := by
  refine ⟨length_readDriftIgnoreLine_multibyte, by decide, ?_, by decide⟩
  intro pre enc r h2 hw hone
  have hlen := length_readDriftIgnoreLine_multibyte pre enc h2 hw
  rw [hone] at hlen
  refine ⟨by omega, ?_⟩
  rw [loadLine_eq_applyAction, lineAction_of_skipped]
  · rfl
  · unfold isSkippedLine
    simp [hlen]

/-- Witness for `readDriftIgnoreLine_multibyte_tail`: the line `t.i€`, whose last character
takes three bytes, has one separator and reads as one segment. -/
theorem readDriftIgnoreLine_multibyte_tail_witness :
    (readDriftIgnoreLine (ascii "t.i" ++ [226, 130, 172])).length =
      (List.range (ascii "t.i" ++ [226, 130, 172]).length).countP
        (isSeparator (ascii "t.i" ++ [226, 130, 172])) :=
  readDriftIgnoreLine_multibyte_tail.1 (ascii "t.i") [226, 130, 172] (by decide) (by decide)

/-! ## The lines a file delivers -/

theorem rawLinesAux_append_lf (l : GoString) (hl : lineFeed ∉ l) : ∀ (cur rest : GoString),
    rawLinesAux cur (l ++ lineFeed :: rest) = (cur ++ l) :: rawLinesAux [] rest := by
  induction l with
  | nil => intro cur rest; simp [rawLinesAux]
  | cons c l ih =>
    intro cur rest
    have hc : c ≠ lineFeed := fun h => hl (by simp [h])
    rw [List.cons_append, rawLinesAux, if_neg hc, ih (fun h => hl (List.mem_cons_of_mem _ h))]
    simp

theorem rawLinesAux_no_lf (l : GoString) (hl : lineFeed ∉ l) : ∀ cur : GoString,
    rawLinesAux cur l = if cur ++ l = [] then [] else [cur ++ l] := by
  induction l with
  | nil => intro cur; simp [rawLinesAux]
  | cons c l ih =>
    intro cur
    have hc : c ≠ lineFeed := fun h => hl (by simp [h])
    rw [rawLinesAux, if_neg hc, ih (fun h => hl (List.mem_cons_of_mem _ h))]
    simp

theorem rawLines_fileOfLines (lines : List GoString) (h : ∀ l ∈ lines, lineFeed ∉ l) :
    rawLines (fileOfLines lines) = lines := by
  induction lines with
  | nil => rfl
  | cons l rest ih =>
    have hl := h l (List.mem_cons_self _ _)
    have ih := ih (fun x hx => h x (List.mem_cons_of_mem _ hx))
    unfold rawLines fileOfLines at ih ⊢
    rw [List.flatMap_cons, List.append_assoc, List.singleton_append,
      rawLinesAux_append_lf l hl, ih]
    rfl

theorem isScannable_iff (l : GoString) :
    isScannable l = true ↔
      lineFeed ∉ l ∧ l.getLast? ≠ some carriageReturn ∧ l.length < maxScanTokenSize := by
  unfold isScannable
  simp only [Bool.and_eq_true, decide_eq_true_eq, and_assoc]

theorem dropCR_eq_self (l : GoString) (h : l.getLast? ≠ some carriageReturn) : dropCR l = l := by
  unfold dropCR
  rw [if_neg h]

theorem scanLines_fileOfLines (lines : List GoString)
    (h : ∀ l ∈ lines, isScannable l = true) : scanLines (fileOfLines lines) = lines := by
  unfold scanLines
  rw [rawLines_fileOfLines lines (fun l hl => ((isScannable_iff l).mp (h l hl)).1)]
  have htake : lines.takeWhile (fun l => decide (l.length < maxScanTokenSize)) = lines := by
    rw [List.takeWhile_eq_self_iff]
    intro l hl
    simpa using ((isScannable_iff l).mp (h l hl)).2.2
  rw [htake]
  have hmap : ∀ (ls : List GoString), (∀ l ∈ ls, isScannable l = true) → ls.map dropCR = ls := by
    intro ls
    induction ls with
    | nil => intro _; rfl
    | cons a rest ih =>
      intro hh
      rw [List.map_cons, dropCR_eq_self a ((isScannable_iff a).mp (hh a (List.mem_cons_self _ _))).2.1,
        ih (fun x hx => hh x (List.mem_cons_of_mem _ hx))]
  exact hmap lines h

theorem isShortLine_iff (l : GoString) :
    isShortLine l = true ↔ lineFeed ∉ l ∧ l.length < maxScanTokenSize := by
  unfold isShortLine
  simp only [Bool.and_eq_true, decide_eq_true_eq]

theorem isShortLine_of_isScannable (l : GoString) (h : isScannable l = true) :
    isShortLine l = true := by
  obtain ⟨h1, _, h3⟩ := (isScannable_iff l).mp h
  exact (isShortLine_iff l).mpr ⟨h1, h3⟩

theorem scanLines_fileOfLines_short (lines : List GoString)
    (h : ∀ l ∈ lines, isShortLine l = true) :
    scanLines (fileOfLines lines) = lines.map dropCR := by
  unfold scanLines
  rw [rawLines_fileOfLines lines (fun l hl => ((isShortLine_iff l).mp (h l hl)).1)]
  have htake : lines.takeWhile (fun l => decide (l.length < maxScanTokenSize)) = lines := by
    rw [List.takeWhile_eq_self_iff]
    intro l hl
    simpa using ((isShortLine_iff l).mp (h l hl)).2
  rw [htake]

theorem scanLines_fileOfLines_long (l1 l2 : List GoString) (long : GoString)
    (h1 : ∀ l ∈ l1, isScannable l = true) (hlf : lineFeed ∉ long)
    (hlong : maxScanTokenSize ≤ long.length) (h2 : ∀ l ∈ l2, lineFeed ∉ l) :
    scanLines (fileOfLines (l1 ++ long :: l2)) = l1 := by
  have hraw : rawLines (fileOfLines (l1 ++ long :: l2)) = l1 ++ long :: l2 := by
    apply rawLines_fileOfLines
    intro l hl
    rcases List.mem_append.mp hl with hl | hl
    · exact ((isScannable_iff l).mp (h1 l hl)).1
    · rcases List.mem_cons.mp hl with hl | hl
      · rw [hl]; exact hlf
      · exact h2 l hl
  have htake : (l1 ++ long :: l2).takeWhile (fun l => decide (l.length < maxScanTokenSize)) =
      l1 := by
    induction l1 with
    | nil =>
      have : ¬ long.length < maxScanTokenSize := by omega
      simp [List.takeWhile_cons, this]
    | cons a rest ih =>
      have ha := ((isScannable_iff a).mp (h1 a (List.mem_cons_self _ _))).2.2
      have hraw2 : rawLines (fileOfLines (rest ++ long :: l2)) = rest ++ long :: l2 := by
        apply rawLines_fileOfLines
        intro l hl
        rcases List.mem_append.mp hl with hl | hl
        · exact ((isScannable_iff l).mp (h1 l (List.mem_cons_of_mem _ hl))).1
        · rcases List.mem_cons.mp hl with hl | hl
          · rw [hl]; exact hlf
          · exact h2 l hl
      rw [List.cons_append, List.takeWhile_cons]
      simp only [ha, decide_True, if_true]
      rw [ih (fun x hx => h1 x (List.mem_cons_of_mem _ hx)) hraw2]
  unfold scanLines
  rw [hraw, htake]
  have := scanLines_fileOfLines l1 h1
  unfold scanLines at this
  rw [rawLines_fileOfLines l1 (fun l hl => ((isScannable_iff l).mp (h1 l hl)).1)] at this
  have htake1 : l1.takeWhile (fun l => decide (l.length < maxScanTokenSize)) = l1 := by
    rw [List.takeWhile_eq_self_iff]
    intro l hl
    simpa using ((isScannable_iff l).mp (h1 l hl)).2.2
  rw [htake1] at this
  exact this

theorem scanLines_single (l : GoString) (hne : l ≠ []) (h : isScannable l = true) :
    scanLines l = [l] := by
  obtain ⟨h1, h2, h3⟩ := (isScannable_iff l).mp h
  unfold scanLines rawLines
  rw [rawLinesAux_no_lf l h1]
  simp [hne, h3, dropCR_eq_self l h2]

theorem scanLines_single_lf (l : GoString) (h : isScannable l = true) :
    scanLines (l ++ [lineFeed]) = [l] := by
  have := scanLines_fileOfLines [l] (fun x hx => by rw [List.mem_singleton.mp hx]; exact h)
  simpa [fileOfLines] using this

/-! ## Rules loaded from a file -/

theorem mem_replicate_ne (n : Nat) (a b : Nat) (h : a ≠ b) : a ∉ List.replicate n b := by
  intro hm
  exact h (List.mem_replicate.mp hm).2

theorem NewDriftIgnoreOfFile_some (content : GoString) :
    NewDriftIgnoreOfFile (some content) = NewDriftIgnore (scanLines content) := rfl

theorem readIgnoreFile_some (r : DriftIgnore) (content : GoString) :
    readIgnoreFile r (some content) = loadLines r (scanLines content) := rfl

theorem NewDriftIgnoreOfFile_fileOfLines (lines : List GoString)
    (hsc : ∀ l ∈ lines, isScannable l = true) :
    NewDriftIgnoreOfFile (some (fileOfLines lines)) = NewDriftIgnore lines := by
  rw [NewDriftIgnoreOfFile_some, scanLines_fileOfLines lines hsc]

theorem NewDriftIgnoreOfFile_short (lines : List GoString)
    (hsc : ∀ l ∈ lines, isShortLine l = true) :
    NewDriftIgnoreOfFile (some (fileOfLines lines)) = NewDriftIgnore (lines.map dropCR) := by
  rw [NewDriftIgnoreOfFile_some, scanLines_fileOfLines_short lines hsc]

theorem dropCR_type_star (T : GoString) : dropCR (T ++ ascii ".*") = T ++ ascii ".*" := by
  apply dropCR_eq_self
  have h : ascii ".*" = [dot, star] := rfl
  rw [h, List.getLast?_append_of_ne_nil _ (List.cons_ne_nil _ _)]
  decide

theorem maxScanTokenSize_le_replicate (b : Nat) :
    maxScanTokenSize ≤ (List.replicate 65536 b).length := by
  rw [List.length_replicate]
  decide

theorem scanLines_long_then (long : GoString) (rest : List GoString) (hlf : lineFeed ∉ long)
    (hlong : maxScanTokenSize ≤ long.length) (hrest : ∀ l ∈ rest, lineFeed ∉ l) :
    scanLines (fileOfLines (long :: rest)) = [] :=
  scanLines_fileOfLines_long [] rest long (fun _ h => by simp at h) hlf hlong hrest

/-- C3 (as amended): for a non-empty ASCII type name `T` without dot, backslash and asterisk
that does not begin with `#`, the filter loaded from any file in which the scanner delivers
the line `T.*` ignores every resource of type `T`, whatever its id. The scanner delivers every
line of a file whose lines are all shorter than 65536 bytes, a `\r` before the `\n`
removed. -/
theorem type_wildcard_line_ignores_type (T : GoString) (hne : T ≠ []) (hascii : isASCII T)
    (hdot : dot ∉ T) (hbs : backslash ∉ T) (hstar : star ∉ T) (hhash : T.head? ≠ some hash) :
    (∀ content id : GoString, T ++ ascii ".*" ∈ scanLines content →
      IsResourceIgnored (NewDriftIgnoreOfFile (some content)) ⟨T, id⟩ = true) ∧
    (∀ (lines : List GoString) (id : GoString), (∀ l ∈ lines, isShortLine l = true) →
      T ++ ascii ".*" ∈ lines →
      IsResourceIgnored (NewDriftIgnoreOfFile (some (fileOfLines lines))) ⟨T, id⟩ = true) := by
  constructor
  · intro content id hmem
    exact ignores_type_of_delivered_line T hne hascii hdot hbs hstar hhash _ hmem id
  · intro lines id hsc hmem
    rw [NewDriftIgnoreOfFile_short lines hsc]
    exact ignores_type_of_delivered_line T hne hascii hdot hbs hstar hhash _
      (List.mem_map.mpr ⟨_, hmem, dropCR_type_star T⟩) id

/-- Witness for `type_wildcard_line_ignores_type`: a file with a comment and the line
`aws_iam_user.*`, and an id with a dot. -/
theorem type_wildcard_line_ignores_type_witness :
    IsResourceIgnored (NewDriftIgnoreOfFile (some (ascii "# users\r\naws_iam_user.*\r\n")))
      ⟨ascii "aws_iam_user", ascii "alice.admin"⟩ = true :=
  (type_wildcard_line_ignores_type (ascii "aws_iam_user") (by decide) (by decide) (by decide)
    (by decide) (by decide) (by decide)).1 (ascii "# users\r\naws_iam_user.*\r\n")
    (ascii "alice.admin") (by decide)

/-- C3 as stated fails in two ways. For the type name `#`, a non-empty ASCII string without
dot, backslash and asterisk, the line `#.*` of the file is a comment. And a file that holds a
line of 65536 bytes before the line `t.*` stops the scanner, so the rule is never read. -/
theorem type_wildcard_line_counterexample :
    ((ascii "#" ≠ [] ∧ isASCII (ascii "#") ∧ dot ∉ ascii "#" ∧ backslash ∉ ascii "#" ∧
        star ∉ ascii "#") ∧
      ascii "#" ++ ascii ".*" ∈ rawLines (ascii "#.*\n") ∧
      IsResourceIgnored (NewDriftIgnoreOfFile (some (ascii "#.*\n")))
        ⟨ascii "#", ascii "x"⟩ = false) ∧
    ((ascii "t" ≠ [] ∧ isASCII (ascii "t") ∧ dot ∉ ascii "t" ∧ backslash ∉ ascii "t" ∧
        star ∉ ascii "t") ∧
      ascii "t" ++ ascii ".*" ∈
        rawLines (fileOfLines [List.replicate 65536 hash, ascii "t.*"]) ∧
      IsResourceIgnored
        (NewDriftIgnoreOfFile (some (fileOfLines [List.replicate 65536 hash, ascii "t.*"])))
        ⟨ascii "t", ascii "x"⟩ = false) := by
  have hlf : lineFeed ∉ List.replicate 65536 hash := mem_replicate_ne _ _ _ (by decide)
  have hraw : rawLines (fileOfLines [List.replicate 65536 hash, ascii "t.*"]) =
      [List.replicate 65536 hash, ascii "t.*"] := by
    apply rawLines_fileOfLines
    intro l hl
    rcases List.mem_cons.mp hl with h | h
    · rw [h]
      exact hlf
    · rw [List.mem_singleton.mp h]
      decide
  have hscan : scanLines (fileOfLines [List.replicate 65536 hash, ascii "t.*"]) = [] := by
    apply scanLines_long_then _ _ hlf
    · exact maxScanTokenSize_le_replicate hash
    · intro l hl
      rw [List.mem_singleton.mp hl]
      decide
  refine ⟨by decide, by decide, ?_, ?_⟩
  · rw [hraw]
    exact List.mem_cons_of_mem _ (List.mem_singleton.mpr rfl)
  · rw [NewDriftIgnoreOfFile_some, hscan]
    rfl

theorem mem_escapeByte_lineFeed (c : Nat) (h : lineFeed ∈ escapeByte c) : c = lineFeed := by
  unfold escapeByte at h
  split at h
  · exact absurd h (by decide)
  · split at h
    · exact absurd h (by decide)
    · exact (List.mem_singleton.mp h).symm

theorem lineFeed_not_mem_escapeKey (s : GoString) (h : lineFeed ∉ s) :
    lineFeed ∉ escapeKey s := by
  rw [escapeKey_eq]
  intro hm
  obtain ⟨c, hc, hmem⟩ := List.mem_flatMap.mp hm
  rw [mem_escapeByte_lineFeed c hmem] at hc
  exact h hc

theorem escapeKey_append (s t : GoString) : escapeKey (s ++ t) = escapeKey s ++ escapeKey t := by
  simp [escapeKey_eq]

theorem getLast?_escapeByte (c : Nat) : (escapeByte c).getLast? = some c := by
  unfold escapeByte
  split
  · next h => rw [h]; rfl
  · split
    · next h => rw [h]; rfl
    · rfl

theorem getLast?_escapeKey (s : GoString) : (escapeKey s).getLast? = s.getLast? := by
  rcases List.eq_nil_or_concat s with rfl | ⟨init, c, rfl⟩
  · rfl
  · rw [List.concat_eq_append, escapeKey_append]
    have h1 : escapeKey [c] = escapeByte c := by
      rw [escapeKey_cons, escapeKey_nil, List.append_nil]
    have hne : escapeByte c ≠ [] := by
      intro h
      have := getLast?_escapeByte c
      rw [h] at this
      exact absurd this (by simp)
    rw [h1, List.getLast?_append_of_ne_nil _ hne, getLast?_escapeByte]
    simp

theorem isScannable_listing_line (T I : GoString) (hI : I ≠ []) (hTlf : lineFeed ∉ T)
    (hIlf : lineFeed ∉ I) (hcr : I.getLast? ≠ some carriageReturn)
    (hlen : (escapeKey T ++ dot :: escapeKey I).length < maxScanTokenSize) :
    isScannable (escapeKey T ++ dot :: escapeKey I) = true := by
  rw [isScannable_iff]
  have hEI : escapeKey I ≠ [] := fun h => hI (escapeKey_eq_nil.mp h)
  refine ⟨?_, ?_, hlen⟩
  · intro hm
    rcases List.mem_append.mp hm with h | h
    · exact lineFeed_not_mem_escapeKey T hTlf h
    · rcases List.mem_cons.mp h with h | h
      · exact absurd h (by decide)
      · exact lineFeed_not_mem_escapeKey I hIlf h
  · have : (escapeKey T ++ dot :: escapeKey I).getLast? = I.getLast? := by
      have hcons : dot :: escapeKey I = [dot] ++ escapeKey I := rfl
      rw [List.getLast?_append_of_ne_nil _ (List.cons_ne_nil _ _), hcons,
        List.getLast?_append_of_ne_nil _ hEI]
      exact getLast?_escapeKey I
    rw [this]
    exact hcr

/-- C7 (as amended): for a resource whose type and id are non-empty ASCII strings without
backslash and line feed, whose type does not begin with `#` and whose id does not end in a
carriage return, and whose listing line `escapeKey(type) + "." + escapeKey(id)` is shorter than
65536 bytes, the filter loaded from the file that holds this single line, with or without a
final line feed, ignores the resource. -/
theorem listing_line_ignores_resource (T I : GoString) (hT : T ≠ []) (hI : I ≠ [])
    (hTa : isASCII T) (hIa : isASCII I) (hTb : backslash ∉ T) (hIb : backslash ∉ I)
    (hhash : T.head? ≠ some hash) (hTlf : lineFeed ∉ T) (hIlf : lineFeed ∉ I)
    (hcr : I.getLast? ≠ some carriageReturn)
    (hlen : (resourceLine ⟨T, I⟩).length < maxScanTokenSize) :
    IsResourceIgnored (NewDriftIgnoreOfFile (some (resourceLine ⟨T, I⟩))) ⟨T, I⟩ = true ∧
    IsResourceIgnored (NewDriftIgnoreOfFile (some (resourceLine ⟨T, I⟩ ++ [lineFeed])))
      ⟨T, I⟩ = true := by
  have hrl : resourceLine ⟨T, I⟩ = escapeKey T ++ dot :: escapeKey I := rfl
  rw [hrl] at hlen ⊢
  have hsc := isScannable_listing_line T I hI hTlf hIlf hcr hlen
  have hne : escapeKey T ++ dot :: escapeKey I ≠ [] := by
    intro h
    exact hT (escapeKey_eq_nil.mp (List.append_eq_nil.mp h).1)
  have hmain := ignores_resource_of_listing_line T I hT hI hTa hIa hTb hIb hhash
  constructor
  · rw [NewDriftIgnoreOfFile_some, scanLines_single _ hne hsc]
    exact hmain
  · rw [NewDriftIgnoreOfFile_some, scanLines_single_lf _ hsc]
    exact hmain

/-- Witness for `listing_line_ignores_resource`: a bucket whose id contains dots and an
asterisk. -/
theorem listing_line_ignores_resource_witness :
    resourceLine ⟨ascii "aws_s3_bucket", ascii "my.bucket*1"⟩ = ascii "aws_s3_bucket.my\\.bucket*1" ∧
    IsResourceIgnored (NewDriftIgnoreOfFile (some (ascii "aws_s3_bucket.my\\.bucket*1")))
      ⟨ascii "aws_s3_bucket", ascii "my.bucket*1"⟩ = true ∧
    IsResourceIgnored (NewDriftIgnoreOfFile (some (ascii "aws_s3_bucket.my\\.bucket*1\n")))
      ⟨ascii "aws_s3_bucket", ascii "my.bucket*1"⟩ = true :=
  ⟨by decide,
    listing_line_ignores_resource (ascii "aws_s3_bucket") (ascii "my.bucket*1") (by decide)
      (by decide) (by decide) (by decide) (by decide) (by decide) (by decide) (by decide)
      (by decide) (by decide) (by decide)⟩

theorem scanLines_long_single (l : GoString) (hlf : lineFeed ∉ l)
    (hlong : maxScanTokenSize ≤ l.length) : scanLines l = [] := by
  have hne : l ≠ [] := by
    intro h
    rw [h] at hlong
    exact absurd hlong (by decide)
  have hnot : ¬ l.length < maxScanTokenSize := by omega
  unfold scanLines rawLines
  rw [rawLinesAux_no_lf l hlf]
  simp [hne, hnot]

theorem isResourceIgnored_empty (res : Resource) :
    IsResourceIgnored emptyDriftIgnore res = false := by
  simp [IsResourceIgnored, emptyDriftIgnore]

/-- C7 as stated fails in four ways. For type `#` and id `a` the listing line `#.a` is a
comment. For type `t` and an id `x` followed by a carriage return the scanner delivers the
line `t.x`, without the carriage return, and the rule ignores another resource. For the id
`x`, line feed, `y` the scanner delivers the two lines `t.x` and `y`. For an id of 65536
letters `b` the line does not fit in the buffer of the scanner and no rule is loaded. -/
theorem listing_line_counterexample :
    ((ascii "#" ≠ [] ∧ ascii "a" ≠ [] ∧ isASCII (ascii "#") ∧ isASCII (ascii "a") ∧
        backslash ∉ ascii "#" ∧ backslash ∉ ascii "a") ∧
      IsResourceIgnored (NewDriftIgnoreOfFile (some (resourceLine ⟨ascii "#", ascii "a"⟩)))
        ⟨ascii "#", ascii "a"⟩ = false) ∧
    ((ascii "t" ≠ [] ∧ ascii "x\r" ≠ [] ∧ isASCII (ascii "t") ∧ isASCII (ascii "x\r") ∧
        backslash ∉ ascii "t" ∧ backslash ∉ ascii "x\r") ∧
      scanLines (resourceLine ⟨ascii "t", ascii "x\r"⟩) = [ascii "t.x"] ∧
      IsResourceIgnored (NewDriftIgnoreOfFile (some (resourceLine ⟨ascii "t", ascii "x\r"⟩)))
        ⟨ascii "t", ascii "x\r"⟩ = false ∧
      IsResourceIgnored
        (NewDriftIgnoreOfFile (some (resourceLine ⟨ascii "t", ascii "x\r"⟩ ++ [lineFeed])))
        ⟨ascii "t", ascii "x\r"⟩ = false) ∧
    ((ascii "t" ≠ [] ∧ ascii "x\ny" ≠ [] ∧ isASCII (ascii "t") ∧ isASCII (ascii "x\ny") ∧
        backslash ∉ ascii "t" ∧ backslash ∉ ascii "x\ny") ∧
      scanLines (resourceLine ⟨ascii "t", ascii "x\ny"⟩) = [ascii "t.x", ascii "y"] ∧
      IsResourceIgnored (NewDriftIgnoreOfFile (some (resourceLine ⟨ascii "t", ascii "x\ny"⟩)))
        ⟨ascii "t", ascii "x\ny"⟩ = false) ∧
    ((ascii "t" ≠ [] ∧ List.replicate 65536 98 ≠ [] ∧ isASCII (ascii "t") ∧
        isASCII (List.replicate 65536 98) ∧ backslash ∉ ascii "t" ∧
        backslash ∉ List.replicate 65536 98) ∧
      scanLines (resourceLine ⟨ascii "t", List.replicate 65536 98⟩) = [] ∧
      IsResourceIgnored
        (NewDriftIgnoreOfFile (some (resourceLine ⟨ascii "t", List.replicate 65536 98⟩)))
        ⟨ascii "t", List.replicate 65536 98⟩ = false) := by
  have hI : escapeKey (List.replicate 65536 98) = List.replicate 65536 98 :=
    escapeKey_plain _ (mem_replicate_ne _ _ _ (by decide)) (mem_replicate_ne _ _ _ (by decide))
  have ht : escapeKey (ascii "t") = ascii "t" := by decide
  have hline : resourceLine ⟨ascii "t", List.replicate 65536 98⟩ =
      ascii "t." ++ List.replicate 65536 98 := by
    show escapeKey (ascii "t") ++ dot :: escapeKey (List.replicate 65536 98) = _
    rw [hI, ht]
    rfl
  have hlf : lineFeed ∉ ascii "t." ++ List.replicate 65536 98 := by
    intro h
    rcases List.mem_append.mp h with h | h
    · exact absurd h (by decide)
    · exact mem_replicate_ne _ _ _ (by decide) h
  have hlen : maxScanTokenSize ≤ (ascii "t." ++ List.replicate 65536 98).length := by
    rw [List.length_append, List.length_replicate]
    decide
  have hscan : scanLines (resourceLine ⟨ascii "t", List.replicate 65536 98⟩) = [] := by
    rw [hline]
    exact scanLines_long_single _ hlf hlen
  have hne : List.replicate 65536 98 ≠ [] := by
    intro h
    have := congrArg List.length h
    rw [List.length_replicate] at this
    exact absurd this (by decide)
  have hasc : isASCII (List.replicate 65536 98) := by
    intro b hb
    rw [(List.mem_replicate.mp hb).2]
    decide
  refine ⟨by decide, by decide, by decide, ⟨by decide, hne, by decide, hasc, by decide,
    mem_replicate_ne _ _ _ (by decide)⟩, hscan, ?_⟩
  rw [NewDriftIgnoreOfFile_some, hscan]
  exact isResourceIgnored_empty _

theorem replicate_hash_skipped : isSkippedLine (List.replicate 65536 hash) = true := by
  have hp : hasPrefix (List.replicate 65536 hash) [hash] = true := by
    have h : List.replicate 65536 hash = hash :: List.replicate 65535 hash := rfl
    rw [h, hasPrefix_hash_cons]
    exact decide_eq_true rfl
  unfold isSkippedLine
  rw [hp, Bool.or_true, Bool.true_or]

theorem lineFeed_not_mem_long_rule : lineFeed ∉ ascii "a." ++ List.replicate 65536 98 := by
  intro h
  rcases List.mem_append.mp h with h | h
  · exact absurd h (by decide)
  · exact mem_replicate_ne _ _ _ (by decide) h

theorem maxScanTokenSize_le_long_rule :
    maxScanTokenSize ≤ (ascii "a." ++ List.replicate 65536 98).length := by
  rw [List.length_append, List.length_replicate]
  decide

/-- C13 (as amended): the rule collections loaded from a file are those the line loop produces
from the lines the scanner delivers, with every delivered line that is empty, begins with `#`
or reads as fewer than two segments removed. For lines that are each shorter than 65536 bytes,
hold no line feed and do not end in a carriage return, the file of the lines and the file of
the lines without the skipped ones load the same collections. -/
theorem loadLines_skips_invalid :
    (∀ (r : DriftIgnore) (content : GoString),
      readIgnoreFile r (some content) =
        loadLines r ((scanLines content).filter fun l => !isSkippedLine l)) ∧
    (∀ lines : List GoString, (∀ l ∈ lines, isScannable l = true) →
      NewDriftIgnoreOfFile (some (fileOfLines lines)) =
        NewDriftIgnoreOfFile (some (fileOfLines (lines.filter fun l => !isSkippedLine l)))) ∧
    NewDriftIgnoreOfFile (some (ascii "\n# comment\r\nnodot\na.b\n.\nc.*")) =
      NewDriftIgnoreOfFile (some (ascii "a.b\nc.*\n")) := by
  refine ⟨?_, ?_, by decide⟩
  · intro r content
    rw [readIgnoreFile_some]
    exact loadLines_filter_skipped.1 r (scanLines content)
  · intro lines hsc
    have hsc2 : ∀ l ∈ lines.filter (fun l => !isSkippedLine l), isScannable l = true :=
      fun l hl => hsc l (List.mem_filter.mp hl).1
    rw [NewDriftIgnoreOfFile_fileOfLines lines hsc, NewDriftIgnoreOfFile_fileOfLines _ hsc2]
    exact loadLines_filter_skipped.2.1 lines

/-- Witness for `loadLines_skips_invalid`: a file of six lines, four of which are skipped. -/
theorem loadLines_skips_invalid_witness :
    NewDriftIgnoreOfFile (some (fileOfLines
        [ascii "", ascii "# comment", ascii "nodot", ascii "a.b", ascii ".", ascii "c.*"])) =
      NewDriftIgnoreOfFile (some (fileOfLines
        ([ascii "", ascii "# comment", ascii "nodot", ascii "a.b", ascii ".", ascii "c.*"].filter
          fun l => !isSkippedLine l))) :=
  loadLines_skips_invalid.2.1
    [ascii "", ascii "# comment", ascii "nodot", ascii "a.b", ascii ".", ascii "c.*"] (by decide)

/-- C13 as stated fails for a comment line of 65536 bytes followed by the rule `c.d`: the
scanner stops at the comment line, so the file loads no rule, while the file without the
comment line loads the rule `c.d`. -/
theorem loadLines_skips_invalid_counterexample :
    [List.replicate 65536 hash, ascii "c.d"].filter (fun l => !isSkippedLine l) = [ascii "c.d"] ∧
    (NewDriftIgnoreOfFile
      (some (fileOfLines [List.replicate 65536 hash, ascii "c.d"]))).resExclusionList = [] ∧
    (NewDriftIgnoreOfFile (some (fileOfLines
      ([List.replicate 65536 hash, ascii "c.d"].filter
        fun l => !isSkippedLine l)))).resExclusionList = [ascii "c.d"] := by
  have hlf : lineFeed ∉ List.replicate 65536 hash := mem_replicate_ne _ _ _ (by decide)
  have hfilter : [List.replicate 65536 hash, ascii "c.d"].filter (fun l => !isSkippedLine l) =
      [ascii "c.d"] := by
    have h2 : isSkippedLine (ascii "c.d") = false := by decide
    simp only [List.filter_cons, replicate_hash_skipped, h2, List.filter_nil, Bool.not_true,
      Bool.not_false, Bool.false_eq_true, if_false, if_true]
  have hscan : scanLines (fileOfLines [List.replicate 65536 hash, ascii "c.d"]) = [] := by
    apply scanLines_long_then _ _ hlf (maxScanTokenSize_le_replicate hash)
    intro l hl
    rw [List.mem_singleton.mp hl]
    decide
  refine ⟨hfilter, ?_, ?_⟩
  · rw [NewDriftIgnoreOfFile_some, hscan]
    rfl
  · rw [hfilter]
    decide

/-- C20 (as amended): for rule lines that hold no line feed and are each shorter than 65536
bytes, the order of the lines in the file does not matter. Two files whose lists of lines are
permutations of each other load filters that give the same `IsResourceIgnored` and
`IsFieldIgnored` answers; and `IsResourceIgnored` does not depend on the order in which the
wildcard-match set is visited. -/
theorem rule_order_irrelevant :
    (∀ (lines lines2 : List GoString), lines.Perm lines2 →
      (∀ l ∈ lines, isShortLine l = true) →
      ∀ (equalFold : GoString → GoString → Bool) (res : Resource) (path : List GoString),
        IsResourceIgnored (NewDriftIgnoreOfFile (some (fileOfLines lines))) res =
          IsResourceIgnored (NewDriftIgnoreOfFile (some (fileOfLines lines2))) res ∧
        IsFieldIgnored equalFold (NewDriftIgnoreOfFile (some (fileOfLines lines))) res path =
          IsFieldIgnored equalFold (NewDriftIgnoreOfFile (some (fileOfLines lines2))) res
            path) ∧
    (∀ (r r2 : DriftIgnore) (res : Resource),
      r2.resExclusionList = r.resExclusionList →
      r2.resExclusionWildcardList.Perm r.resExclusionWildcardList →
      IsResourceIgnored r2 res = IsResourceIgnored r res) := by
  refine ⟨?_, delivered_order_irrelevant.2⟩
  intro lines lines2 hperm hsc equalFold res path
  have hsc2 : ∀ l ∈ lines2, isShortLine l = true := fun l hl => hsc l (hperm.mem_iff.mpr hl)
  rw [NewDriftIgnoreOfFile_short lines hsc, NewDriftIgnoreOfFile_short lines2 hsc2]
  exact delivered_order_irrelevant.1 _ _ (hperm.map dropCR) equalFold res path

/-- Witness for `rule_order_irrelevant`: a file of three rules and the file with the rules in
reverse order. -/
theorem rule_order_irrelevant_witness :
    IsResourceIgnored
        (NewDriftIgnoreOfFile (some (fileOfLines [ascii "a.b", ascii "c.*\r", ascii "a.b.f"])))
        ⟨ascii "c", ascii "x"⟩ =
      IsResourceIgnored
        (NewDriftIgnoreOfFile (some (fileOfLines [ascii "a.b.f", ascii "c.*\r", ascii "a.b"])))
        ⟨ascii "c", ascii "x"⟩ ∧
    IsFieldIgnored asciiEqualFold
        (NewDriftIgnoreOfFile (some (fileOfLines [ascii "a.b", ascii "c.*\r", ascii "a.b.f"])))
        ⟨ascii "a", ascii "b"⟩ [ascii "f"] =
      IsFieldIgnored asciiEqualFold
        (NewDriftIgnoreOfFile (some (fileOfLines [ascii "a.b.f", ascii "c.*\r", ascii "a.b"])))
        ⟨ascii "a", ascii "b"⟩ [ascii "f"] :=
  ⟨(rule_order_irrelevant.1 [ascii "a.b", ascii "c.*\r", ascii "a.b.f"]
      [ascii "a.b.f", ascii "c.*\r", ascii "a.b"] (List.reverse_perm _).symm (by decide)
      asciiEqualFold ⟨ascii "c", ascii "x"⟩ []).1,
    (rule_order_irrelevant.1 [ascii "a.b", ascii "c.*\r", ascii "a.b.f"]
      [ascii "a.b.f", ascii "c.*\r", ascii "a.b"] (List.reverse_perm _).symm (by decide)
      asciiEqualFold ⟨ascii "a", ascii "b"⟩ [ascii "f"]).2⟩

/-- C20 as stated fails for the rule line `a.` followed by 65536 letters `b` and the rule line
`c.d`: with the long line first the scanner stops before `c.d` and the resource `(c, d)` is not
ignored, with the long line last it is. -/
theorem rule_order_counterexample :
    [ascii "a." ++ List.replicate 65536 98, ascii "c.d"].Perm
      [ascii "c.d", ascii "a." ++ List.replicate 65536 98] ∧
    IsResourceIgnored (NewDriftIgnoreOfFile
      (some (fileOfLines [ascii "a." ++ List.replicate 65536 98, ascii "c.d"])))
      ⟨ascii "c", ascii "d"⟩ = false ∧
    IsResourceIgnored (NewDriftIgnoreOfFile
      (some (fileOfLines [ascii "c.d", ascii "a." ++ List.replicate 65536 98])))
      ⟨ascii "c", ascii "d"⟩ = true := by
  have h1 : scanLines (fileOfLines [ascii "a." ++ List.replicate 65536 98, ascii "c.d"]) =
      [] := by
    apply scanLines_long_then _ _ lineFeed_not_mem_long_rule maxScanTokenSize_le_long_rule
    intro l hl
    rw [List.mem_singleton.mp hl]
    decide
  have h2 : scanLines (fileOfLines [ascii "c.d", ascii "a." ++ List.replicate 65536 98]) =
      [ascii "c.d"] :=
    scanLines_fileOfLines_long [ascii "c.d"] [] (ascii "a." ++ List.replicate 65536 98)
      (by decide) lineFeed_not_mem_long_rule maxScanTokenSize_le_long_rule
      (fun _ h => absurd h (List.not_mem_nil _))
  refine ⟨List.Perm.swap _ _ _, ?_, ?_⟩
  · rw [NewDriftIgnoreOfFile_some, h1]
    rfl
  · rw [NewDriftIgnoreOfFile_some, h2]
    decide

/-- C16: the string `café` holds no backslash, so `escapeKey` returns it unchanged, but its last
character takes two bytes, so `for i := range line` never visits the index of the last byte
and `unescapeDriftIgnoreLine` returns the empty string. `readDriftIgnoreLine` passes this
segment to `unescapeDriftIgnoreLine` when it reads the line `t.café.f`. -/
theorem unescape_escapeKey_multibyte :
    strContains [99, 97, 102, 195, 169] [backslash, backslash] = false ∧
    escapeKey [99, 97, 102, 195, 169] = [99, 97, 102, 195, 169] ∧
    unescapeDriftIgnoreLine (escapeKey [99, 97, 102, 195, 169]) = [] ∧
    unescapeDriftIgnoreLine (escapeKey [99, 97, 102, 195, 169]) ≠ [99, 97, 102, 195, 169] ∧
    readDriftIgnoreLine (ascii "t." ++ [99, 97, 102, 195, 169] ++ ascii ".f") =
      [ascii "t", unescapeDriftIgnoreLine [99, 97, 102, 195, 169], ascii "f"] ∧
    readDriftIgnoreLine (ascii "t." ++ [99, 97, 102, 195, 169] ++ ascii ".f") =
      [ascii "t", [], ascii "f"] := by
  decide

/-- A field rule whose id pattern is not ASCII. For the pattern `*é`, whose last character
takes two bytes, the line `t.*é.f` is read with an empty id segment: the field is ignored on
the resource with the empty id and not on the resource whose id is the pattern. -/
theorem non_ascii_id_pattern_field_rule :
    readDriftIgnoreLine (ascii "t" ++ ascii "." ++ [42, 195, 169] ++ ascii "." ++ ascii "f") =
      [ascii "t", [], ascii "f"] ∧
    collapseStars [42, 195, 169] = [42, 195, 169] ∧
    IsFieldIgnored asciiEqualFold
      (NewDriftIgnore [ascii "t" ++ ascii "." ++ [42, 195, 169] ++ ascii "." ++ ascii "f"])
      ⟨ascii "t", [42, 195, 169]⟩ [ascii "f"] = false ∧
    IsFieldIgnored asciiEqualFold
      (NewDriftIgnore [ascii "t" ++ ascii "." ++ [42, 195, 169] ++ ascii "." ++ ascii "f"])
      ⟨ascii "t", []⟩ [ascii "f"] = true := by
  decide

end Driftignore
